import Mathlib

/-!
# Substitution and scan orchestration of the Oniguruma binding

A shallow embedding of `ext/rb_oniguruma_oregexp.c`: the replacement-template
interpreter (`og_oniguruma_oregexp_do_replacement`), the substitution loop
(`og_oniguruma_oregexp_do_substitution`) and the scan loop
(`og_oniguruma_oregexp_do_scan`).

Conventions of the embedding.

* A byte string is a `List Nat`; offsets into it and C `int`/`long` values are `Int`.
* The matching engine (`regex_t`, `onig_search`, the encoding descriptor, the name
  table) is external to the binding and is a parameter, `Engine`.
* The outcome of a call is a `Res`: a value, a raised exception, or `timeout` when
  the fuel of a loop ran out (the C loop would still be running).
* A read outside the bytes of a string is undefined in C; here it is the
  outcome `Raised.out_of_bounds`.
-/

namespace Oniguruma

/-- A byte string (`RSTRING(s)->ptr`, `RSTRING(s)->len`). -/
abbrev Bytes := List Nat

/-- The exceptions the embedded code can raise. -/
inductive Raised where
  /-- Raised by `rb_str_buf_cat` called with a negative length (host `ArgumentError`). -/
  | negative_size
  /-- A read outside the bytes of a string or outside the region arrays. -/
  | out_of_bounds
  /-- Raised by `og_oniguruma_string_modification_check`: `RuntimeError "string modified"`. -/
  | string_modified
  /-- Raised by `rb_raise(rb_eArgError, "Oniguruma Error: %s")` for the engine status `code`. -/
  | onig_error (code : Int)
  /-- An exception raised inside the block given by the caller. -/
  | block_raised (tag : Nat)
  /-- Raised by the host's `rb_fix2int`: `RangeError "integer too big to convert to int"`. -/
  | range_error
  deriving DecidableEq, Repr

/-- Outcome of a call: a value, an exception, or fuel exhaustion. -/
inductive Res (α : Type) where
  | ok (a : α)
  | raise (e : Raised)
  | timeout
  deriving DecidableEq, Repr

/-- Sequencing of outcomes: the first exception or timeout wins. -/
def Res.bind {α β : Type} (x : Res α) (f : α → Res β) : Res β :=
  match x with
  | .ok a => f a
  | .raise e => .raise e
  | .timeout => .timeout

instance : Monad Res where
  pure := Res.ok
  bind := Res.bind

/-- The constant `ONIG_MISMATCH`. -/
def ONIG_MISMATCH : Int := -1

/-- The constant `ONIGERR_UNDEFINED_NAME_REFERENCE`. -/
def ONIGERR_UNDEFINED_NAME_REFERENCE : Int := -217

/-- The constant `ONIG_REGION_NOTPOS`. -/
def ONIG_REGION_NOTPOS : Int := -1

/-- The encoding descriptor of the engine (`OnigEncoding`). Each function receives the
bytes from the pointer it is given up to the end of the string. -/
structure OnigEncoding where
  /-- Macro `ONIGENC_MBC_ENC_LEN(enc, p)` (`enc_len`): width of the character at `p`. -/
  mbc_enc_len : Bytes → Nat
  /-- Macro `ONIGENC_MBC_TO_CODE(enc, p, end)`: code point of the character at `p`. -/
  mbc_to_code : Bytes → Nat
  /-- Macro `ONIGENC_IS_CODE_DIGIT(enc, code)`. -/
  is_code_digit : Nat → Bool
  /-- Macro `ONIGENC_IS_CODE_WORD(enc, code)`. -/
  is_code_word : Nat → Bool

/-- The struct `OnigRegion`: the group boundaries one search leaves behind. -/
structure OnigRegion where
  num_regs : Int
  beg : List Int
  end_ : List Int
  deriving DecidableEq, Repr

/-- Read of `arr[i]` on a region array; an index outside the array is a fault. -/
def region_at (arr : List Int) (i : Int) : Res Int :=
  if 0 ≤ i then
    match arr[i.toNat]? with
    | some v => .ok v
    | none => .raise .out_of_bounds
  else .raise .out_of_bounds

/-- The external engine behind one compiled pattern (`oregexp->reg`). -/
structure Engine where
  /-- Engine call `onig_get_encoding(reg)`. -/
  encoding : OnigEncoding
  /-- Engine call `onig_search(reg, str, str + len, str + start, str + range, region, ONIG_OPTION_NONE)`
  as a function of the subject bytes, `start` and `range`: the returned status and the
  region contents after the call. -/
  search : Bytes → Int → Int → Int × OnigRegion
  /-- Engine call `onig_name_to_backref_number(reg, name, name_end, region)`. -/
  name_to_backref_number : Bytes → OnigRegion → Int
  /-- Engine call `onig_number_of_names(reg)`. -/
  number_of_names : Int
  /-- The table that `onig_foreach_name` fills through `og_oniguruma_name_callback`, as a
  function of the region; the callback is not among the embedded files. -/
  named_captures : OnigRegion → List (Bytes × List Int)

/-- Host function `rb_str_buf_cat(buffer, mem + off, len)`: append `len` bytes of `mem` starting at
offset `off`. A zero length returns the buffer untouched, a negative one raises. -/
def rb_str_buf_cat (buffer mem : Bytes) (off len : Int) : Res Bytes :=
  if len = 0 then .ok buffer
  else if len < 0 then .raise .negative_size
  else if off < 0 ∨ (mem.length : Int) < off + len then .raise .out_of_bounds
  else .ok (buffer ++ (mem.drop off.toNat).take len.toNat)

/-- The macro `og_oniguruma_oregexp_get_code_point(cp, cpl, enc, rep, pos)`. -/
def get_code_point (enc : OnigEncoding) (rep : Bytes) (pos : Nat) : Nat × Nat :=
  (enc.mbc_to_code (rep.drop pos), enc.mbc_enc_len (rep.drop pos))

/-- Conversion of an arithmetic result to a 32-bit C `int`. -/
def to_int (x : Int) : Int := (x + 2147483648) % 4294967296 - 2147483648

/-- Variables of the digit loop of `do_replacement` (lines 402-416). -/
structure DigitScan where
  position : Nat
  digits : Nat
  group : Int
  code_point : Nat
  code_point_len : Nat
  deriving DecidableEq, Repr

/-- The `while(1)` digit loop: at most two digits are taken. The fuel is the number of
iterations left; two are always enough because of `if (digits >= 2) break`. -/
def scan_digits (enc : OnigEncoding) (rep : Bytes) : Nat → DigitScan → DigitScan
  | 0, s => s
  | k + 1, s =>
    if rep.length ≤ s.position then s
    else
      let cp := (get_code_point enc rep s.position).1
      let cpl := (get_code_point enc rep s.position).2
      if enc.is_code_digit cp = false then
        { s with code_point := cp, code_point_len := cpl }
      else
        let s1 : DigitScan :=
          { position := s.position + cpl
            digits := s.digits + 1
            group := to_int (s.group * 10 + ((cp : Int) - 48))
            code_point := cp
            code_point_len := cpl }
        if 2 ≤ s1.digits then s1 else scan_digits enc rep k s1

/-- Variables of the name loop of the `'<'` case (lines 463-475). -/
structure NameScan where
  named_group_pos : Nat
  named_group_end : Nat
  code_point : Nat
  code_point_len : Nat
  deriving DecidableEq, Repr

/-- The `while (named_group_pos < len)` loop of the `'<'` case. -/
def scan_name (enc : OnigEncoding) (rep : Bytes) : Nat → NameScan → Res NameScan
  | 0, s => if rep.length ≤ s.named_group_pos then .ok s else .timeout
  | k + 1, s =>
    if rep.length ≤ s.named_group_pos then .ok s
    else
      let cp := (get_code_point enc rep s.named_group_pos).1
      let cpl := (get_code_point enc rep s.named_group_pos).2
      let s1 : NameScan :=
        { s with named_group_pos := s.named_group_pos + cpl, code_point := cp, code_point_len := cpl }
      if cp = 0x3e then .ok s1
      else if enc.is_code_word cp then
        scan_name enc rep k { s1 with named_group_end := s.named_group_end + cpl }
      else .ok s1

/-- Append the text of group `group` of the region: `subj + beg[group]`, length
`end[group] - beg[group]`. -/
def cat_group (buffer subj : Bytes) (region : OnigRegion) (group : Int) : Res Bytes := do
  let b ← region_at region.beg group
  let e ← region_at region.end_ group
  rb_str_buf_cat buffer subj b (e - b)

/-- The `for (group = num_regs - 1; group > 0; group--)` loop of the `'+'` case, started
at `group`. -/
def cat_last_group (buffer subj : Bytes) (region : OnigRegion) : Nat → Res Bytes
  | 0 => .ok buffer
  | g + 1 => do
    let b ← region_at region.beg ((g + 1 : Nat) : Int)
    if b ≠ -1 then cat_group buffer subj region ((g + 1 : Nat) : Int)
    else cat_last_group buffer subj region g

/-- The `'<'` case of the escape switch (lines 462-491): `position` is at the `<`, whose
width is `code_point_len`; `previous_code_point_len` is the width the digit loop left. -/
def escape_named (E : Engine) (subj rep : Bytes) (region : OnigRegion)
    (position previous_code_point_len code_point code_point_len : Nat) (buffer : Bytes) :
    Res (Nat × Bytes) := do
  let n ← scan_name E.encoding rep (rep.length + 1)
    { named_group_pos := position + code_point_len
      named_group_end := position + code_point_len
      code_point := code_point
      code_point_len := code_point_len }
  if n.code_point ≠ 0x3e ∨ n.named_group_end = position + code_point_len then do
    let buffer ← rb_str_buf_cat buffer rep
      ((position : Int) - previous_code_point_len)
      ((previous_code_point_len : Int) + n.code_point_len)
    pure (position + n.code_point_len, buffer)
  else if 0 ≤ E.name_to_backref_number
      ((rep.drop (position + code_point_len)).take
        (n.named_group_end - (position + code_point_len))) region then do
    let buffer ← cat_group buffer subj region
      (E.name_to_backref_number
        ((rep.drop (position + code_point_len)).take
          (n.named_group_end - (position + code_point_len))) region)
    pure (n.named_group_pos, buffer)
  else pure (n.named_group_pos, buffer)

/-- The `switch (code_point)` of the branch `digits == 0` (lines 418-498): `position` is
at the character after the backslash, `code_point` and `code_point_len` are read there,
and `previous_code_point_len` is the width the digit loop left. Returns the new position
and buffer. -/
def escape_char (E : Engine) (subj rep : Bytes) (region : OnigRegion)
    (position previous_code_point_len code_point code_point_len : Nat) (buffer : Bytes) :
    Res (Nat × Bytes) :=
  if code_point = 0x5c then do
    let buffer ← rb_str_buf_cat buffer rep position code_point_len
    pure (position + code_point_len, buffer)
  else if code_point = 0x26 then do
    let b ← region_at region.beg 0
    let e ← region_at region.end_ 0
    let buffer ← rb_str_buf_cat buffer subj b (e - b)
    pure (position + code_point_len, buffer)
  else if code_point = 0x60 then do
    let b ← region_at region.beg 0
    let buffer ← rb_str_buf_cat buffer subj 0 b
    pure (position + code_point_len, buffer)
  else if code_point = 0x27 then do
    let e ← region_at region.end_ 0
    let buffer ← rb_str_buf_cat buffer subj e ((subj.length : Int) - e)
    pure (position + code_point_len, buffer)
  else if code_point = 0x2b then do
    let buffer ← cat_last_group buffer subj region (region.num_regs - 1).toNat
    pure (position + code_point_len, buffer)
  else if code_point = 0x3c then
    escape_named E subj rep region position previous_code_point_len code_point
      code_point_len buffer
  else do
    let buffer ← rb_str_buf_cat buffer rep
      ((position : Int) - previous_code_point_len)
      ((previous_code_point_len : Int) + code_point_len)
    pure (position + code_point_len, buffer)

/-- The branch `digits != 0` (lines 499-503): the text of group `group` when it is a
group of the region that took part in the match. -/
def escape_group (subj : Bytes) (region : OnigRegion) (position : Nat) (group : Int)
    (buffer : Bytes) : Res (Nat × Bytes) :=
  if group < region.num_regs then do
    let b ← region_at region.beg group
    if 0 ≤ b then do
      let buffer ← cat_group buffer subj region group
      pure (position, buffer)
    else pure (position, buffer)
  else pure (position, buffer)

/-- The handling of an escape in `do_replacement` (lines 402-503), entered with `position`
just after a backslash that is not the last character; `code_point` and `code_point_len`
are those of the backslash. Returns the new position and buffer. -/
def do_escape (E : Engine) (subj rep : Bytes) (region : OnigRegion)
    (position code_point code_point_len : Nat) (buffer : Bytes) : Res (Nat × Bytes) :=
  let d := scan_digits E.encoding rep 2
    { position := position, digits := 0, group := 0,
      code_point := code_point, code_point_len := code_point_len }
  if d.digits = 0 then
    escape_char E subj rep region d.position d.code_point_len
      (get_code_point E.encoding rep d.position).1
      (get_code_point E.encoding rep d.position).2 buffer
  else escape_group subj region d.position d.group buffer

/-- The `while (position < RSTRING(replacement)->len)` loop of `do_replacement`. -/
def do_replacement_loop (E : Engine) (subj rep : Bytes) (region : OnigRegion) :
    Nat → Nat → Bytes → Res Bytes
  | 0, position, buffer => if rep.length ≤ position then .ok buffer else .timeout
  | fuel + 1, position, buffer =>
    if rep.length ≤ position then .ok buffer
    else
      let code_point := (get_code_point E.encoding rep position).1
      let cpl := (get_code_point E.encoding rep position).2
      let code_point_len := if cpl = 0 then 1 else cpl
      let position := position + code_point_len
      if code_point ≠ 0x5c then do
        let buffer ← rb_str_buf_cat buffer rep ((position : Int) - code_point_len) code_point_len
        do_replacement_loop E subj rep region fuel position buffer
      else if rep.length ≤ position then
        rb_str_buf_cat buffer rep ((position : Int) - code_point_len) code_point_len
      else do
        let r ← do_escape E subj rep region position code_point code_point_len buffer
        do_replacement_loop E subj rep region fuel r.1 r.2

/-- Embeds `og_oniguruma_oregexp_do_replacement(self, buffer, str, replacement, region)`: the
buffer after the interpolation of the template was appended. Every iteration of the
loop advances by at least one byte, so `replacement.length` iterations are enough. -/
def og_oniguruma_oregexp_do_replacement (E : Engine) (buffer subj replacement : Bytes) (region : OnigRegion) :
    Res Bytes :=
  do_replacement_loop E subj replacement region replacement.length 0 buffer

/-- A Ruby string object: the identity of its buffer (`RSTRING(s)->ptr`) and its bytes. -/
structure RString where
  ptr : Nat
  bytes : Bytes
  deriving DecidableEq, Repr

/-- Modelled from the spec: the match object built by `og_oniguruma_match_initialize`,
whose source is not among the embedded files. Following the data model of the spec it
holds the region of the match, the subject, and the `@named_captures` table that
`do_match` sets when the pattern has names. -/
structure MatchData where
  region : OnigRegion
  string : Bytes
  named_captures : Option (List (Bytes × List Int))
  deriving DecidableEq, Repr

/-- The process-wide cells the binding writes. -/
structure World where
  /-- The class variable `@@last_match`. -/
  last_match : Option MatchData
  /-- The cell `rb_backref_set` writes. -/
  backref : Option MatchData
  deriving DecidableEq, Repr

/-- What a block given by the caller leaves behind: its result as a string
(`rb_obj_as_string`), the state of the subject string object afterwards, and the
process-wide cells as the block leaves them (a block may call the binding again). -/
structure BlockResult where
  value : Bytes
  str : RString
  world : World
  deriving DecidableEq, Repr

/-- A block given by the caller (`rb_yield`): it receives the match, and runs on the
subject string object and the process-wide cells as they are when it is called; it may
raise. -/
abbrev Block := MatchData → RString → World → Res BlockResult

/-- Embeds `og_oniguruma_oregexp_do_match(self, region, string)`. -/
def og_oniguruma_oregexp_do_match (E : Engine) (region : OnigRegion) (string : Bytes)
    (w : World) : MatchData × World :=
  let m : MatchData :=
    { region := region, string := string,
      named_captures := if 0 < E.number_of_names then some (E.named_captures region) else none }
  (m, { w with last_match := some m })

/-- Embeds `og_oniguruma_string_modification_check(s, p, len)`. -/
def og_oniguruma_string_modification_check (s : RString) (p : Nat) (len : Int) : Res Unit :=
  if s.ptr ≠ p ∨ (s.bytes.length : Int) ≠ len then .raise .string_modified else .ok ()

/-- The arguments of a substitution (`og_SubstitutionArgs` without `self` and `str`):
`block = none` is the call with a replacement template. -/
structure og_SubstitutionArgs where
  replacement : Bytes
  block : Option Block
  global : Bool
  update_self : Bool

/-- The value a substitution returns. -/
inductive Value where
  /-- The value `Qnil`. -/
  | nil
  /-- A newly allocated string (`rb_str_dup(str)` or the assembled buffer). -/
  | fresh (bytes : Bytes)
  /-- The subject string object itself (`str`), after `replace`. -/
  | subject
  deriving DecidableEq, Repr

/-- Variables of the `do ... while` loop of `do_substitution`. `visited` is a ghost
variable: the region contents at the start of each iteration, in order. -/
structure SubstLoop where
  buffer : Bytes
  end_ : Int
  subj : Bytes
  world : World
  visited : List OnigRegion
  deriving DecidableEq, Repr

/-- The replacement chunk of one iteration (lines 559-573): the block's result after the
modification check, or the interpolation of the template. -/
def substitution_chunk (E : Engine) (args : og_SubstitutionArgs) (ptr : Nat) (subj_len : Int)
    (region : OnigRegion) (buffer subj : Bytes) (w : World) : Res (Bytes × Bytes × World) :=
  match args.block with
  | some blk =>
    let mw := og_oniguruma_oregexp_do_match E region subj w
    let w1 : World := { mw.2 with backref := some mw.1 }
    match blk mw.1 { ptr := ptr, bytes := subj } w1 with
    | .ok r =>
      match og_oniguruma_string_modification_check r.str ptr subj_len with
      | .ok _ => .ok (buffer ++ r.value, r.str.bytes, r.world)
      | .raise e => .raise e
      | .timeout => .timeout
    | .raise e => .raise e
    | .timeout => .timeout
  | none =>
    match og_oniguruma_oregexp_do_replacement E buffer subj args.replacement region with
    | .ok b => .ok (b, subj, w)
    | .raise e => .raise e
    | .timeout => .timeout

/-- The `do { ... } while (begin >= 0)` loop of `do_substitution` (lines 552-590), entered
with the region of a successful search. -/
def substitution_loop (E : Engine) (args : og_SubstitutionArgs) (ptr : Nat) (subj_len : Int) :
    Nat → OnigRegion → SubstLoop → Res SubstLoop
  | 0, _, _ => .timeout
  | fuel + 1, region, st => do
    let last_end := st.end_
    let begin ← region_at region.beg 0
    let end_ ← region_at region.end_ 0
    let buffer ← rb_str_buf_cat st.buffer st.subj last_end (begin - last_end)
    let c ← substitution_chunk E args ptr subj_len region buffer st.subj st.world
    let st1 : SubstLoop :=
      { buffer := c.1, end_ := end_, subj := c.2.1, world := c.2.2,
        visited := st.visited ++ [region] }
    if args.global = false then pure st1
    else if begin = end_ then
      if subj_len ≤ end_ then pure st1
      else if end_ < 0 then .raise .out_of_bounds
      else do
        let multibyte_diff : Int := E.encoding.mbc_enc_len (st1.subj.drop end_.toNat)
        let buffer ← rb_str_buf_cat st1.buffer st1.subj end_ multibyte_diff
        let end_ := end_ + multibyte_diff
        let r := E.search st1.subj end_ subj_len
        if 0 ≤ r.1 then
          substitution_loop E args ptr subj_len fuel r.2 { st1 with buffer := buffer, end_ := end_ }
        else pure { st1 with buffer := buffer, end_ := end_ }
    else
      let r := E.search st1.subj end_ subj_len
      if 0 ≤ r.1 then substitution_loop E args ptr subj_len fuel r.2 st1
      else pure st1

/-- What a substitution leaves behind: the returned value, the bytes of the subject
string object after the call, the process-wide cells, and the ghost list of visited
regions. -/
structure SubstOut where
  value : Value
  str_bytes : Bytes
  world : World
  visited : List OnigRegion
  deriving DecidableEq, Repr

/-- Embeds `og_oniguruma_oregexp_do_substitution(args)` on the subject `str`. Taint propagation
(`OBJ_INFECT`) is not modelled. -/
def og_oniguruma_oregexp_do_substitution (E : Engine) (args : og_SubstitutionArgs)
    (str : RString) (w : World) (fuel : Nat) : Res SubstOut :=
  let subj := str.bytes
  let subj_len : Int := subj.length
  let r := E.search subj 0 subj_len
  if r.1 < 0 then
    if args.update_self then
      .ok { value := .nil, str_bytes := subj, world := w, visited := [] }
    else .ok { value := .fresh subj, str_bytes := subj, world := w, visited := [] }
  else do
    let st ← substitution_loop E args str.ptr subj_len fuel r.2
      { buffer := [], end_ := 0, subj := subj, world := w, visited := [] }
    let buffer ← rb_str_buf_cat st.buffer st.subj st.end_ (subj_len - st.end_)
    if args.update_self then
      pure { value := .subject, str_bytes := buffer, world := st.world, visited := st.visited }
    else
      pure { value := .fresh buffer, str_bytes := st.subj, world := st.world,
             visited := st.visited }

/-- The outcome of an entry point together with the bookkeeping of its match region:
how many regions it acquired (`onig_region_new`) and released (`onig_region_free`). -/
structure Ensured (α : Type) where
  result : Res α
  region_new : Nat
  region_free : Nat
  deriving DecidableEq, Repr

/-- Embeds `og_oniguruma_oregexp_do_substitution_safe(self, argc, argv, global, update_self)`:
a region is acquired, and `rb_ensure` runs `og_oniguruma_oregexp_do_cleanup` once the
substitution has returned or raised. -/
def og_oniguruma_oregexp_do_substitution_safe (E : Engine) (replacement : Bytes)
    (block : Option Block) (global update_self : Bool) (str : RString) (w : World)
    (fuel : Nat) : Ensured SubstOut :=
  let r := og_oniguruma_oregexp_do_substitution E
    { replacement := replacement, block := block, global := global,
      update_self := update_self } str w fuel
  { result := r
    region_new := 1
    region_free := match r with
      | .timeout => 0
      | _ => 1 }

/-- Method `ORegexp#gsub`. -/
def og_oniguruma_oregexp_gsub (E : Engine) (replacement : Bytes) (block : Option Block)
    (str : RString) (w : World) (fuel : Nat) : Ensured SubstOut :=
  og_oniguruma_oregexp_do_substitution_safe E replacement block true false str w fuel

/-- Method `ORegexp#gsub!`. -/
def og_oniguruma_oregexp_gsub_bang (E : Engine) (replacement : Bytes) (block : Option Block)
    (str : RString) (w : World) (fuel : Nat) : Ensured SubstOut :=
  og_oniguruma_oregexp_do_substitution_safe E replacement block true true str w fuel

/-- Method `ORegexp#sub`. -/
def og_oniguruma_oregexp_sub (E : Engine) (replacement : Bytes) (block : Option Block)
    (str : RString) (w : World) (fuel : Nat) : Ensured SubstOut :=
  og_oniguruma_oregexp_do_substitution_safe E replacement block false false str w fuel

/-- Method `ORegexp#sub!`. -/
def og_oniguruma_oregexp_sub_bang (E : Engine) (replacement : Bytes) (block : Option Block)
    (str : RString) (w : World) (fuel : Nat) : Ensured SubstOut :=
  og_oniguruma_oregexp_do_substitution_safe E replacement block false true str w fuel

/-- Variables of the `do ... while` loop of `do_scan`. -/
structure ScanLoop where
  matches_ : List MatchData
  str : RString
  world : World
  deriving DecidableEq, Repr

/-- The `do { ... } while (begin >= 0)` loop of `do_scan` (lines 727-746), entered with
the status and the region of a successful search. -/
def scan_loop (E : Engine) (block : Option Block) :
    Nat → Int → OnigRegion → ScanLoop → Res ScanLoop
  | 0, _, _, _ => .timeout
  | fuel + 1, begin, region, st => do
    let mw := og_oniguruma_oregexp_do_match E region st.str.bytes st.world
    let end_ ← region_at region.end_ 0
    let matches_ := st.matches_ ++ [mw.1]
    let y ← (match block with
      | some blk =>
        match blk mw.1 st.str mw.2 with
        | .ok r => .ok (r.str, r.world)
        | .raise e => .raise e
        | .timeout => .timeout
      | none => .ok (st.str, mw.2) : Res (RString × World))
    let str := y.1
    let st1 : ScanLoop := { matches_ := matches_, str := str, world := y.2 }
    if end_ = begin then
      if (str.bytes.length : Int) ≤ end_ then pure st1
      else if end_ < 0 then .raise .out_of_bounds
      else
        let multibyte_diff : Int := E.encoding.mbc_enc_len (str.bytes.drop end_.toNat)
        let end_ := end_ + multibyte_diff
        let r := E.search str.bytes end_ str.bytes.length
        if 0 ≤ r.1 then scan_loop E block fuel r.1 r.2 st1 else pure st1
    else
      let r := E.search str.bytes end_ str.bytes.length
      if 0 ≤ r.1 then scan_loop E block fuel r.1 r.2 st1 else pure st1

/-- What a scan leaves behind: the returned array (`none` is `Qnil`), the subject string
object and the process-wide cells. -/
structure ScanOut where
  value : Option (List MatchData)
  str : RString
  world : World
  deriving DecidableEq, Repr

/-- Embeds `og_oniguruma_oregexp_do_scan(args)` on the subject `str`. -/
def og_oniguruma_oregexp_do_scan (E : Engine) (block : Option Block) (str : RString)
    (w : World) (fuel : Nat) : Res ScanOut :=
  let r := E.search str.bytes 0 str.bytes.length
  if r.1 < 0 then .ok { value := none, str := str, world := w }
  else do
    let st ← scan_loop E block fuel r.1 r.2 { matches_ := [], str := str, world := w }
    pure { value := some st.matches_, str := st.str, world := st.world }

/-- Method `ORegexp#scan`: a region is acquired, and `rb_ensure` runs the cleanup once the scan
has returned or raised. -/
def og_oniguruma_oregexp_scan (E : Engine) (block : Option Block) (str : RString)
    (w : World) (fuel : Nat) : Ensured ScanOut :=
  let r := og_oniguruma_oregexp_do_scan E block str w fuel
  { result := r
    region_new := 1
    region_free := match r with
      | .timeout => 0
      | _ => 1 }

/-- What `match` leaves behind: the returned value (`none` is `Qnil`) and the
process-wide cells. -/
structure MatchOut where
  value : Option MatchData
  world : World
  deriving DecidableEq, Repr

/-- The part of `og_oniguruma_oregexp_match` after the call of `onig_search` (lines
343-361), for the window `[b, e)` the two conversions gave: the region is released once
on each of the three paths. -/
def match_after_search (E : Engine) (string : Bytes) (b e : Int) (w : World) :
    Ensured MatchOut :=
  let r := E.search string b e
  let w0 : World := { w with backref := none }
  if 0 ≤ r.1 then
    let mw := og_oniguruma_oregexp_do_match E r.2 string w0
    { result := .ok { value := some mw.1, world := { mw.2 with backref := some mw.1 } }
      region_new := 1
      region_free := 1 }
  else if r.1 = ONIG_MISMATCH then
    { result := .ok { value := none, world := w0 }
      region_new := 1
      region_free := 1 }
  else
    { result := .raise (.onig_error r.1)
      region_new := 1
      region_free := 1 }

/-- Method `ORegexp#match` (`og_oniguruma_oregexp_match`) on `string`, with the optional
`begin` and `end` of the search window (`none` is an omitted argument, which the code
replaces by `INT2FIX(0)` and `INT2FIX(len)`). The parameter `fix2int` is the host macro
`FIX2INT`, which is not among the embedded files: the C `int` of a Fixnum, or the
exception the host raises for it. The region is acquired at line 337, before the two
conversions, which are arguments of the call of `onig_search` at line 340 (taken here
in the order `begin`, `end`), and `match` runs without `rb_ensure`: when a conversion
raises, `match` is left with the region acquired and not released. The call of
`og_oniguruma_oregexp_do_match` at line 345 runs before the release as well; it is taken
to return, here as in the substitution and the scan. -/
def og_oniguruma_oregexp_match (fix2int : Int → Except Raised Int) (E : Engine)
    (string : Bytes) (begin end_ : Option Int) (w : World) : Ensured MatchOut :=
  let begin : Int := match begin with
    | some v => v
    | none => 0
  let end_ : Int := match end_ with
    | some v => v
    | none => string.length
  match fix2int begin with
  | .error x => { result := .raise x, region_new := 1, region_free := 0 }
  | .ok b =>
    match fix2int end_ with
    | .error x => { result := .raise x, region_new := 1, region_free := 0 }
    | .ok e => match_after_search E string b e w

/-! ## Concrete engines used to evaluate the code -/

/-- The host's `rb_fix2int`, to which `FIX2INT` expands where `long` is wider than
`int`: the value when it fits a C `int`, `RangeError` otherwise. Where `long` and `int`
have the same width every Fixnum fits and the macro is a cast. -/
def rb_fix2int (v : Int) : Except Raised Int :=
  if -2147483648 ≤ v ∧ v ≤ 2147483647 then .ok v else .error .range_error

/-- The engine's `ONIG_ENCODING_ASCII`: every character is one byte wide and is its own
code point; digits are `0`-`9`, word characters are letters, digits and `_`. -/
def ONIG_ENCODING_ASCII : OnigEncoding where
  mbc_enc_len := fun _ => 1
  mbc_to_code := fun p => p.headD 0
  is_code_digit := fun c => decide (48 ≤ c ∧ c ≤ 57)
  is_code_word := fun c =>
    decide ((48 ≤ c ∧ c ≤ 57) ∨ (65 ≤ c ∧ c ≤ 90) ∨ (97 ≤ c ∧ c ≤ 122) ∨ c = 95)

/-- The width table of the engine's `ONIG_ENCODING_UTF8` (`EncLen_UTF8`), by lead byte. -/
def utf8_enc_len (b : Nat) : Nat :=
  if b < 0xc0 then 1
  else if b < 0xe0 then 2
  else if b < 0xf0 then 3
  else if b < 0xf8 then 4
  else if b < 0xfc then 5
  else if b < 0xfe then 6
  else 1

/-- The continuation bytes folded into a UTF-8 code point: six bits each. -/
def utf8_fold (n : Nat) : Bytes → Nat
  | [] => n
  | c :: cs => utf8_fold (n * 64 + c % 64) cs

/-- The engine's `ONIG_ENCODING_UTF8`, with the digit and word classes restricted to
their ASCII members. -/
def ONIG_ENCODING_UTF8 : OnigEncoding where
  mbc_enc_len := fun p => utf8_enc_len (p.headD 0)
  mbc_to_code := fun p =>
    let c := p.headD 0
    let len := utf8_enc_len c
    if 1 < len then utf8_fold (c % 2 ^ (7 - len)) ((p.drop 1).take (len - 1)) else c
  is_code_digit := fun c => decide (48 ≤ c ∧ c ≤ 57)
  is_code_word := fun c =>
    decide ((48 ≤ c ∧ c ≤ 57) ∨ (65 ≤ c ∧ c ≤ 90) ∨ (97 ≤ c ∧ c ≤ 122) ∨ c = 95)

/-- The width table of the engine's `ONIG_ENCODING_SJIS` (`EncLen_SJIS`), by lead byte. -/
def sjis_enc_len (b : Nat) : Nat :=
  if (0x81 ≤ b ∧ b ≤ 0x9f) ∨ (0xe0 ≤ b ∧ b ≤ 0xfc) then 2 else 1

/-- The engine's `ONIG_ENCODING_SJIS`: a character is one byte, or a lead byte and a
trail byte, and the trail byte may be `0x5c`; the code point of a two-byte character is
`lead * 256 + trail`. The decoder is the one the macro
`og_oniguruma_oregexp_get_code_point` calls, with the end of its range one byte before
the end of the string: it stops at that end, so the last byte of the string is not read
as a trail byte. Digits are the ASCII digits; word characters are the ASCII word
characters and the two-byte characters. -/
def ONIG_ENCODING_SJIS : OnigEncoding where
  mbc_enc_len := fun p => sjis_enc_len (p.headD 0)
  mbc_to_code := fun p =>
    let c := p.headD 0
    if sjis_enc_len c = 1 then c
    else
      match p.dropLast.drop 1 with
      | [] => c
      | t :: _ => c * 256 + t
  is_code_digit := fun c => decide (48 ≤ c ∧ c ≤ 57)
  is_code_word := fun c =>
    decide ((48 ≤ c ∧ c ≤ 57) ∨ (65 ≤ c ∧ c ≤ 90) ∨ (97 ≤ c ∧ c ≤ 122) ∨ c = 95 ∨
      (256 ≤ c ∧ c ≤ 65535))

/-- The region of a match with the given group spans. -/
def region_of (spans : List (Int × Int)) : OnigRegion :=
  { num_regs := spans.length, beg := spans.map Prod.fst, end_ := spans.map Prod.snd }

/-- The region the engine leaves after a failed search (`onig_region_clear`). -/
def region_clear : OnigRegion := { num_regs := 0, beg := [], end_ := [] }

/-- An engine for a pattern that matches the empty string at every position: the search
from `start` reports the zero-width match `(start, start)` while `start` is inside the
subject. -/
def empty_pattern_engine (enc : OnigEncoding) : Engine where
  encoding := enc
  search := fun subj start range =>
    if 0 ≤ start ∧ start ≤ range ∧ range ≤ subj.length then (start, region_of [(start, start)])
    else (ONIG_MISMATCH, region_clear)
  name_to_backref_number := fun _ _ => ONIGERR_UNDEFINED_NAME_REFERENCE
  number_of_names := 0
  named_captures := fun _ => []

/-- The process-wide cells before any match. -/
def World.init : World := { last_match := none, backref := none }

/-! ## Vocabulary of the properties -/

/-- The bytes `S[a, b)` of a string. -/
def slice (S : Bytes) (a b : Int) : Bytes := (S.drop a.toNat).take (b - a).toNat

/-- The whole-match span `(beg[0], end[0])` of a region. -/
def OnigRegion.span0 (r : OnigRegion) : Int × Int := (r.beg.headD (-1), r.end_.headD (-1))

/-- The replacement chunk of a match: the interpolation of the template `t`, appended to
an empty buffer. -/
def replacement_chunk (E : Engine) (S t : Bytes) (region : OnigRegion) : Res Bytes :=
  og_oniguruma_oregexp_do_replacement E [] S t region

/-- The string the claim announces for a global substitution: starting at offset `last`,
the gap before each match, its replacement chunk, and after the last match the rest of
the subject. -/
def assemble (S : Bytes) : Int → List ((Int × Int) × Bytes) → Bytes
  | last, [] => slice S last S.length
  | last, (be, R) :: rest => slice S last be.1 ++ R ++ assemble S be.2 rest

/-- Engine contract: every match reported for a search from `start` lies in
`start <= begin <= end <= len(S)`. -/
def Engine.in_bounds (E : Engine) (S : Bytes) : Prop :=
  ∀ start : Int, 0 ≤ start → start ≤ S.length → 0 ≤ (E.search S start S.length).1 →
    ∃ b e, region_at (E.search S start S.length).2.beg 0 = .ok b ∧
      region_at (E.search S start S.length).2.end_ 0 = .ok e ∧
      start ≤ b ∧ b ≤ e ∧ e ≤ S.length

/-- The offsets from which the substitution and scan loops search `S`: offset 0, then
the end of each match, moved one character forward when the match was zero-width and
not at the end of the subject. -/
inductive Engine.searched (E : Engine) (S : Bytes) : Int → Prop where
  | first : Engine.searched E S 0
  | after (start b e : Int) : Engine.searched E S start →
      0 ≤ (E.search S start S.length).1 →
      region_at (E.search S start S.length).2.beg 0 = .ok b →
      region_at (E.search S start S.length).2.end_ 0 = .ok e →
      b ≠ e → Engine.searched E S e
  | after_empty (start e : Int) : Engine.searched E S start →
      0 ≤ (E.search S start S.length).1 →
      region_at (E.search S start S.length).2.beg 0 = .ok e →
      region_at (E.search S start S.length).2.end_ 0 = .ok e →
      e < S.length →
      Engine.searched E S (e + E.encoding.mbc_enc_len (S.drop e.toNat))

/-- Well-formed characters where the loops step: the character after every zero-width
match the loops meet inside the subject is at least one byte wide and lies wholly
inside the subject. -/
def Engine.whole_chars (E : Engine) (S : Bytes) : Prop :=
  ∀ start : Int, E.searched S start → 0 ≤ start → start ≤ S.length →
    0 ≤ (E.search S start S.length).1 →
    ∀ e : Int, region_at (E.search S start S.length).2.beg 0 = .ok e →
      region_at (E.search S start S.length).2.end_ 0 = .ok e → e < S.length →
      1 ≤ E.encoding.mbc_enc_len (S.drop e.toNat) ∧
        e + E.encoding.mbc_enc_len (S.drop e.toNat) ≤ S.length

/-- The interpolation of the template `t` yields a chunk for every match the loops meet
on `S`. -/
def Engine.interpolates (E : Engine) (S t : Bytes) : Prop :=
  ∀ start : Int, E.searched S start → 0 ≤ start → start ≤ S.length →
    0 ≤ (E.search S start S.length).1 →
    ∃ R, replacement_chunk E S t (E.search S start S.length).2 = .ok R

/-- First offset `p` at or after the given one where `pat` occurs in `subj` and ends at
or before `range`; the fuel is the number of offsets left to try. -/
def find_from (pat subj : Bytes) (range : Nat) : Nat → Nat → Option Nat
  | 0, _ => none
  | k + 1, p =>
    if (subj.drop p).take pat.length = pat ∧ p + pat.length ≤ range then some p
    else find_from pat subj range k (p + 1)

/-- An engine for the pattern `(?<name>pat)`, `pat` a literal byte string: group 0 and
group 1 are the first occurrence of `pat` at or after the search start, and `name` is
the only group name. -/
def named_literal_engine (enc : OnigEncoding) (pat name : Bytes) : Engine where
  encoding := enc
  search := fun subj start range =>
    if 0 ≤ start ∧ start ≤ subj.length then
      match find_from pat subj range.toNat (subj.length + 1 - start.toNat) start.toNat with
      | some p => ((p : Int), region_of [((p : Int), (p : Int) + pat.length),
                                         ((p : Int), (p : Int) + pat.length)])
      | none => (ONIG_MISMATCH, region_clear)
    else (ONIG_MISMATCH, region_clear)
  name_to_backref_number := fun n _ => if n = name then 1 else ONIGERR_UNDEFINED_NAME_REFERENCE
  number_of_names := 1
  named_captures := fun _ => [(name, [1])]

/-- The byte strings `cs` are whole characters under the encoding: each is non-empty and
exactly as wide as the encoding says, read in front of the characters that follow. -/
def whole_characters (enc : OnigEncoding) : List Bytes → Prop
  | [] => True
  | c :: cs => c ≠ [] ∧ enc.mbc_enc_len (c ++ cs.flatten) = c.length ∧ whole_characters enc cs

instance whole_characters_decidable (enc : OnigEncoding) :
    ∀ cs, Decidable (whole_characters enc cs)
  | [] => .isTrue trivial
  | c :: cs =>
    have := whole_characters_decidable enc cs
    inferInstanceAs (Decidable
      (c ≠ [] ∧ enc.mbc_enc_len (c ++ cs.flatten) = c.length ∧ whole_characters enc cs))

/-- The byte strings `cs` are whole characters under the encoding, none of them a
backslash. -/
def plain_characters (enc : OnigEncoding) : List Bytes → Prop
  | [] => True
  | c :: cs => c ≠ [] ∧ enc.mbc_enc_len (c ++ cs.flatten) = c.length ∧
      enc.mbc_to_code (c ++ cs.flatten) ≠ 0x5c ∧ plain_characters enc cs

instance plain_characters_decidable (enc : OnigEncoding) :
    ∀ cs, Decidable (plain_characters enc cs)
  | [] => .isTrue trivial
  | c :: cs =>
    have := plain_characters_decidable enc cs
    inferInstanceAs (Decidable
      (c ≠ [] ∧ enc.mbc_enc_len (c ++ cs.flatten) = c.length ∧
        enc.mbc_to_code (c ++ cs.flatten) ≠ 0x5c ∧ plain_characters enc cs))

/-- The string `r ++ c1 ++ r ++ c2 ++ ... ++ r ++ cn ++ r`. -/
def interleave (r : Bytes) : List Bytes → Bytes
  | [] => r
  | c :: cs => r ++ c ++ interleave r cs

/-- The offsets of the character boundaries of `cs`, the first character starting at
`off`: one more than there are characters. -/
def boundaries : Int → List Bytes → List Int
  | off, [] => [off]
  | off, c :: cs => off :: boundaries (off + c.length) cs

/-- The engine reports the zero-width match `(p, p)`, with status `p`, for every search
start `p <= len(S)`. -/
def Engine.empty_everywhere (E : Engine) (S : Bytes) : Prop :=
  ∀ p : Int, 0 ≤ p → p ≤ S.length →
    (E.search S p S.length).1 = p ∧
    region_at (E.search S p S.length).2.beg 0 = .ok p ∧
    region_at (E.search S p S.length).2.end_ 0 = .ok p

/-- The status a successful search returns is the start of group 0. -/
def Engine.returns_begin (E : Engine) (S : Bytes) : Prop :=
  ∀ start : Int, 0 ≤ (E.search S start S.length).1 →
    region_at (E.search S start S.length).2.beg 0 = .ok (E.search S start S.length).1

/-- ASCII compatibility of an encoding, which all the encodings of the binding's table
share: a byte below `0x80` is a character of its own, one byte wide, whose code point is
the byte, and the digits among these code points are `0`-`9`. -/
def OnigEncoding.ascii_compatible (enc : OnigEncoding) : Prop :=
  (∀ (b : Nat) (rest : Bytes), b < 0x80 →
    enc.mbc_to_code (b :: rest) = b ∧ enc.mbc_enc_len (b :: rest) = 1) ∧
  (∀ c : Nat, c < 0x80 → enc.is_code_digit c = decide (0x30 ≤ c ∧ c ≤ 0x39))

/-- The group spans are those of a match over `S`: a group either did not take part,
both its offsets being `ONIG_REGION_NOTPOS`, or lies inside the subject. -/
def spans_in (S : Bytes) (spans : List (Int × Int)) : Prop :=
  ∀ be ∈ spans, (be.1 = -1 ∧ be.2 = -1) ∨ (0 ≤ be.1 ∧ be.1 ≤ be.2 ∧ be.2 ≤ S.length)

instance spans_in_decidable (S : Bytes) (spans : List (Int × Int)) :
    Decidable (spans_in S spans) :=
  inferInstanceAs (Decidable
    (∀ be ∈ spans, (be.1 = -1 ∧ be.2 = -1) ∨ (0 ≤ be.1 ∧ be.1 ≤ be.2 ∧ be.2 ≤ S.length)))

/-- The text of group `N` of a match with the given spans: `S[beg(N), end(N))` when `N`
is a group of the region that took part in the match, nothing otherwise. -/
def group_text (S : Bytes) (spans : List (Int × Int)) (N : Nat) : Bytes :=
  match spans[N]? with
  | some be => if 0 ≤ be.1 then slice S be.1 be.2 else []
  | none => []

/-- The byte strings `cs`, read in front of `post`, are whole word characters of the
encoding, none of them `>`. -/
def word_characters (enc : OnigEncoding) (post : Bytes) : List Bytes → Prop
  | [] => True
  | c :: cs => c ≠ [] ∧ enc.mbc_enc_len (c ++ (cs.flatten ++ post)) = c.length ∧
      enc.is_code_word (enc.mbc_to_code (c ++ (cs.flatten ++ post))) = true ∧
      enc.mbc_to_code (c ++ (cs.flatten ++ post)) ≠ 0x3e ∧ word_characters enc post cs

instance word_characters_decidable (enc : OnigEncoding) (post : Bytes) :
    ∀ cs, Decidable (word_characters enc post cs)
  | [] => .isTrue trivial
  | c :: cs =>
    have := word_characters_decidable enc post cs
    inferInstanceAs (Decidable
      (c ≠ [] ∧ enc.mbc_enc_len (c ++ (cs.flatten ++ post)) = c.length ∧
        enc.is_code_word (enc.mbc_to_code (c ++ (cs.flatten ++ post))) = true ∧
        enc.mbc_to_code (c ++ (cs.flatten ++ post)) ≠ 0x3e ∧ word_characters enc post cs))

/-- The constant `ONIGERR_MEMORY`. -/
def ONIGERR_MEMORY : Int := -5

/-- An engine whose first search, from offset 0, reports the one-byte match `(0, 1)`
and whose every other search fails with the status `code`; with `first = false` the
first search fails as well. -/
def failing_engine (enc : OnigEncoding) (first : Bool) (code : Int) : Engine where
  encoding := enc
  search := fun _ start _ =>
    if first = true ∧ start = 0 then (0, region_of [(0, 1)]) else (code, region_clear)
  name_to_backref_number := fun _ _ => ONIGERR_UNDEFINED_NAME_REFERENCE
  number_of_names := 0
  named_captures := fun _ => []

/-- The span of the highest-numbered group with index at least 1 that took part in the
match, if there is one. -/
def last_group (spans : List (Int × Int)) : Option (Int × Int) :=
  ((spans.drop 1).filter (fun be => decide (be.1 ≠ -1))).getLast?

/-- The text of the highest-numbered group with index at least 1 that took part in the
match; nothing when there is none. -/
def last_group_text (S : Bytes) (spans : List (Int × Int)) : Bytes :=
  match last_group spans with
  | some be => slice S be.1 be.2
  | none => []

/-- The bytes `xs` are ASCII characters, none of them a backslash. -/
def plain_ascii (xs : Bytes) : Prop := ∀ b ∈ xs, b < 0x80 ∧ b ≠ 0x5c

instance plain_ascii_decidable (xs : Bytes) : Decidable (plain_ascii xs) :=
  inferInstanceAs (Decidable (∀ b ∈ xs, b < 0x80 ∧ b ≠ 0x5c))

/-- The bytes `name` are word characters of the encoding, none of them `>`. -/
def word_bytes (enc : OnigEncoding) (name : Bytes) : Prop :=
  ∀ b ∈ name, enc.is_code_word b = true ∧ b ≠ 0x3e

instance word_bytes_decidable (enc : OnigEncoding) (name : Bytes) :
    Decidable (word_bytes enc name) :=
  inferInstanceAs (Decidable (∀ b ∈ name, enc.is_code_word b = true ∧ b ≠ 0x3e))

/-- The name `name` that follows `\<` is empty or not closed by `>`: what comes after it
is the end of the template, or a `>` right after an empty name, or a character that is
neither `>` nor a word character. -/
def name_breaks (enc : OnigEncoding) (name rest : Bytes) : Prop :=
  match rest with
  | [] => True
  | c :: _ => (c = 0x3e ∧ name = []) ∨ (c ≠ 0x3e ∧ enc.is_code_word c = false)

instance name_breaks_decidable (enc : OnigEncoding) (name rest : Bytes) :
    Decidable (name_breaks enc name rest) :=
  match rest with
  | [] => .isTrue trivial
  | c :: _ =>
    inferInstanceAs (Decidable ((c = 0x3e ∧ name = []) ∨ (c ≠ 0x3e ∧ enc.is_code_word c = false)))


/-- Every character of `S` is at least one byte wide: the encoding reports a width of at
least 1 at each offset inside `S`. -/
def well_formed_characters (enc : OnigEncoding) (S : Bytes) : Prop :=
  ∀ p : Nat, p < S.length → 1 ≤ enc.mbc_enc_len (S.drop p)

instance well_formed_characters_decidable (enc : OnigEncoding) (S : Bytes) :
    Decidable (well_formed_characters enc S) :=
  inferInstanceAs (Decidable (∀ p : Nat, p < S.length → 1 ≤ enc.mbc_enc_len (S.drop p)))

/-- Engine contract: every match reported for a search of `S` satisfies
`start <= begin <= end <= len(S)`, whatever the offset `start` of the search. -/
def Engine.matches_in_bounds (E : Engine) (S : Bytes) : Prop :=
  ∀ start : Int, 0 ≤ start → 0 ≤ (E.search S start S.length).1 →
    ∃ b e, region_at (E.search S start S.length).2.beg 0 = .ok b ∧
      region_at (E.search S start S.length).2.end_ 0 = .ok e ∧
      start ≤ b ∧ b ≤ e ∧ e ≤ S.length

/-- The offset from which the global loops search `S` again after the match a search
from `start` left in the region: the end of the match, moved one character forward
when the match is zero-width; `none` when the loops stop without searching again (a
zero-width match at the end of the subject). -/
def Engine.next_start (E : Engine) (S : Bytes) (start : Int) : Option Int :=
  match region_at (E.search S start S.length).2.beg 0,
      region_at (E.search S start S.length).2.end_ 0 with
  | .ok b, .ok e =>
    if b = e then
      if (S.length : Int) ≤ e then none
      else some (e + E.encoding.mbc_enc_len (S.drop e.toNat))
    else some e
  | _, _ => none


/-- After the match of the search from `s`, the global loops search `S` again from `s'`,
and that search succeeds. -/
def Engine.searches_again (E : Engine) (S : Bytes) (s s' : Int) : Prop :=
  E.next_start S s = some s' ∧ 0 ≤ (E.search S s' S.length).1

instance Engine.searches_again_decidable (E : Engine) (S : Bytes) (s s' : Int) :
    Decidable (E.searches_again S s s') :=
  inferInstanceAs (Decidable (E.next_start S s = some s' ∧ 0 ≤ (E.search S s' S.length).1))

/-- After the match of the search from `s`, the global loops stop: they do not search
`S` again, or the search they make fails. -/
def Engine.stops_after (E : Engine) (S : Bytes) (s : Int) : Prop :=
  ∀ s' ∈ E.next_start S s, (E.search S s' S.length).1 < 0

instance Engine.stops_after_decidable (E : Engine) (S : Bytes) (s : Int) :
    Decidable (E.stops_after S s) :=
  inferInstanceAs (Decidable (∀ s' ∈ E.next_start S s, (E.search S s' S.length).1 < 0))

/-- The offsets `starts` are those of the successful searches the global loops make on
`S`, in the order they are made: the first search is from offset 0, each later one is
the search made again after the match before it, and after the last one the loops
stop. -/
def Engine.successful_searches (E : Engine) (S : Bytes) (starts : List Int) : Prop :=
  starts.head? = some 0 ∧ 0 ≤ (E.search S 0 S.length).1 ∧
    List.Chain' (E.searches_again S) starts ∧ ∀ s ∈ starts.getLast?, E.stops_after S s

instance Engine.successful_searches_decidable (E : Engine) (S : Bytes) (starts : List Int) :
    Decidable (E.successful_searches S starts) :=
  inferInstanceAs (Decidable (starts.head? = some 0 ∧ 0 ≤ (E.search S 0 S.length).1 ∧
    List.Chain' (E.searches_again S) starts ∧ ∀ s ∈ starts.getLast?, E.stops_after S s))


/-! ## The pattern handle: constants, construction, equality and rendering

The embedding of `Init_oniguruma` (`ext/rb_oniguruma.c`) and of the constructor, the
equality and `to_s` of `ORegexp` (`ext/rb_oniguruma_oregexp.c`). A Fixnum is an `Int`;
the constants of the module, all non-negative, are `Nat`. -/

/-- The bytes of a name written as an ASCII literal. -/
def ascii (s : String) : Bytes := s.toList.map Char.toNat

/-- Macro `FIX2INT` where the binding reads the options, the encoding and the syntax of a
handle: the C `int` of a Fixnum that lies within the range of `int`, where the
conversion keeps the value. In `og_oniguruma_oregexp_match`, where an exception of the
conversion leaves the match region acquired, the macro is the parameter `fix2int`. -/
def FIX2INT (v : Int) : Int := v

/-- Constant `Oniguruma::ENCODING_ASCII`. -/
def ENCODING_ASCII : Nat := 1

/-- Constant `Oniguruma::SYNTAX_DEFAULT`. -/
def SYNTAX_DEFAULT : Nat := 0

/-- Constant `Oniguruma::OPTION_DEFAULT`. -/
def OPTION_DEFAULT : Nat := 0

/-- Constant `Oniguruma::OPTION_IGNORECASE`. -/
def OPTION_IGNORECASE : Nat := 1

/-- Constant `Oniguruma::OPTION_EXTEND`. -/
def OPTION_EXTEND : Nat := 2

/-- Constant `Oniguruma::OPTION_MULTILINE`. -/
def OPTION_MULTILINE : Nat := 4

/-- Constant `Oniguruma::OPTION_SINGLELINE`. -/
def OPTION_SINGLELINE : Nat := 8

/-- Constant `Oniguruma::OPTION_FIND_LONGEST`. -/
def OPTION_FIND_LONGEST : Nat := 16

/-- Constant `Oniguruma::OPTION_FIND_NOT_EMPTY`. -/
def OPTION_FIND_NOT_EMPTY : Nat := 32

/-- Constant `Oniguruma::OPTION_NEGATE_SINGLELINE`. -/
def OPTION_NEGATE_SINGLELINE : Nat := 64

/-- Constant `Oniguruma::OPTION_DONT_CAPTURE_GROUP`. -/
def OPTION_DONT_CAPTURE_GROUP : Nat := 128

/-- Constant `Oniguruma::OPTION_CAPTURE_GROUP`. -/
def OPTION_CAPTURE_GROUP : Nat := 256

/-- Constant `Oniguruma::OPTION_NOTBOL`. -/
def OPTION_NOTBOL : Nat := 512

/-- Constant `Oniguruma::OPTION_NOTEOL`. -/
def OPTION_NOTEOL : Nat := 1024

/-- The integer constants `Init_oniguruma` defines in the module `Oniguruma` with
`rb_define_const`, in the order of their definition. -/
def Init_oniguruma_constants : List (String × Nat) :=
  [ ("ENCODING_UNDEF", 0), ("ENCODING_ASCII", ENCODING_ASCII), ("ENCODING_ISO_8859_1", 2),
    ("ENCODING_ISO_8859_2", 3), ("ENCODING_ISO_8859_3", 4), ("ENCODING_ISO_8859_4", 5),
    ("ENCODING_ISO_8859_5", 6), ("ENCODING_ISO_8859_6", 7), ("ENCODING_ISO_8859_7", 8),
    ("ENCODING_ISO_8859_8", 9), ("ENCODING_ISO_8859_9", 10), ("ENCODING_ISO_8859_10", 11),
    ("ENCODING_ISO_8859_11", 12), ("ENCODING_ISO_8859_13", 13), ("ENCODING_ISO_8859_14", 14),
    ("ENCODING_ISO_8859_15", 15), ("ENCODING_ISO_8859_16", 16), ("ENCODING_UTF8", 17),
    ("ENCODING_EUC_JP", 18), ("ENCODING_EUC_TW", 19), ("ENCODING_EUC_KR", 20),
    ("ENCODING_EUC_CN", 21), ("ENCODING_SJIS", 22), ("ENCODING_KOI8", 23),
    ("ENCODING_KOI8_R", 24), ("ENCODING_BIG5", 25),
    ("SYNTAX_DEFAULT", SYNTAX_DEFAULT), ("SYNTAX_POSIX_BASIC", 1),
    ("SYNTAX_POSIX_EXTENDED", 2), ("SYNTAX_EMACS", 3), ("SYNTAX_GREP", 4),
    ("SYNTAX_GNU_REGEX", 5), ("SYNTAX_JAVA", 6), ("SYNTAX_PERL", 7), ("SYNTAX_RUBY", 8),
    ("OPTION_DEFAULT", OPTION_DEFAULT), ("OPTION_NONE", 0),
    ("OPTION_IGNORECASE", OPTION_IGNORECASE), ("OPTION_EXTEND", OPTION_EXTEND),
    ("OPTION_MULTILINE", OPTION_MULTILINE), ("OPTION_SINGLELINE", OPTION_SINGLELINE),
    ("OPTION_FIND_LONGEST", OPTION_FIND_LONGEST),
    ("OPTION_FIND_NOT_EMPTY", OPTION_FIND_NOT_EMPTY),
    ("OPTION_NEGATE_SINGLELINE", OPTION_NEGATE_SINGLELINE),
    ("OPTION_DONT_CAPTURE_GROUP", OPTION_DONT_CAPTURE_GROUP),
    ("OPTION_CAPTURE_GROUP", OPTION_CAPTURE_GROUP), ("OPTION_NOTBOL", OPTION_NOTBOL),
    ("OPTION_NOTEOL", OPTION_NOTEOL), ("OPTION_POSIX_REGION", 2048),
    ("OPTION_MAXBIT", 4096) ]

/-- Host function `rb_const_get(og_mOniguruma, rb_intern(name))` for a name computed at
run time: the value of the constant, `none` where the constant is not defined (the
code calls it under `rb_const_defined` only). -/
def rb_const_get (name : Bytes) : Option Nat :=
  (Init_oniguruma_constants.find? (fun kv => decide (ascii kv.1 = name))).map Prod.snd

/-- Host function `rb_const_defined(og_mOniguruma, rb_intern(name))`. -/
def rb_const_defined (name : Bytes) : Bool := (rb_const_get name).isSome

/-- Host function `rb_hash_aset(hash, key, value)` on a hash with string keys, kept in
the order of insertion: the value of a key the hash holds already is replaced. -/
def rb_hash_aset : List (Bytes × Nat) → Bytes → Nat → List (Bytes × Nat)
  | [], key, value => [(key, value)]
  | (k, v) :: rest, key, value =>
    if k = key then (k, value) :: rest else (k, v) :: rb_hash_aset rest key value

/-- Host function `rb_hash_aref(hash, key)`; `none` is `nil`. -/
def rb_hash_aref (hash : List (Bytes × Nat)) (key : Bytes) : Option Nat :=
  (hash.find? (fun kv => decide (kv.1 = key))).map Prod.snd

/-- The frozen hash `Oniguruma::OPT_SHORTCUTS`: the eleven `rb_hash_aset` calls of
`Init_oniguruma`, in their order. -/
def OPT_SHORTCUTS : List (Bytes × Nat) :=
  [ ("i", OPTION_IGNORECASE), ("x", OPTION_EXTEND), ("m", OPTION_MULTILINE),
    ("s", OPTION_SINGLELINE), ("l", OPTION_FIND_LONGEST), ("E", OPTION_FIND_NOT_EMPTY),
    ("S", OPTION_NEGATE_SINGLELINE), ("G", OPTION_DONT_CAPTURE_GROUP),
    ("g", OPTION_CAPTURE_GROUP), ("B", OPTION_NOTBOL), ("E", OPTION_NOTEOL) ].foldl
    (fun hash kv => rb_hash_aset hash (ascii kv.1) kv.2) []

/-- An `ORegexp` object: its instance variables `@pattern`, `@options`, `@encoding`,
`@syntax` and the compiled pattern of its `og_ORegexp` (`oregexp->reg`). -/
structure ORegexp where
  pattern : Bytes
  options : Int
  encoding : Int
  syntax_value : Int
  reg : Engine

/-- The options hash of the constructor, as far as it is read: the values of the keys
`:options`, `:encoding` and `:syntax`; `none` is what `rb_hash_aref` returns for a key
the hash does not hold (`nil`). -/
structure OptionsHash where
  options : Option Int
  encoding : Option Int
  syntax_value : Option Int
  deriving DecidableEq, Repr

/-- The three instance variables `og_oniguruma_oregexp_options_parse` sets. -/
structure OptionIvars where
  encoding : Int
  options : Int
  syntax_value : Int
  deriving DecidableEq, Repr

/-- Embeds `og_oniguruma_oregexp_options_parse(self, hash)`. -/
def og_oniguruma_oregexp_options_parse (hash : OptionsHash) : OptionIvars :=
  let encoding : Int := match hash.encoding with
    | none => ENCODING_ASCII
    | some v => v
  let options : Int := match hash.options with
    | none => OPTION_DEFAULT
    | some v => v
  let syntax_value : Int := match hash.syntax_value with
    | none => SYNTAX_DEFAULT
    | some v => v
  { encoding := encoding, options := options, syntax_value := syntax_value }

/-- Embeds `og_oniguruma_oregexp_upper(str)` on the bytes of a C string: the loop ends
at the first NUL byte. -/
def og_oniguruma_oregexp_upper : Bytes → Bytes
  | [] => []
  | c :: rest =>
    if c = 0 then c :: rest
    else (if 0x61 ≤ c ∧ c ≤ 0x7a then c - 32 else c) :: og_oniguruma_oregexp_upper rest

/-- What the conversion `%s` of `snprintf` reads at `RSTRING(s)->ptr`: the bytes before
the first NUL byte. -/
def c_string (s : Bytes) : Bytes := s.takeWhile (fun c => decide (c ≠ 0))

/-- The `for` loop over the bytes of the option string (lines 228-233). -/
def resolve_shortcuts (shortcuts : List (Bytes × Nat)) : Bytes → Nat → Nat
  | [], opts => opts
  | byte :: rest, opts =>
    match rb_hash_aref shortcuts [byte] with
    | some cut => resolve_shortcuts shortcuts rest (opts ||| cut)
    | none => resolve_shortcuts shortcuts rest opts

/-- The arguments of `ORegexp.new` after the pattern: the compact form (an option string,
then an optional encoding name and an optional syntax name), the structured form (a
hash), or nothing. -/
inductive InitArgs where
  | compact (opt : Bytes) (enc syn : Option Bytes)
  | hash (options : OptionsHash)
  | none
  deriving DecidableEq, Repr

/-- The first part of `og_oniguruma_oregexp_initialize` (lines 217-264): the options
hash handed to `og_oniguruma_oregexp_initialize_real`. The buffers of `snprintf` are
large enough for the whole C string of the name. -/
def initialize_options (args : InitArgs) : OptionsHash :=
  match args with
  | .compact opt enc syn =>
    let opts := resolve_shortcuts OPT_SHORTCUTS opt 0
    let options : OptionsHash :=
      { options := some (opts : Int), encoding := none, syntax_value := none }
    let options : OptionsHash := match enc with
      | some enc =>
        let byte := og_oniguruma_oregexp_upper (ascii "ENCODING_" ++ c_string enc)
        if rb_const_defined byte then
          { options with encoding := (rb_const_get byte).map Int.ofNat }
        else options
      | none => options
    match syn with
    | some syn =>
      let byte := og_oniguruma_oregexp_upper (ascii "SYNTAX_" ++ c_string syn)
      if rb_const_defined byte then
        { options with syntax_value := (rb_const_get byte).map Int.ofNat }
      else options
    | none => options
  | .hash options => options
  | .none => { options := none, encoding := none, syntax_value := none }

/-- Embeds `og_oniguruma_oregexp_casefold(self)`. -/
def og_oniguruma_oregexp_casefold (self : ORegexp) : Bool :=
  let options := FIX2INT self.options
  let ignore_case : Int := FIX2INT OPTION_IGNORECASE
  decide (Int.land options ignore_case > 0)

/-- Host function `rb_str_cmp(a, b)`: the bytes are compared in order, then the
lengths. -/
def rb_str_cmp : Bytes → Bytes → Int
  | [], [] => 0
  | [], _ :: _ => -1
  | _ :: _, [] => 1
  | a :: as, b :: bs => if a < b then -1 else if b < a then 1 else rb_str_cmp as bs

/-- Embeds `og_oniguruma_oregexp_operator_equality(self, rhs)`. -/
def og_oniguruma_oregexp_operator_equality (self rhs : ORegexp) : Bool :=
  decide (rb_str_cmp self.pattern rhs.pattern = 0) &&
    decide (FIX2INT self.encoding = FIX2INT rhs.encoding) &&
    (og_oniguruma_oregexp_casefold self == og_oniguruma_oregexp_casefold rhs)

/-- Embeds `og_oniguruma_oregexp_to_s(self)`. -/
def og_oniguruma_oregexp_to_s (self : ORegexp) : Bytes :=
  let options := FIX2INT self.options
  let str := ascii "(?"
  let str := if Int.land options (FIX2INT OPTION_IGNORECASE) > 0 then str ++ ascii "i" else str
  let str := if Int.land options (FIX2INT OPTION_MULTILINE) > 0 then str ++ ascii "m" else str
  let str := if Int.land options (FIX2INT OPTION_EXTEND) > 0 then str ++ ascii "x" else str
  let str :=
    if rb_str_cmp str (ascii "(?imx") ≠ 0 then
      let str := str ++ ascii "-"
      let str :=
        if Int.land options (FIX2INT OPTION_IGNORECASE) = 0 then str ++ ascii "i" else str
      let str :=
        if Int.land options (FIX2INT OPTION_MULTILINE) = 0 then str ++ ascii "m" else str
      if Int.land options (FIX2INT OPTION_EXTEND) = 0 then str ++ ascii "x" else str
    else str
  let str := str ++ ascii ":"
  let str := str ++ self.pattern
  str ++ ascii ")"


/-- The values the constructor resolves from its arguments and stores in `@encoding`,
`@options` and `@syntax`. -/
def resolved (args : InitArgs) : OptionIvars :=
  og_oniguruma_oregexp_options_parse (initialize_options args)

/-- Upper-casing as the claims word it: the ASCII letters `a`-`z` become `A`-`Z`, every
other byte is unchanged. -/
def upcase (s : Bytes) : Bytes := s.map (fun c => if 0x61 ≤ c ∧ c ≤ 0x7a then c - 32 else c)


/-- The rendering of a handle as the claims word it: `(?`, the letters of the flags that
are set among `i` (bit 0 of the options), `m` (bit 2) and `x` (bit 1), in this order,
then, unless the three are set, `-` and the letters of the flags that are not set, in
the same order, then `:`, the source and `)`. -/
def rendering (options : Int) (source : Bytes) : Bytes :=
  let letters : List (Nat × Nat) := [(0x69, 0), (0x6d, 2), (0x78, 1)]
  let enabled := (letters.filter (fun f => Int.testBit options f.2)).map Prod.fst
  let disabled := (letters.filter (fun f => !Int.testBit options f.2)).map Prod.fst
  ascii "(?" ++ enabled ++ (if disabled = [] then [] else ascii "-" ++ disabled) ++
    ascii ":" ++ source ++ ascii ")"


/-- Engine contract: every match reported for a search of `S` from `start` satisfies
`start <= begin <= end`. -/
def Engine.matches_after_start (E : Engine) (S : Bytes) : Prop :=
  ∀ start : Int, 0 ≤ start → 0 ≤ (E.search S start S.length).1 →
    ∃ b e, region_at (E.search S start S.length).2.beg 0 = .ok b ∧
      region_at (E.search S start S.length).2.end_ 0 = .ok e ∧
      start ≤ b ∧ b ≤ e

/-- Two match results `(b1, e1)` and `(b2, e2)` over `S` do not overlap and the second
begins strictly later: `e1 <= b2` and `b1 < b2`; and when the first is zero-width the
second begins at least one character after it. -/
def apart (enc : OnigEncoding) (S : Bytes) (m1 m2 : MatchData) : Prop :=
  m1.region.span0.2 ≤ m2.region.span0.1 ∧ m1.region.span0.1 < m2.region.span0.1 ∧
    (m1.region.span0.1 = m1.region.span0.2 →
      m1.region.span0.2 + enc.mbc_enc_len (S.drop m1.region.span0.2.toNat)
        ≤ m2.region.span0.1)

instance apart_decidable (enc : OnigEncoding) (S : Bytes) (m1 m2 : MatchData) :
    Decidable (apart enc S m1 m2) :=
  inferInstanceAs (Decidable
    (m1.region.span0.2 ≤ m2.region.span0.1 ∧ m1.region.span0.1 < m2.region.span0.1 ∧
      (m1.region.span0.1 = m1.region.span0.2 →
        m1.region.span0.2 + enc.mbc_enc_len (S.drop m1.region.span0.2.toNat)
          ≤ m2.region.span0.1)))


/-- A block that leaves the last-match slot as it found it. -/
def keeps_last_match (blk : Block) : Prop :=
  ∀ (m : MatchData) (s : RString) (w : World) (r : BlockResult),
    blk m s w = .ok r → r.world.last_match = w.last_match

/-- A block that calls `match` of the handle `E` on the subject `string` and answers
`value`, leaving the subject of the substitution alone. -/
def block_calling_match (fix2int : Int → Except Raised Int) (E : Engine) (string : Bytes)
    (value : Bytes) : Block :=
  fun _ s w =>
    match (og_oniguruma_oregexp_match fix2int E string none none w).result with
    | .ok out => .ok { value := value, str := s, world := out.world }
    | .raise e => .raise e
    | .timeout => .timeout

/-- Put `buf` in front of the bytes an outcome carries. -/
def Res.prepend (buf : Bytes) (r : Res Bytes) : Res Bytes :=
  r >>= fun c => Res.ok (buf ++ c)

/-! ## Outcomes and byte strings -/

@[simp] theorem Res.bind_ok {α β : Type} (a : α) (f : α → Res β) :
    (Res.ok a >>= f) = f a := rfl

@[simp] theorem Res.bind_raise {α β : Type} (e : Raised) (f : α → Res β) :
    ((Res.raise e : Res α) >>= f) = Res.raise e := rfl

@[simp] theorem Res.bind_timeout {α β : Type} (f : α → Res β) :
    ((Res.timeout : Res α) >>= f) = Res.timeout := rfl

@[simp] theorem Res.pure_eq {α : Type} (a : α) : (pure a : Res α) = Res.ok a := rfl

theorem Res.bind_assoc {α β γ : Type} (x : Res α) (f : α → Res β) (g : β → Res γ) :
    ((x >>= f) >>= g) = (x >>= fun a => f a >>= g) := by
  cases x <;> rfl

@[simp] theorem Res.prepend_ok (buf c : Bytes) : Res.prepend buf (.ok c) = .ok (buf ++ c) := rfl

@[simp] theorem Res.prepend_raise (buf : Bytes) (e : Raised) :
    Res.prepend buf (.raise e) = .raise e := rfl

@[simp] theorem Res.prepend_timeout (buf : Bytes) : Res.prepend buf .timeout = .timeout := rfl

theorem Res.prepend_prepend (a b : Bytes) (r : Res Bytes) :
    Res.prepend a (Res.prepend b r) = Res.prepend (a ++ b) r := by
  cases r <;> simp [Res.prepend]

theorem slice_self (S : Bytes) (a : Int) : slice S a a = [] := by
  simp [slice]

theorem slice_append (S : Bytes) (a b c : Int) (h0 : 0 ≤ a) (h1 : a ≤ b) (h2 : b ≤ c) :
    slice S a b ++ slice S b c = slice S a c := by
  unfold slice
  have e1 : b.toNat = a.toNat + (b - a).toNat := by omega
  have e2 : (c - a).toNat = (b - a).toNat + (c - b).toNat := by omega
  rw [e1, e2, List.take_add, List.drop_drop]

theorem slice_full (S : Bytes) : slice S 0 S.length = S := by
  simp [slice]

theorem rb_str_buf_cat_slice (buf S : Bytes) (a b : Int) (h0 : 0 ≤ a) (h1 : a ≤ b)
    (h2 : b ≤ S.length) : rb_str_buf_cat buf S a (b - a) = .ok (buf ++ slice S a b) := by
  unfold rb_str_buf_cat
  by_cases hz : b - a = 0
  · have : b = a := by omega
    simp [hz, this, slice_self]
  · have h3 : ¬ (b - a < 0) := by omega
    have h4 : ¬ (a < 0 ∨ (S.length : Int) < a + (b - a)) := by omega
    rw [if_neg hz, if_neg h3, if_neg h4]
    rfl

theorem rb_str_buf_cat_prepend (buf mem : Bytes) (off len : Int) :
    rb_str_buf_cat buf mem off len = Res.prepend buf (rb_str_buf_cat [] mem off len) := by
  unfold rb_str_buf_cat
  split_ifs <;> simp

/-! ## The interpolation appends to the buffer -/

theorem cat_group_prepend (buf subj : Bytes) (region : OnigRegion) (group : Int) :
    cat_group buf subj region group = Res.prepend buf (cat_group [] subj region group) := by
  unfold cat_group
  simp only [rb_str_buf_cat_prepend buf, Res.prepend, Res.bind_assoc]

theorem cat_last_group_prepend (buf subj : Bytes) (region : OnigRegion) (g : Nat) :
    cat_last_group buf subj region g
      = Res.prepend buf (cat_last_group [] subj region g) := by
  induction g with
  | zero => simp [cat_last_group]
  | succ g ih =>
    unfold cat_last_group
    cases h : region_at region.beg ((g + 1 : Nat) : Int) with
    | ok b =>
      simp only [Res.bind_ok]
      split_ifs
      · exact cat_group_prepend _ _ _ _
      · exact ih
    | raise e => rfl
    | timeout => rfl

theorem escape_named_prepend (E : Engine) (subj rep : Bytes) (region : OnigRegion)
    (position previous_code_point_len code_point code_point_len : Nat) (buf : Bytes) :
    escape_named E subj rep region position previous_code_point_len code_point
        code_point_len buf
      = (escape_named E subj rep region position previous_code_point_len code_point
          code_point_len [] >>= fun r => Res.ok (r.1, buf ++ r.2)) := by
  unfold escape_named
  cases scan_name E.encoding rep (rep.length + 1)
      { named_group_pos := position + code_point_len
        named_group_end := position + code_point_len
        code_point := code_point
        code_point_len := code_point_len } with
  | ok n =>
    simp only [Res.bind_ok]
    split_ifs
    all_goals try simp only [rb_str_buf_cat_prepend buf, cat_group_prepend buf]
    all_goals simp only [Res.prepend, Res.bind_assoc, Res.bind_ok, Res.pure_eq,
      List.append_nil]
  | raise e => rfl
  | timeout => rfl

theorem escape_char_prepend (E : Engine) (subj rep : Bytes) (region : OnigRegion)
    (position previous_code_point_len code_point code_point_len : Nat) (buf : Bytes) :
    escape_char E subj rep region position previous_code_point_len code_point
        code_point_len buf
      = (escape_char E subj rep region position previous_code_point_len code_point
          code_point_len [] >>= fun r => Res.ok (r.1, buf ++ r.2)) := by
  unfold escape_char
  split_ifs
  all_goals first
    | exact escape_named_prepend _ _ _ _ _ _ _ _ _
    | (simp only [rb_str_buf_cat_prepend buf, cat_last_group_prepend buf]
       simp only [Res.prepend, Res.bind_assoc, Res.bind_ok, Res.pure_eq, List.append_nil])

theorem escape_group_prepend (subj : Bytes) (region : OnigRegion) (position : Nat)
    (group : Int) (buf : Bytes) :
    escape_group subj region position group buf
      = (escape_group subj region position group [] >>=
          fun r => Res.ok (r.1, buf ++ r.2)) := by
  unfold escape_group
  split_ifs
  · cases region_at region.beg group with
    | ok b =>
      simp only [Res.bind_ok]
      split_ifs
      · simp only [cat_group_prepend buf]
        simp only [Res.prepend, Res.bind_assoc, Res.bind_ok, Res.pure_eq, List.append_nil]
      · simp
    | raise e => rfl
    | timeout => rfl
  · simp

theorem do_escape_prepend (E : Engine) (subj rep : Bytes) (region : OnigRegion)
    (position code_point code_point_len : Nat) (buf : Bytes) :
    do_escape E subj rep region position code_point code_point_len buf
      = (do_escape E subj rep region position code_point code_point_len [] >>=
          fun r => Res.ok (r.1, buf ++ r.2)) := by
  unfold do_escape
  dsimp only
  split_ifs
  · exact escape_char_prepend _ _ _ _ _ _ _ _ _
  · exact escape_group_prepend _ _ _ _ _

theorem Res.prepend_bind (buf : Bytes) (x : Res Bytes) (f : Bytes → Res Bytes)
    (hf : ∀ c, f (buf ++ c) = Res.prepend buf (f c)) :
    (Res.prepend buf x >>= f) = Res.prepend buf (x >>= f) := by
  cases x with
  | ok c => exact hf c
  | raise e => rfl
  | timeout => rfl

theorem Res.prepend_bind_pair (buf : Bytes) (x : Res (Nat × Bytes))
    (f : Nat × Bytes → Res Bytes)
    (hf : ∀ r : Nat × Bytes, f (r.1, buf ++ r.2) = Res.prepend buf (f r)) :
    ((x >>= fun r => Res.ok (r.1, buf ++ r.2)) >>= f) = Res.prepend buf (x >>= f) := by
  cases x with
  | ok c => exact hf c
  | raise e => rfl
  | timeout => rfl

theorem do_replacement_loop_prepend (E : Engine) (subj rep : Bytes) (region : OnigRegion)
    (fuel : Nat) : ∀ (position : Nat) (buf : Bytes),
    do_replacement_loop E subj rep region fuel position buf
      = Res.prepend buf (do_replacement_loop E subj rep region fuel position []) := by
  induction fuel with
  | zero =>
    intro position buf
    unfold do_replacement_loop
    split_ifs <;> simp
  | succ fuel ih =>
    intro position buf
    have hloop : ∀ (p : Nat) (c : Bytes),
        do_replacement_loop E subj rep region fuel p (buf ++ c)
          = Res.prepend buf (do_replacement_loop E subj rep region fuel p c) := by
      intro p c
      rw [ih p (buf ++ c), ih p c, Res.prepend_prepend]
    unfold do_replacement_loop
    dsimp only
    split_ifs
    all_goals first
      | (simp; done)
      | exact rb_str_buf_cat_prepend _ _ _ _
      | (rw [rb_str_buf_cat_prepend buf]
         exact Res.prepend_bind buf _ _ (fun c => hloop _ c))
      | (rw [do_escape_prepend E subj rep region _ _ _ buf]
         exact Res.prepend_bind_pair buf _ _ (fun r => hloop _ _))

theorem do_replacement_prepend (E : Engine) (buf S t : Bytes) (region : OnigRegion) :
    og_oniguruma_oregexp_do_replacement E buf S t region
      = Res.prepend buf (replacement_chunk E S t region) := by
  unfold replacement_chunk og_oniguruma_oregexp_do_replacement
  exact do_replacement_loop_prepend E S t region _ _ _

/-! ## The substitution loop with a replacement template -/

theorem region_at_zero {arr : List Int} {v : Int} (h : region_at arr 0 = .ok v) (d : Int) :
    arr.headD d = v := by
  cases arr with
  | nil => simp [region_at] at h
  | cons a rest =>
    simp [region_at] at h
    simp [h]

theorem rb_str_buf_cat_width (buf S : Bytes) (a w : Int) (h0 : 0 ≤ a) (h1 : 0 ≤ w)
    (h2 : a + w ≤ S.length) : rb_str_buf_cat buf S a w = .ok (buf ++ slice S a (a + w)) := by
  have h := rb_str_buf_cat_slice buf S a (a + w) h0 (by omega) h2
  have e : a + w - a = w := by omega
  rw [e] at h
  exact h

theorem substitution_chunk_template (E : Engine) (t : Bytes) (g u : Bool) (ptr : Nat)
    (subj_len : Int) (region : OnigRegion) (buf S R : Bytes) (w : World)
    (hR : replacement_chunk E S t region = .ok R) :
    substitution_chunk E { replacement := t, block := none, global := g, update_self := u }
        ptr subj_len region buf S w = .ok (buf ++ R, S, w) := by
  unfold substitution_chunk
  simp only [do_replacement_prepend, hR, Res.prepend_ok]

theorem substitution_loop_global (E : Engine) (S t : Bytes) (u : Bool) (ptr : Nat)
    (hB : E.in_bounds S) (hW : E.whole_chars S) (hR : E.interpolates S t) :
    ∀ (fuel : Nat) (st : SubstLoop) (last : Int) (buf0 : Bytes),
      st.subj = S → 0 ≤ last → last ≤ st.end_ → st.end_ ≤ S.length →
      st.buffer = buf0 ++ slice S last st.end_ →
      E.searched S st.end_ →
      0 ≤ (E.search S st.end_ S.length).1 →
      ((S.length : Int) - st.end_).toNat < fuel →
      ∃ st1 vs Rs,
        substitution_loop E { replacement := t, block := none, global := true, update_self := u }
          ptr S.length fuel (E.search S st.end_ S.length).2 st = .ok st1 ∧
        st1.subj = S ∧ st1.world = st.world ∧ st1.visited = st.visited ++ vs ∧ vs ≠ [] ∧
        List.Forall₂ (fun reg R => replacement_chunk E S t reg = .ok R) vs Rs ∧
        0 ≤ st1.end_ ∧ st1.end_ ≤ S.length ∧
        st1.buffer ++ slice S st1.end_ S.length
          = buf0 ++ assemble S last ((vs.map OnigRegion.span0).zip Rs) := by
  intro fuel
  induction fuel with
  | zero => intro st last buf0 _ _ _ _ _ _ _ hf; omega
  | succ fuel ih =>
    intro st last buf0 hS h0 h1 h2 hbuf hsd hm hf
    obtain ⟨buffer, end_, subj, world, visited⟩ := st
    simp only at hS h1 h2 hbuf hsd hm hf
    subst hS
    obtain ⟨b, e, hb, he, hsb, hbe, hel⟩ := hB end_ (by omega) h2 hm
    obtain ⟨R, hRr⟩ := hR end_ hsd (by omega) h2 hm
    have hspan : (E.search subj end_ subj.length).2.span0 = (b, e) := by
      unfold OnigRegion.span0
      rw [region_at_zero hb, region_at_zero he]
    have hcat : rb_str_buf_cat buffer subj end_ (b - end_) = .ok (buf0 ++ slice subj last b) := by
      rw [rb_str_buf_cat_slice buffer subj end_ b (by omega) hsb (by omega), hbuf,
        List.append_assoc, slice_append subj last end_ b h0 h1 hsb]
    unfold substitution_loop
    simp only [hb, he, hcat, Res.bind_ok,
      substitution_chunk_template E t true u ptr _ _ _ subj R world hRr]
    simp only [Bool.true_eq_false, if_false, Res.pure_eq]
    by_cases hz : b = e
    · subst hz
      rw [if_pos rfl]
      by_cases hend : (subj.length : Int) ≤ b
      · rw [if_pos hend]
        refine ⟨_, [(E.search subj end_ subj.length).2], [R], rfl, rfl, rfl, rfl, by simp,
          ?_, ?_, ?_, ?_⟩
        · exact List.Forall₂.cons hRr List.Forall₂.nil
        · dsimp only; omega
        · dsimp only; omega
        · simp [assemble, hspan]
      · rw [if_neg hend, if_neg (by omega : ¬ b < 0)]
        obtain ⟨hw1, hw2⟩ := hW end_ hsd (by omega) h2 hm b hb he (by omega)
        rw [rb_str_buf_cat_width _ subj b _ (by omega) (by omega) hw2]
        simp only [Res.bind_ok]
        by_cases hnext : 0 ≤ (E.search subj (b + (E.encoding.mbc_enc_len (subj.drop b.toNat) : Int))
            subj.length).1
        · rw [if_pos hnext]
          obtain ⟨st1, vs, Rs, hrun, hs1, hw, hv, hne, hall, he0, he1, hfin⟩ :=
            ih { buffer := buf0 ++ slice subj last b ++ R
                    ++ slice subj b (b + (E.encoding.mbc_enc_len (subj.drop b.toNat) : Int))
                 end_ := b + (E.encoding.mbc_enc_len (subj.drop b.toNat) : Int)
                 subj := subj, world := world
                 visited := visited ++ [(E.search subj end_ subj.length).2] }
              b (buf0 ++ slice subj last b ++ R) rfl (by omega) (by dsimp only; omega) hw2 rfl
              (Engine.searched.after_empty end_ b hsd hm hb he (by omega))
              hnext (by dsimp only; omega)
          refine ⟨st1, (E.search subj end_ subj.length).2 :: vs, R :: Rs, hrun, hs1, hw, ?_,
            by simp, List.Forall₂.cons hRr hall, he0, he1, ?_⟩
          · rw [hv]; simp
          · rw [hfin]; simp only [List.map_cons, List.zip_cons_cons, assemble, hspan, List.append_assoc]; rfl
        · rw [if_neg hnext]
          refine ⟨_, [(E.search subj end_ subj.length).2], [R], rfl, rfl, rfl, rfl, by simp,
            List.Forall₂.cons hRr List.Forall₂.nil, ?_, ?_, ?_⟩
          · dsimp only; omega
          · dsimp only; omega
          · simp only [List.append_assoc, assemble, List.map, List.zip_cons_cons, hspan,
              List.zip_nil_right]
            rw [slice_append subj b _ subj.length (by omega) (by omega) (by omega)]
    · rw [if_neg hz]
      by_cases hnext : 0 ≤ (E.search subj e subj.length).1
      · rw [if_pos hnext]
        obtain ⟨st1, vs, Rs, hrun, hs1, hw, hv, hne, hall, he0, he1, hfin⟩ :=
          ih { buffer := buf0 ++ slice subj last b ++ R, end_ := e, subj := subj, world := world
               visited := visited ++ [(E.search subj end_ subj.length).2] }
            e (buf0 ++ slice subj last b ++ R) rfl (by omega) (by dsimp only; omega) hel
            (by simp [slice_self]) (Engine.searched.after end_ b e hsd hm hb he hz)
            hnext (by dsimp only; omega)
        refine ⟨st1, (E.search subj end_ subj.length).2 :: vs, R :: Rs, hrun, hs1, hw, ?_,
          by simp, List.Forall₂.cons hRr hall, he0, he1, ?_⟩
        · rw [hv]; simp
        · rw [hfin]; simp only [List.map_cons, List.zip_cons_cons, assemble, hspan, List.append_assoc]; rfl
      · rw [if_neg hnext]
        refine ⟨_, [(E.search subj end_ subj.length).2], [R], rfl, rfl, rfl, rfl, by simp,
          List.Forall₂.cons hRr List.Forall₂.nil, ?_, ?_, ?_⟩
        · dsimp only; omega
        · exact hel
        · simp [assemble, hspan]

/-! ## The concrete engines keep the engine contract -/

theorem empty_pattern_engine_in_bounds (enc : OnigEncoding) (S : Bytes) :
    (empty_pattern_engine enc).in_bounds S := by
  intro start h0 h1 _
  refine ⟨start, start, ?_, ?_, le_refl _, le_refl _, h1⟩ <;>
    simp [empty_pattern_engine, h0, h1, region_of, region_at]

theorem empty_pattern_engine_whole_chars (S : Bytes) :
    (empty_pattern_engine ONIG_ENCODING_ASCII).whole_chars S := by
  intro start _ _ _ _ e _ _ hlt
  simp only [empty_pattern_engine, ONIG_ENCODING_ASCII]
  omega

/-! ## C1: the string a global substitution assembles -/

/-- C1, as stated, fails: with the UTF-8 encoding, a pattern that matches the empty
string and the one-byte subject `E3` (the lead byte of a three-byte character, cut
short), the engine keeps `search_start <= begin <= end <= len(S)`, `gsub` visits the
match `(0, 0)`, whose replacement chunk is `-`, and then steps over a character three
bytes wide: it reads outside the subject and returns no string, where the claim
announces `-` followed by the byte `E3`. -/
theorem gsub_truncated_character_reads_outside :
    (empty_pattern_engine ONIG_ENCODING_UTF8).in_bounds [0xe3] ∧
    ((empty_pattern_engine ONIG_ENCODING_UTF8).search [0xe3] 0 1).2.span0 = (0, 0) ∧
    replacement_chunk (empty_pattern_engine ONIG_ENCODING_UTF8) [0xe3] [0x2d]
      ((empty_pattern_engine ONIG_ENCODING_UTF8).search [0xe3] 0 1).2 = .ok [0x2d] ∧
    assemble [0xe3] 0 [((0, 0), [0x2d])] = [0x2d, 0xe3] ∧
    (og_oniguruma_oregexp_gsub (empty_pattern_engine ONIG_ENCODING_UTF8) [0x2d] none
      { ptr := 0, bytes := [0xe3] } World.init 8).result = .raise .out_of_bounds :=
  ⟨empty_pattern_engine_in_bounds _ _, by decide, by decide, by decide, by decide⟩

/-- C1, amended: for every subject `S`, template `t` and engine whose matches satisfy
`search_start <= begin <= end <= len(S)`, where the character after each zero-width
match inside `S` is at least one byte wide and lies wholly inside `S` and the
interpolation of `t` yields a chunk for each match: when the first search matches and
the fuel exceeds `len(S)`, `gsub` returns a new string, it visited `k >= 1` matches
`(b1,e1),...,(bk,ek)` with chunks `R1..Rk`, and the string is
`S[0,b1) ++ R1 ++ S[e1,b2) ++ ... ++ Rk ++ S[ek,len)`; the subject is unchanged. -/
theorem gsub_assembles (E : Engine) (S t : Bytes) (ptr : Nat) (w : World) (fuel : Nat)
    (hB : E.in_bounds S) (hW : E.whole_chars S) (hR : E.interpolates S t)
    (hfirst : 0 ≤ (E.search S 0 S.length).1) (hfuel : S.length < fuel) :
    ∃ out Rs,
      (og_oniguruma_oregexp_gsub E t none { ptr := ptr, bytes := S } w fuel).result = .ok out ∧
      out.visited ≠ [] ∧
      List.Forall₂ (fun reg R => replacement_chunk E S t reg = .ok R) out.visited Rs ∧
      out.value = .fresh (assemble S 0 ((out.visited.map OnigRegion.span0).zip Rs)) ∧
      out.str_bytes = S := by
  obtain ⟨st1, vs, Rs, hrun, hs1, _, hv, hne, hall, he0, he1, hfin⟩ :=
    substitution_loop_global E S t false ptr hB hW hR fuel
      { buffer := [], end_ := 0, subj := S, world := w, visited := [] } 0 [] rfl (le_refl _)
      (le_refl _) (by simp) (by simp [slice_self]) Engine.searched.first hfirst
      (by simp; omega)
  simp only [List.nil_append] at hv hfin
  refine ⟨{ value := .fresh (st1.buffer ++ slice S st1.end_ S.length), str_bytes := st1.subj,
            world := st1.world, visited := st1.visited }, Rs, ?_, ?_, ?_, ?_, ?_⟩
  · unfold og_oniguruma_oregexp_gsub og_oniguruma_oregexp_do_substitution_safe
      og_oniguruma_oregexp_do_substitution
    simp only [if_neg (by omega : ¬ (E.search S 0 S.length).1 < 0)]
    simp only at hrun
    rw [hrun]
    simp only [Res.bind_ok, hs1]
    rw [rb_str_buf_cat_slice _ S st1.end_ S.length he0 he1 (le_refl _)]
    simp
  · rw [hv]; exact hne
  · rw [hv]; exact hall
  · simp only [hv, hfin]
  · exact hs1

/-- C1, amended, at a concrete input: the empty pattern over `"ab"` with the template
`"-"` in the ASCII encoding. -/
theorem gsub_assembles_witness :
    (empty_pattern_engine ONIG_ENCODING_ASCII).in_bounds [0x61, 0x62] ∧
    (empty_pattern_engine ONIG_ENCODING_ASCII).whole_chars [0x61, 0x62] ∧
    (empty_pattern_engine ONIG_ENCODING_ASCII).interpolates [0x61, 0x62] [0x2d] ∧
    ∃ out Rs,
      (og_oniguruma_oregexp_gsub (empty_pattern_engine ONIG_ENCODING_ASCII) [0x2d] none
        { ptr := 0, bytes := [0x61, 0x62] } World.init 3).result = .ok out ∧
      out.visited ≠ [] ∧
      List.Forall₂ (fun reg R => replacement_chunk (empty_pattern_engine ONIG_ENCODING_ASCII)
        [0x61, 0x62] [0x2d] reg = .ok R) out.visited Rs ∧
      out.value = .fresh (assemble [0x61, 0x62] 0 ((out.visited.map OnigRegion.span0).zip Rs)) ∧
      out.str_bytes = [0x61, 0x62] :=
  ⟨empty_pattern_engine_in_bounds _ _, empty_pattern_engine_whole_chars _,
    fun _ _ _ _ _ => ⟨[0x2d], rfl⟩,
    gsub_assembles (empty_pattern_engine ONIG_ENCODING_ASCII) [0x61, 0x62] [0x2d] 0 World.init 3
      (empty_pattern_engine_in_bounds _ _) (empty_pattern_engine_whole_chars _)
      (fun _ _ _ _ _ => ⟨[0x2d], rfl⟩) (by decide) (by decide)⟩

/-! ## C2: no match, no change -/

/-- C2: when the first search over the subject reports no match, non-destructive `sub`
and `gsub` return a new string byte-equal to the subject, whatever the template or the
block, and leave the subject and the process-wide cells unchanged. In particular, when
the subject is the output of an earlier `gsub` and the pattern cannot match it, `gsub`
returns that output unchanged. -/
theorem no_match_returns_subject (E : Engine) (t : Bytes) (block : Option Block)
    (str : RString) (w : World) (fuel : Nat)
    (h : (E.search str.bytes 0 str.bytes.length).1 = ONIG_MISMATCH) :
    (og_oniguruma_oregexp_sub E t block str w fuel).result
      = .ok { value := .fresh str.bytes, str_bytes := str.bytes, world := w, visited := [] } ∧
    (og_oniguruma_oregexp_gsub E t block str w fuel).result
      = .ok { value := .fresh str.bytes, str_bytes := str.bytes, world := w, visited := [] } ∧
    ∀ (str0 : RString) (w0 : World) (fuel0 : Nat) (out0 : SubstOut),
      (og_oniguruma_oregexp_gsub E t block str0 w0 fuel0).result = .ok out0 →
      out0.value = .fresh str.bytes →
      ∃ out, (og_oniguruma_oregexp_gsub E t block str w fuel).result = .ok out ∧
        out.value = out0.value := by
  have hneg : (E.search str.bytes 0 str.bytes.length).1 < 0 := by
    rw [h]; decide
  have hsub : (og_oniguruma_oregexp_sub E t block str w fuel).result
      = .ok { value := .fresh str.bytes, str_bytes := str.bytes, world := w, visited := [] } := by
    unfold og_oniguruma_oregexp_sub og_oniguruma_oregexp_do_substitution_safe
      og_oniguruma_oregexp_do_substitution
    simp [hneg]
  have hgsub : (og_oniguruma_oregexp_gsub E t block str w fuel).result
      = .ok { value := .fresh str.bytes, str_bytes := str.bytes, world := w, visited := [] } := by
    unfold og_oniguruma_oregexp_gsub og_oniguruma_oregexp_do_substitution_safe
      og_oniguruma_oregexp_do_substitution
    simp [hneg]
  refine ⟨hsub, hgsub, ?_⟩
  intro str0 w0 fuel0 out0 _ hv
  exact ⟨_, hgsub, hv.symm⟩

/-- C2 at a concrete input: the pattern `(?<foo>x)` over `"ab"`. -/
theorem no_match_returns_subject_witness :
    ((named_literal_engine ONIG_ENCODING_ASCII [0x78] [0x66, 0x6f, 0x6f]).search
        [0x61, 0x62] 0 2).1 = ONIG_MISMATCH ∧
    (og_oniguruma_oregexp_gsub (named_literal_engine ONIG_ENCODING_ASCII [0x78] [0x66, 0x6f, 0x6f])
        [0x2d] none { ptr := 0, bytes := [0x61, 0x62] } World.init 0).result
      = .ok { value := .fresh [0x61, 0x62], str_bytes := [0x61, 0x62], world := World.init,
              visited := [] } :=
  ⟨by decide,
    (no_match_returns_subject (named_literal_engine ONIG_ENCODING_ASCII [0x78] [0x66, 0x6f, 0x6f])
      [0x2d] none { ptr := 0, bytes := [0x61, 0x62] } World.init 0 (by decide)).2.1⟩

/-! ## C6: a single substitution -/

theorem do_escape_search_irrelevant (E : Engine) (search1 : Bytes → Int → Int → Int × OnigRegion)
    (subj rep : Bytes) (region : OnigRegion) (position code_point code_point_len : Nat)
    (buf : Bytes) :
    do_escape { E with search := search1 } subj rep region position code_point code_point_len buf
      = do_escape E subj rep region position code_point code_point_len buf := rfl

theorem do_replacement_loop_search_irrelevant (E : Engine)
    (search1 : Bytes → Int → Int → Int × OnigRegion) (subj rep : Bytes) (region : OnigRegion)
    (fuel : Nat) : ∀ (position : Nat) (buf : Bytes),
    do_replacement_loop { E with search := search1 } subj rep region fuel position buf
      = do_replacement_loop E subj rep region fuel position buf := by
  induction fuel with
  | zero => intro position buf; rfl
  | succ fuel ih =>
    intro position buf
    unfold do_replacement_loop
    simp only [ih, do_escape_search_irrelevant]

theorem replacement_chunk_search_irrelevant (E : Engine)
    (search1 : Bytes → Int → Int → Int × OnigRegion) (S t : Bytes) (region : OnigRegion) :
    replacement_chunk { E with search := search1 } S t region = replacement_chunk E S t region :=
  do_replacement_loop_search_irrelevant E search1 S t region _ _ _

theorem sub_one_iteration (E : Engine) (S t : Bytes) (ptr : Nat) (w : World) (fuel : Nat)
    (b e : Int) (R : Bytes)
    (hfirst : 0 ≤ (E.search S 0 S.length).1)
    (hb : region_at (E.search S 0 S.length).2.beg 0 = .ok b)
    (he : region_at (E.search S 0 S.length).2.end_ 0 = .ok e)
    (h0 : 0 ≤ b) (hbe : b ≤ e) (hel : e ≤ S.length)
    (hR : replacement_chunk E S t (E.search S 0 S.length).2 = .ok R)
    (hfuel : 0 < fuel) :
    (og_oniguruma_oregexp_sub E t none { ptr := ptr, bytes := S } w fuel).result
      = .ok { value := .fresh (slice S 0 b ++ R ++ slice S e S.length), str_bytes := S,
              world := w, visited := [(E.search S 0 S.length).2] } := by
  obtain ⟨k, rfl⟩ : ∃ k, fuel = k + 1 := ⟨fuel - 1, by omega⟩
  unfold og_oniguruma_oregexp_sub og_oniguruma_oregexp_do_substitution_safe
    og_oniguruma_oregexp_do_substitution
  simp only [if_neg (by omega : ¬ (E.search S 0 S.length).1 < 0)]
  unfold substitution_loop
  simp only [hb, he, Res.bind_ok]
  have hcat := rb_str_buf_cat_slice [] S 0 b (le_refl _) h0 (by omega)
  simp only [sub_zero] at hcat
  simp only [sub_zero, hcat, Res.bind_ok,
    substitution_chunk_template E t false false ptr _ _ _ S R w hR]
  simp only [if_true, Res.pure_eq, Res.bind_ok]
  rw [rb_str_buf_cat_slice _ S e S.length (by omega) hel (le_refl _)]
  simp

/-- C6: when the first search matches at `(b, e)` inside the subject and the
interpolation of the template for that match is `R`, `sub` returns
`S[0,b) ++ R ++ S[e,len)` for every positive fuel, having visited that one match only;
and no second search is run: replacing the engine's search by any other function that
agrees with it on the first search (from offset 0) gives the same outcome, however many
later occurrences the subject holds. -/
theorem sub_replaces_first_match_only (E : Engine) (S t : Bytes) (ptr : Nat) (w : World)
    (fuel : Nat) (b e : Int) (R : Bytes)
    (hfirst : 0 ≤ (E.search S 0 S.length).1)
    (hb : region_at (E.search S 0 S.length).2.beg 0 = .ok b)
    (he : region_at (E.search S 0 S.length).2.end_ 0 = .ok e)
    (h0 : 0 ≤ b) (hbe : b ≤ e) (hel : e ≤ S.length)
    (hR : replacement_chunk E S t (E.search S 0 S.length).2 = .ok R)
    (hfuel : 0 < fuel) :
    (og_oniguruma_oregexp_sub E t none { ptr := ptr, bytes := S } w fuel).result
      = .ok { value := .fresh (slice S 0 b ++ R ++ slice S e S.length), str_bytes := S,
              world := w, visited := [(E.search S 0 S.length).2] } ∧
    ∀ search1 : Bytes → Int → Int → Int × OnigRegion,
      search1 S 0 S.length = E.search S 0 S.length →
      (og_oniguruma_oregexp_sub { E with search := search1 } t none { ptr := ptr, bytes := S }
          w fuel).result
        = (og_oniguruma_oregexp_sub E t none { ptr := ptr, bytes := S } w fuel).result := by
  have h1 := sub_one_iteration E S t ptr w fuel b e R hfirst hb he h0 hbe hel hR hfuel
  refine ⟨h1, ?_⟩
  intro search1 hs
  have hs1 : ({ E with search := search1 } : Engine).search S 0 S.length
      = E.search S 0 S.length := hs
  have h2 := sub_one_iteration { E with search := search1 } S t ptr w fuel b e R
    (by rw [hs1]; exact hfirst) (by rw [hs1]; exact hb) (by rw [hs1]; exact he) h0 hbe hel
    (by rw [hs1, replacement_chunk_search_irrelevant]; exact hR) hfuel
  rw [h1, h2, hs1]

/-- C6 at a concrete input: the pattern `(?<foo>b)` over `"abcb"` with the template
`"-"` gives `"a-cb"`. -/
theorem sub_replaces_first_match_only_witness :
    (og_oniguruma_oregexp_sub (named_literal_engine ONIG_ENCODING_ASCII [0x62] [0x66, 0x6f, 0x6f])
        [0x2d] none { ptr := 0, bytes := [0x61, 0x62, 0x63, 0x62] } World.init 1).result
      = .ok { value := .fresh [0x61, 0x2d, 0x63, 0x62], str_bytes := [0x61, 0x62, 0x63, 0x62],
              world := World.init,
              visited := [region_of [(1, 2), (1, 2)]] } :=
  (sub_replaces_first_match_only (named_literal_engine ONIG_ENCODING_ASCII [0x62] [0x66, 0x6f, 0x6f])
    [0x61, 0x62, 0x63, 0x62] [0x2d] 0 World.init 1 1 2 [0x2d]
    (by decide) (by decide) (by decide) (by decide) (by decide) (by decide) (by decide)
    (by decide)).1

/-! ## Templates without a backslash -/

theorem slice_middle (pre c post : Bytes) :
    slice (pre ++ c ++ post) pre.length ((pre.length : Int) + c.length) = c := by
  unfold slice
  have e1 : ((pre.length : Int)).toNat = pre.length := by omega
  have e2 : ((pre.length : Int) + c.length - pre.length).toNat = c.length := by omega
  rw [e1, e2, List.append_assoc, List.drop_left, List.take_left]

theorem plain_template_loop (E : Engine) (S : Bytes) (region : OnigRegion) :
    ∀ (rs : List Bytes) (pre buf : Bytes) (fuel : Nat),
      plain_characters E.encoding rs → rs.length ≤ fuel →
      do_replacement_loop E S (pre ++ rs.flatten) region fuel pre.length buf
        = .ok (buf ++ rs.flatten) := by
  intro rs
  induction rs with
  | nil =>
    intro pre buf fuel _ _
    cases fuel <;> simp [do_replacement_loop]
  | cons c cs ih =>
    intro pre buf fuel hp hf
    obtain ⟨hne, hlen, hcode, hrest⟩ := hp
    obtain ⟨k, rfl⟩ : ∃ k, fuel = k + 1 := ⟨fuel - 1, by simp at hf; omega⟩
    have hcpos : 0 < c.length := List.length_pos.mpr hne
    have hdrop : (pre ++ (c :: cs).flatten).drop pre.length = c ++ cs.flatten := by
      simp
    have hlong : (pre ++ (c :: cs).flatten).length
        = pre.length + c.length + cs.flatten.length := by
      rw [List.length_append, List.flatten_cons, List.length_append]; omega
    unfold do_replacement_loop
    simp only [get_code_point, hdrop, hlen]
    rw [if_neg (by rw [hlong]; omega)]
    simp only [if_neg (by omega : ¬ c.length = 0), hcode, ne_eq, not_false_eq_true, if_true]
    have hcat : rb_str_buf_cat buf (pre ++ (c :: cs).flatten)
        (((pre.length + c.length : Nat) : Int) - (c.length : Int)) (c.length : Int)
          = .ok (buf ++ c) := by
      have e : (((pre.length + c.length : Nat) : Int) - (c.length : Int)) = (pre.length : Int) := by
        omega
      rw [e, rb_str_buf_cat_width _ _ _ _ (by omega) (by omega) (by rw [hlong]; omega)]
      have e2 : pre ++ (c :: cs).flatten = pre ++ c ++ cs.flatten := by simp
      rw [e2, slice_middle]
    rw [hcat]
    simp only [Res.bind_ok]
    have h := ih (pre ++ c) (buf ++ c) k hrest (by simp at hf; omega)
    simp only [List.append_assoc, List.length_append] at h
    simp only [List.flatten_cons, List.append_assoc]
    exact h

theorem length_le_flatten (rs : List Bytes) (h : ∀ c ∈ rs, c ≠ []) :
    rs.length ≤ rs.flatten.length := by
  induction rs with
  | nil => simp
  | cons c cs ih =>
    have hc : 0 < c.length := List.length_pos.mpr (h c (by simp))
    have := ih (fun x hx => h x (by simp [hx]))
    simp only [List.length_cons, List.flatten_cons, List.length_append]
    omega

theorem plain_characters_nonempty (enc : OnigEncoding) (rs : List Bytes)
    (h : plain_characters enc rs) : ∀ c ∈ rs, c ≠ [] := by
  induction rs with
  | nil => simp
  | cons c cs ih =>
    intro x hx
    rcases List.mem_cons.mp hx with rfl | hx
    · exact h.1
    · exact ih h.2.2.2 x hx

theorem plain_template_chunk (E : Engine) (S : Bytes) (region : OnigRegion) (rs : List Bytes)
    (h : plain_characters E.encoding rs) :
    replacement_chunk E S rs.flatten region = .ok rs.flatten := by
  have := plain_template_loop E S region rs [] [] rs.flatten.length h
    (length_le_flatten rs (plain_characters_nonempty _ rs h))
  simpa [replacement_chunk, og_oniguruma_oregexp_do_replacement] using this

/-! ## C3, C4: a pattern that matches the empty string everywhere -/

theorem rb_str_buf_cat_zero (buf mem : Bytes) (off : Int) :
    rb_str_buf_cat buf mem off 0 = .ok buf := by
  simp [rb_str_buf_cat]

theorem empty_matches_gsub_loop (E : Engine) (S r : Bytes) (u : Bool) (ptr : Nat)
    (hE : E.empty_everywhere S)
    (hr : ∀ region, replacement_chunk E S r region = .ok r) :
    ∀ (cs : List Bytes) (pre : Bytes) (st : SubstLoop) (fuel : Nat),
      S = pre ++ cs.flatten → whole_characters E.encoding cs → st.subj = S →
      st.end_ = pre.length → cs.length < fuel →
      substitution_loop E { replacement := r, block := none, global := true, update_self := u }
          ptr S.length fuel (E.search S pre.length S.length).2 st
        = .ok { buffer := st.buffer ++ interleave r cs, end_ := S.length, subj := S,
                world := st.world,
                visited := st.visited ++
                  (boundaries pre.length cs).map (fun p => (E.search S p S.length).2) } := by
  intro cs
  induction cs with
  | nil =>
    intro pre st fuel hS _ hsubj hend hf
    obtain ⟨k, rfl⟩ : ∃ k, fuel = k + 1 := ⟨fuel - 1, by omega⟩
    obtain ⟨buffer, end_, subj, world, visited⟩ := st
    simp only at hsubj hend
    subst hsubj hend
    have hlen : subj.length = pre.length := by rw [hS]; simp
    obtain ⟨_, hb, he⟩ := hE pre.length (by omega) (by omega)
    unfold substitution_loop
    simp only [hb, he, Res.bind_ok, sub_self, rb_str_buf_cat_zero,
      substitution_chunk_template E r true u ptr _ _ _ subj r world (hr _)]
    simp [hlen, interleave, boundaries]
  | cons c cs ih =>
    intro pre st fuel hS hw hsubj hend hf
    obtain ⟨hne, hwidth, hrest⟩ := hw
    obtain ⟨k, rfl⟩ : ∃ k, fuel = k + 1 := ⟨fuel - 1, by omega⟩
    obtain ⟨buffer, end_, subj, world, visited⟩ := st
    simp only at hsubj hend
    subst hsubj hend
    have hcpos : 0 < c.length := List.length_pos.mpr hne
    have hlen : subj.length = pre.length + c.length + cs.flatten.length := by
      rw [hS, List.length_append, List.flatten_cons, List.length_append]; omega
    have hdrop : subj.drop pre.length = c ++ cs.flatten := by
      rw [hS]; simp
    obtain ⟨_, hb, he⟩ := hE pre.length (by omega) (by omega)
    obtain ⟨hs2, _, _⟩ := hE ((pre.length : Int) + c.length) (by omega) (by omega)
    have hS2 : subj = (pre ++ c) ++ cs.flatten := by rw [hS]; simp
    have hcast : (((pre ++ c).length : Nat) : Int) = (pre.length : Int) + c.length := by
      simp
    have hcat : ∀ buf : Bytes, rb_str_buf_cat buf subj (pre.length : Int) (c.length : Int)
        = .ok (buf ++ c) := by
      intro buf
      rw [rb_str_buf_cat_width _ _ _ _ (by omega) (by omega) (by omega)]
      have e2 : subj = pre ++ c ++ cs.flatten := hS2
      rw [e2, slice_middle]
    have h := ih (pre ++ c)
      { buffer := buffer ++ r ++ c, end_ := (pre.length : Int) + c.length, subj := subj,
        world := world, visited := visited ++ [(E.search subj pre.length subj.length).2] }
      k hS2 hrest rfl (by rw [hcast]) (by simp at hf; omega)
    rw [hcast] at h
    unfold substitution_loop
    simp only [hb, he, Res.bind_ok, sub_self, rb_str_buf_cat_zero,
      substitution_chunk_template E r true u ptr _ _ _ subj r world (hr _)]
    simp only [Bool.true_eq_false, if_false, if_true, Int.toNat_ofNat, hdrop, hwidth, hcat,
      Res.bind_ok]
    rw [if_neg (by omega), if_neg (by omega), if_pos (by rw [hs2]; omega), h]
    simp [interleave, boundaries]

theorem empty_pattern_engine_empty_everywhere (enc : OnigEncoding) (S : Bytes) :
    (empty_pattern_engine enc).empty_everywhere S := by
  intro p h0 h1
  simp [empty_pattern_engine, h0, h1, region_of, region_at]

/-- C3: with an engine that reports the zero-width match `(p, p)` for every search start
`p <= len(S)`, a subject made of the whole characters `c1..cn` of the pattern's
encoding and a template `r` made of whole characters none of which is a backslash,
`gsub(S, r)` returns `r ++ c1 ++ r ++ c2 ++ ... ++ r ++ cn ++ r` as soon as the fuel
exceeds `n`: it visits the `n + 1` character boundaries in order, each advance is one
whole character wide, and the loop stops after the empty match at the subject end. -/
theorem gsub_empty_matches_interleaves (E : Engine) (S : Bytes) (ptr : Nat) (w : World)
    (fuel : Nat) (cs rs : List Bytes)
    (hE : E.empty_everywhere S) (hS : S = cs.flatten)
    (hcs : whole_characters E.encoding cs) (hrs : plain_characters E.encoding rs)
    (hfuel : cs.length < fuel) :
    (og_oniguruma_oregexp_gsub E rs.flatten none { ptr := ptr, bytes := S } w fuel).result
      = .ok { value := .fresh (interleave rs.flatten cs), str_bytes := S, world := w,
              visited := (boundaries 0 cs).map (fun p => (E.search S p S.length).2) } := by
  have hloop := empty_matches_gsub_loop E S rs.flatten false ptr hE
    (fun region => plain_template_chunk E S region rs hrs) cs []
    { buffer := [], end_ := 0, subj := S, world := w, visited := [] } fuel (by simpa using hS)
    hcs rfl rfl hfuel
  obtain ⟨hs0, _, _⟩ := hE 0 (le_refl _) (by omega)
  unfold og_oniguruma_oregexp_gsub og_oniguruma_oregexp_do_substitution_safe
    og_oniguruma_oregexp_do_substitution
  simp only [List.length_nil, Nat.cast_zero] at hloop
  simp only [hs0, lt_self_iff_false, if_false, hloop, Res.bind_ok, sub_self,
    rb_str_buf_cat_zero]
  simp

/-- C3 at a concrete input: `gsub("ab", "-")` with the empty pattern is `"-a-b-"`. -/
theorem gsub_empty_matches_interleaves_witness :
    (og_oniguruma_oregexp_gsub (empty_pattern_engine ONIG_ENCODING_ASCII) [0x2d] none
        { ptr := 0, bytes := [0x61, 0x62] } World.init 3).result
      = .ok { value := .fresh [0x2d, 0x61, 0x2d, 0x62, 0x2d], str_bytes := [0x61, 0x62],
              world := World.init,
              visited := [region_of [(0, 0)], region_of [(1, 1)], region_of [(2, 2)]] } :=
  gsub_empty_matches_interleaves (empty_pattern_engine ONIG_ENCODING_ASCII) [0x61, 0x62] 0
    World.init 3 [[0x61], [0x62]] [[0x2d]] (empty_pattern_engine_empty_everywhere _ _) rfl
    (by decide) (by decide) (by decide)

theorem empty_matches_scan_loop (E : Engine) (S : Bytes) (ptr : Nat)
    (hE : E.empty_everywhere S) :
    ∀ (cs : List Bytes) (pre : Bytes) (st : ScanLoop) (fuel : Nat),
      S = pre ++ cs.flatten → whole_characters E.encoding cs →
      st.str = { ptr := ptr, bytes := S } → cs.length < fuel →
      ∃ st1 ms,
        scan_loop E none fuel pre.length (E.search S pre.length S.length).2 st = .ok st1 ∧
        st1.str = st.str ∧ st1.matches_ = st.matches_ ++ ms ∧
        ms.map (fun m => m.region.span0) = (boundaries pre.length cs).map (fun p => (p, p)) ∧
        ∀ m ∈ ms, m.string = S := by
  intro cs
  induction cs with
  | nil =>
    intro pre st fuel hS _ hstr hf
    obtain ⟨k, rfl⟩ : ∃ k, fuel = k + 1 := ⟨fuel - 1, by omega⟩
    obtain ⟨ms0, str, world⟩ := st
    simp only at hstr
    subst hstr
    have hlen : S.length = pre.length := by rw [hS]; simp
    obtain ⟨_, hb, he⟩ := hE pre.length (by omega) (by omega)
    have hspan : (E.search S pre.length S.length).2.span0
        = ((pre.length : Int), (pre.length : Int)) := by
      unfold OnigRegion.span0
      rw [region_at_zero hb, region_at_zero he]
    unfold scan_loop
    simp only [he, Res.bind_ok, if_true, Res.pure_eq]
    rw [if_pos (by omega)]
    refine ⟨_, _, rfl, rfl, rfl, ?_, ?_⟩
    · simp [boundaries, og_oniguruma_oregexp_do_match, hspan]
    · simp [og_oniguruma_oregexp_do_match]
  | cons c cs ih =>
    intro pre st fuel hS hw hstr hf
    obtain ⟨hne, hwidth, hrest⟩ := hw
    obtain ⟨k, rfl⟩ : ∃ k, fuel = k + 1 := ⟨fuel - 1, by omega⟩
    obtain ⟨ms0, str, world⟩ := st
    simp only at hstr
    subst hstr
    have hcpos : 0 < c.length := List.length_pos.mpr hne
    have hlen : S.length = pre.length + c.length + cs.flatten.length := by
      rw [hS, List.length_append, List.flatten_cons, List.length_append]; omega
    have hdrop : S.drop pre.length = c ++ cs.flatten := by
      rw [hS]; simp
    obtain ⟨_, hb, he⟩ := hE pre.length (by omega) (by omega)
    obtain ⟨hs2, _, _⟩ := hE ((pre.length : Int) + c.length) (by omega) (by omega)
    have hS2 : S = (pre ++ c) ++ cs.flatten := by rw [hS]; simp
    have hcast : (((pre ++ c).length : Nat) : Int) = (pre.length : Int) + c.length := by
      simp
    obtain ⟨st1, ms, hrun, hstr1, hms, hspans, hstrs⟩ := ih (pre ++ c)
      { matches_ := ms0 ++ [(og_oniguruma_oregexp_do_match E
            (E.search S pre.length S.length).2 S world).1]
        str := { ptr := ptr, bytes := S }
        world := (og_oniguruma_oregexp_do_match E (E.search S pre.length S.length).2 S world).2 }
      k hS2 hrest rfl (by simp at hf; omega)
    rw [hcast] at hrun hspans
    have hspan : (E.search S pre.length S.length).2.span0
        = ((pre.length : Int), (pre.length : Int)) := by
      unfold OnigRegion.span0
      rw [region_at_zero hb, region_at_zero he]
    unfold scan_loop
    simp only [he, Res.bind_ok, if_true, Int.toNat_ofNat, hdrop, hwidth]
    rw [if_neg (by omega), if_neg (by omega), if_pos (by rw [hs2]; omega), hs2, hrun]
    refine ⟨st1, (og_oniguruma_oregexp_do_match E (E.search S pre.length S.length).2 S world).1
      :: ms, rfl, hstr1, ?_, ?_, ?_⟩
    · rw [hms]; simp
    · simp only [List.map_cons, boundaries, hspans]
      simp [og_oniguruma_oregexp_do_match, hspan]
    · intro m hm
      rcases List.mem_cons.mp hm with rfl | hm
      · simp [og_oniguruma_oregexp_do_match]
      · exact hstrs m hm

theorem boundaries_length (off : Int) (cs : List Bytes) :
    (boundaries off cs).length = cs.length + 1 := by
  induction cs generalizing off with
  | nil => rfl
  | cons c cs ih => simp [boundaries, ih]

/-- C4: with an engine that reports the zero-width match `(p, p)`, with status `p`, for
every search start `p <= len(S)`, and a subject made of the `n` whole characters
`c1..cn` of the pattern's encoding, `scan(S)` returns, as soon as the fuel exceeds `n`,
an array of exactly `n + 1` matches over `S`, the k-th being the zero-width span at the
byte offset of the k-th character boundary. -/
theorem scan_empty_matches_boundaries (E : Engine) (S : Bytes) (ptr : Nat) (w : World)
    (fuel : Nat) (cs : List Bytes)
    (hE : E.empty_everywhere S) (hS : S = cs.flatten)
    (hcs : whole_characters E.encoding cs) (hfuel : cs.length < fuel) :
    ∃ out ms,
      (og_oniguruma_oregexp_scan E none { ptr := ptr, bytes := S } w fuel).result = .ok out ∧
      out.value = some ms ∧ ms.length = cs.length + 1 ∧
      ms.map (fun m => m.region.span0) = (boundaries 0 cs).map (fun p => (p, p)) ∧
      ∀ m ∈ ms, m.string = S := by
  obtain ⟨st1, ms, hrun, _, hms, hspans, hstrs⟩ := empty_matches_scan_loop E S ptr hE cs []
    { matches_ := [], str := { ptr := ptr, bytes := S }, world := w } fuel (by simpa using hS)
    hcs rfl hfuel
  obtain ⟨hs0, _, _⟩ := hE 0 (le_refl _) (by omega)
  simp only [List.length_nil, Nat.cast_zero, List.nil_append] at hrun hms hspans
  refine ⟨{ value := some st1.matches_, str := st1.str, world := st1.world }, ms, ?_, ?_, ?_,
    hspans, hstrs⟩
  · unfold og_oniguruma_oregexp_scan og_oniguruma_oregexp_do_scan
    simp only [hs0, lt_self_iff_false, if_false, hrun, Res.bind_ok, Res.pure_eq]
  · simp only [hms]
  · have := congrArg List.length hspans
    simpa [boundaries_length] using this

/-- C4 at a concrete input: scanning `"ab"` with the empty pattern gives exactly three
zero-width matches, at the offsets 0, 1 and 2. -/
theorem scan_empty_matches_boundaries_witness :
    ∃ out ms,
      (og_oniguruma_oregexp_scan (empty_pattern_engine ONIG_ENCODING_ASCII) none
        { ptr := 0, bytes := [0x61, 0x62] } World.init 3).result = .ok out ∧
      out.value = some ms ∧ ms.length = 3 ∧
      ms.map (fun m => m.region.span0) = [(0, 0), (1, 1), (2, 2)] ∧
      ∀ m ∈ ms, m.string = [0x61, 0x62] :=
  scan_empty_matches_boundaries (empty_pattern_engine ONIG_ENCODING_ASCII) [0x61, 0x62] 0
    World.init 3 [[0x61], [0x62]] (empty_pattern_engine_empty_everywhere _ _) rfl
    (by decide) (by decide)

/-! ## C5: scan and gsub share the advancement rule -/

theorem substitution_chunk_template_inv (E : Engine) (t : Bytes) (g u : Bool) (ptr : Nat)
    (subj_len : Int) (region : OnigRegion) (buf S : Bytes) (w : World)
    (c : Bytes × Bytes × World)
    (h : substitution_chunk E { replacement := t, block := none, global := g, update_self := u }
        ptr subj_len region buf S w = .ok c) : c.2.1 = S ∧ c.2.2 = w := by
  unfold substitution_chunk at h
  simp only at h
  cases hd : og_oniguruma_oregexp_do_replacement E buf S t region with
  | ok b =>
    rw [hd] at h
    simp only [Res.ok.injEq] at h
    subst h
    exact ⟨rfl, rfl⟩
  | raise e => rw [hd] at h; simp at h
  | timeout => rw [hd] at h; simp at h

theorem scan_follows_gsub_loop (E : Engine) (S t : Bytes) (u : Bool) (ptr ptr' : Nat)
    (hret : E.returns_begin S) :
    ∀ (fuel : Nat) (start : Int) (st st1 : SubstLoop) (sst : ScanLoop),
      st.subj = S → sst.str = { ptr := ptr', bytes := S } →
      0 ≤ (E.search S start S.length).1 →
      substitution_loop E { replacement := t, block := none, global := true, update_self := u }
          ptr S.length fuel (E.search S start S.length).2 st = .ok st1 →
      ∃ sst1 vs,
        scan_loop E none fuel (E.search S start S.length).1 (E.search S start S.length).2 sst
          = .ok sst1 ∧
        vs ≠ [] ∧ st1.visited = st.visited ++ vs ∧
        sst1.matches_.map (fun m => m.region) = sst.matches_.map (fun m => m.region) ++ vs := by
  intro fuel
  induction fuel with
  | zero =>
    intro start st st1 sst _ _ _ h
    simp [substitution_loop] at h
  | succ fuel ih =>
    intro start st st1 sst hS hstr hpos h
    obtain ⟨buffer, end0, subj, world, visited⟩ := st
    obtain ⟨ms0, str, sworld⟩ := sst
    simp only at hS hstr
    subst hS hstr
    have hb := hret start hpos
    unfold substitution_loop at h
    simp only [hb, Res.bind_ok] at h
    cases he : region_at (E.search subj start subj.length).2.end_ 0 with
    | raise x => rw [he] at h; simp at h
    | timeout => rw [he] at h; simp at h
    | ok e =>
      rw [he] at h
      simp only [Res.bind_ok] at h
      cases hcat : rb_str_buf_cat buffer subj end0 ((E.search subj start subj.length).1 - end0) with
      | raise x => rw [hcat] at h; simp at h
      | timeout => rw [hcat] at h; simp at h
      | ok buf1 =>
        rw [hcat] at h
        simp only [Res.bind_ok] at h
        cases hch : substitution_chunk E
            { replacement := t, block := none, global := true, update_self := u } ptr
            subj.length (E.search subj start subj.length).2 buf1 subj world with
        | raise x => rw [hch] at h; simp at h
        | timeout => rw [hch] at h; simp at h
        | ok c =>
          obtain ⟨hc1, hc2⟩ := substitution_chunk_template_inv E t true u ptr _ _ _ _ _ c hch
          rw [hch] at h
          simp only [Res.bind_ok, Bool.true_eq_false, if_false, hc1, Res.pure_eq] at h
          unfold scan_loop
          simp only [he, Res.bind_ok, Res.pure_eq]
          by_cases hz : (E.search subj start subj.length).1 = e
          · rw [if_pos hz] at h
            rw [if_pos hz.symm]
            by_cases hend : (subj.length : Int) ≤ e
            · rw [if_pos hend] at h
              rw [if_pos hend]
              simp only [Res.ok.injEq] at h
              subst h
              exact ⟨_, [(E.search subj start subj.length).2], rfl, by simp, rfl,
                by simp [og_oniguruma_oregexp_do_match]⟩
            · rw [if_neg hend] at h
              rw [if_neg hend]
              by_cases hneg : e < 0
              · rw [if_pos hneg] at h; simp at h
              · rw [if_neg hneg] at h
                rw [if_neg hneg]
                cases hskip : rb_str_buf_cat c.1 subj e
                    (E.encoding.mbc_enc_len (subj.drop e.toNat) : Int) with
                | raise x => rw [hskip] at h; simp at h
                | timeout => rw [hskip] at h; simp at h
                | ok buf2 =>
                  rw [hskip] at h
                  simp only [Res.bind_ok] at h
                  by_cases hnext : 0 ≤ (E.search subj
                      (e + (E.encoding.mbc_enc_len (subj.drop e.toNat) : Int)) subj.length).1
                  · rw [if_pos hnext] at h
                    rw [if_pos hnext]
                    obtain ⟨sst1, vs, hrun, hne, hv, hm⟩ := ih _ _ st1
                      { matches_ := ms0 ++ [(og_oniguruma_oregexp_do_match E
                            (E.search subj start subj.length).2 subj sworld).1]
                        str := { ptr := ptr', bytes := subj }
                        world := (og_oniguruma_oregexp_do_match E
                            (E.search subj start subj.length).2 subj sworld).2 }
                      rfl rfl hnext h
                    refine ⟨sst1, (E.search subj start subj.length).2 :: vs, hrun, by simp, ?_, ?_⟩
                    · rw [hv]; simp
                    · rw [hm]; simp [og_oniguruma_oregexp_do_match]
                  · rw [if_neg hnext] at h
                    rw [if_neg hnext]
                    simp only [Res.pure_eq, Res.ok.injEq] at h
                    subst h
                    exact ⟨_, [(E.search subj start subj.length).2], rfl, by simp, rfl,
                      by simp [og_oniguruma_oregexp_do_match]⟩
          · rw [if_neg hz] at h
            rw [if_neg (fun h' => hz h'.symm)]
            by_cases hnext : 0 ≤ (E.search subj e subj.length).1
            · rw [if_pos hnext] at h
              rw [if_pos hnext]
              obtain ⟨sst1, vs, hrun, hne, hv, hm⟩ := ih _ _ st1
                { matches_ := ms0 ++ [(og_oniguruma_oregexp_do_match E
                      (E.search subj start subj.length).2 subj sworld).1]
                  str := { ptr := ptr', bytes := subj }
                  world := (og_oniguruma_oregexp_do_match E
                      (E.search subj start subj.length).2 subj sworld).2 }
                rfl rfl hnext h
              refine ⟨sst1, (E.search subj start subj.length).2 :: vs, hrun, by simp, ?_, ?_⟩
              · rw [hv]; simp
              · rw [hm]; simp [og_oniguruma_oregexp_do_match]
            · rw [if_neg hnext] at h
              rw [if_neg hnext]
              simp only [Res.pure_eq, Res.ok.injEq] at h
              subst h
              exact ⟨_, [(E.search subj start subj.length).2], rfl, by simp, rfl,
                by simp [og_oniguruma_oregexp_do_match]⟩

theorem gsub_completes (E : Engine) (S t : Bytes) (ptr : Nat) (w : World) (fuel : Nat)
    (hB : E.in_bounds S) (hW : E.whole_chars S) (hR : E.interpolates S t)
    (hfuel : S.length < fuel) :
    ∃ out, (og_oniguruma_oregexp_gsub E t none { ptr := ptr, bytes := S } w fuel).result
      = .ok out := by
  unfold og_oniguruma_oregexp_gsub og_oniguruma_oregexp_do_substitution_safe
    og_oniguruma_oregexp_do_substitution
  by_cases hfirst : (E.search S 0 S.length).1 < 0
  · simp [hfirst]
  · obtain ⟨st1, vs, Rs, hrun, hs1, _, hv, hne, hall, he0, he1, hfin⟩ :=
      substitution_loop_global E S t false ptr hB hW hR fuel
        { buffer := [], end_ := 0, subj := S, world := w, visited := [] } 0 [] rfl (le_refl _)
        (le_refl _) (by simp) (by simp [slice_self]) Engine.searched.first
        (by dsimp only; omega) (by simp; omega)
    simp only [if_neg hfirst]
    simp only at hrun
    rw [hrun]
    simp only [Res.bind_ok, hs1]
    rw [rb_str_buf_cat_slice _ S st1.end_ S.length he0 he1 (le_refl _)]
    simp

theorem named_literal_engine_returns_begin (enc : OnigEncoding) (pat name S : Bytes) :
    (named_literal_engine enc pat name).returns_begin S := by
  intro start h
  simp only [named_literal_engine] at h ⊢
  split_ifs at h ⊢ with hc
  · cases hf : find_from pat S (S.length : Int).toNat (S.length + 1 - start.toNat) start.toNat with
    | none => rw [hf] at h; simp [ONIG_MISMATCH] at h
    | some p => simp [region_of, region_at]
  · simp [ONIG_MISMATCH] at h

/-- C5: for every subject `S`, template `t` and engine whose status on a match is the
start of group 0: whenever `gsub` returns on `S`, `scan` returns on `S` with the same
fuel, the regions of the matches `scan` returns are, in order, the regions `gsub`
visited (none when `scan` returns nil), so the number of matches equals the number of
replacements; and `gsub` does return once the fuel exceeds `len(S)` when the engine's
matches lie in `search_start <= begin <= end <= len(S)`, the skipped characters lie
inside `S` and every match interpolates. -/
theorem scan_and_gsub_visit_same_matches (E : Engine) (S t : Bytes) (ptr ptr' : Nat)
    (w w' : World) (hret : E.returns_begin S) :
    (∀ (fuel : Nat) (out : SubstOut),
      (og_oniguruma_oregexp_gsub E t none { ptr := ptr, bytes := S } w fuel).result = .ok out →
      ∃ out', (og_oniguruma_oregexp_scan E none { ptr := ptr', bytes := S } w' fuel).result
          = .ok out' ∧
        (out'.value.getD []).map (fun m => m.region) = out.visited ∧
        (out'.value.getD []).length = out.visited.length ∧
        (out'.value = none ↔ out.visited = [])) ∧
    (E.in_bounds S → E.whole_chars S → E.interpolates S t → ∀ fuel : Nat, S.length < fuel →
      ∃ out, (og_oniguruma_oregexp_gsub E t none { ptr := ptr, bytes := S } w fuel).result
        = .ok out) := by
  refine ⟨?_, fun hB hW hR fuel hfuel => gsub_completes E S t ptr w fuel hB hW hR hfuel⟩
  intro fuel out h
  unfold og_oniguruma_oregexp_gsub og_oniguruma_oregexp_do_substitution_safe
    og_oniguruma_oregexp_do_substitution at h
  unfold og_oniguruma_oregexp_scan og_oniguruma_oregexp_do_scan
  by_cases hfirst : (E.search S 0 S.length).1 < 0
  · simp only [if_pos hfirst, Bool.false_eq_true, if_false, Res.ok.injEq] at h
    subst h
    simp [hfirst]
  · simp only [if_neg hfirst] at h ⊢
    cases hloop : substitution_loop E
        { replacement := t, block := none, global := true, update_self := false } ptr S.length
        fuel (E.search S 0 S.length).2
        { buffer := [], end_ := 0, subj := S, world := w, visited := [] } with
    | raise x => rw [hloop] at h; simp at h
    | timeout => rw [hloop] at h; simp at h
    | ok st1 =>
      rw [hloop] at h
      simp only [Res.bind_ok] at h
      cases hcat : rb_str_buf_cat st1.buffer st1.subj st1.end_ ((S.length : Int) - st1.end_) with
      | raise x => rw [hcat] at h; simp at h
      | timeout => rw [hcat] at h; simp at h
      | ok buf =>
        rw [hcat] at h
        simp only [Res.bind_ok, Bool.false_eq_true, if_false, Res.pure_eq, Res.ok.injEq] at h
        subst h
        obtain ⟨sst1, vs, hrun, hne, hv, hm⟩ := scan_follows_gsub_loop E S t false ptr ptr' hret
          fuel 0 _ st1 { matches_ := [], str := { ptr := ptr', bytes := S }, world := w' }
          rfl rfl (by omega) hloop
        rw [hrun]
        simp only [List.nil_append, List.map_nil] at hv hm
        refine ⟨_, rfl, ?_, ?_, ?_⟩
        · simp [hm, hv]
        · have := congrArg List.length hm
          simpa [hv] using this
        · simp [hv, hne]

/-- C5 at a concrete input: the pattern `(?<foo>b)` over `"abcb"` with the template
`"-"`: `gsub` makes two replacements and `scan` returns the same two matches. -/
theorem scan_and_gsub_visit_same_matches_witness :
    (named_literal_engine ONIG_ENCODING_ASCII [0x62] [0x66, 0x6f, 0x6f]).returns_begin
      [0x61, 0x62, 0x63, 0x62] ∧
    ∃ out', (og_oniguruma_oregexp_scan
          (named_literal_engine ONIG_ENCODING_ASCII [0x62] [0x66, 0x6f, 0x6f]) none
          { ptr := 1, bytes := [0x61, 0x62, 0x63, 0x62] } World.init 5).result = .ok out' ∧
      (out'.value.getD []).map (fun m => m.region)
        = [region_of [(1, 2), (1, 2)], region_of [(3, 4), (3, 4)]] ∧
      (out'.value.getD []).length = 2 ∧
      (out'.value = none ↔ [region_of [(1, 2), (1, 2)], region_of [(3, 4), (3, 4)]] = []) :=
  ⟨named_literal_engine_returns_begin _ _ _ _,
    (scan_and_gsub_visit_same_matches
      (named_literal_engine ONIG_ENCODING_ASCII [0x62] [0x66, 0x6f, 0x6f])
      [0x61, 0x62, 0x63, 0x62] [0x2d] 0 1 World.init World.init
      (named_literal_engine_returns_begin _ _ _ _)).1 5
      { value := .fresh [0x61, 0x2d, 0x63, 0x2d], str_bytes := [0x61, 0x62, 0x63, 0x62],
        world := World.init,
        visited := [region_of [(1, 2), (1, 2)], region_of [(3, 4), (3, 4)]] }
      (by decide)⟩

/-! ## Escapes of the replacement template -/

theorem ONIG_ENCODING_ASCII_ascii_compatible : ONIG_ENCODING_ASCII.ascii_compatible := by
  constructor
  · intro b rest _
    simp [ONIG_ENCODING_ASCII]
  · intro c _
    simp [ONIG_ENCODING_ASCII]

theorem drop_next {rep : Bytes} {p : Nat} {a : Nat} {rest : Bytes}
    (h : rep.drop p = a :: rest) : rep.drop (p + 1) = rest := by
  have : rep.drop (p + 1) = (rep.drop p).drop 1 := by
    rw [List.drop_drop, Nat.add_comm]
  rw [this, h]
  rfl

theorem drop_length {rep : Bytes} {p : Nat} {tail : Bytes} (h : rep.drop p = tail) :
    tail.length = rep.length - p := by
  rw [← h, List.length_drop]

theorem drop_more {rep : Bytes} {p : Nat} (pre : Bytes) {rest : Bytes}
    (h : rep.drop p = pre ++ rest) : rep.drop (p + pre.length) = rest := by
  have : rep.drop (p + pre.length) = (rep.drop p).drop pre.length := by
    rw [List.drop_drop, Nat.add_comm]
  rw [this, h, List.drop_left]

/-- At a backslash that is not the last character, one iteration of the loop is the
escape handling followed by the rest of the loop. -/
theorem loop_at_backslash (E : Engine) (S rep : Bytes) (region : OnigRegion) (fuel p : Nat)
    (buf : Bytes) (c : Nat) (rest : Bytes) (hasc : E.encoding.ascii_compatible)
    (hd : rep.drop p = 0x5c :: c :: rest) :
    do_replacement_loop E S rep region (fuel + 1) p buf
      = (do_escape E S rep region (p + 1) 0x5c 1 buf >>=
          fun r => do_replacement_loop E S rep region fuel r.1 r.2) := by
  have hlen := drop_length hd
  simp only [List.length_cons] at hlen
  obtain ⟨hcode, hwidth⟩ := hasc.1 0x5c (c :: rest) (by decide)
  conv_lhs => unfold do_replacement_loop
  simp only [get_code_point, hd, hcode, hwidth]
  rw [if_neg (by omega)]
  simp only [one_ne_zero, if_false, ne_eq, not_true_eq_false]
  rw [if_neg (by omega)]

theorem do_escape_nondigit (E : Engine) (S rep : Bytes) (region : OnigRegion)
    (q cp0 cpl0 : Nat) (buf : Bytes) (c w : Nat) (hq : q < rep.length)
    (hcode : E.encoding.mbc_to_code (rep.drop q) = c)
    (hwidth : E.encoding.mbc_enc_len (rep.drop q) = w)
    (hnd : E.encoding.is_code_digit c = false) :
    do_escape E S rep region q cp0 cpl0 buf = escape_char E S rep region q w c w buf := by
  have hnl : ¬ rep.length ≤ q := by omega
  unfold do_escape
  simp [scan_digits, get_code_point, hcode, hwidth, hnd, hnl]

theorem to_int_small (x : Int) (h0 : 0 ≤ x) (h1 : x < 100) : to_int x = x := by
  unfold to_int
  omega

theorem do_escape_two_digits (E : Engine) (S rep : Bytes) (region : OnigRegion)
    (q cp0 cpl0 : Nat) (buf : Bytes) (d1 d2 : Nat) (rest : Bytes)
    (hasc : E.encoding.ascii_compatible) (hd : rep.drop q = d1 :: d2 :: rest)
    (h1 : 0x30 ≤ d1 ∧ d1 ≤ 0x39) (h2 : 0x30 ≤ d2 ∧ d2 ≤ 0x39) :
    do_escape E S rep region q cp0 cpl0 buf
      = escape_group S region (q + 2) (((d1 - 0x30) * 10 + (d2 - 0x30) : Nat) : Int) buf := by
  have hlen := drop_length hd
  simp only [List.length_cons] at hlen
  have hd2 := drop_next hd
  obtain ⟨hc1, hw1⟩ := hasc.1 d1 (d2 :: rest) (by omega)
  obtain ⟨hc2, hw2⟩ := hasc.1 d2 rest (by omega)
  have hdig1 : E.encoding.is_code_digit d1 = true := by
    rw [hasc.2 d1 (by omega)]; simpa using h1
  have hdig2 : E.encoding.is_code_digit d2 = true := by
    rw [hasc.2 d2 (by omega)]; simpa using h2
  have hg1 : to_int (0 * 10 + ((d1 : Int) - 48)) = (d1 : Int) - 48 := by
    rw [to_int_small] <;> omega
  have hg2 : to_int (((d1 : Int) - 48) * 10 + ((d2 : Int) - 48))
      = (((d1 - 0x30) * 10 + (d2 - 0x30) : Nat) : Int) := by
    rw [to_int_small] <;> omega
  have hnl1 : ¬ rep.length ≤ q := by omega
  have hnl2 : ¬ rep.length ≤ q + 1 := by omega
  unfold do_escape
  simp only [scan_digits, get_code_point, hd, hd2, hc1, hw1, hc2, hw2, hdig1, hdig2, hg1, hg2,
    hnl1, hnl2, if_false, Bool.true_eq_false, zero_add, Nat.reduceLeDiff, if_true]
  simp

theorem do_escape_one_digit (E : Engine) (S rep : Bytes) (region : OnigRegion)
    (q cp0 cpl0 : Nat) (buf : Bytes) (d1 : Nat) (rest : Bytes)
    (hasc : E.encoding.ascii_compatible) (hd : rep.drop q = d1 :: rest)
    (h1 : 0x30 ≤ d1 ∧ d1 ≤ 0x39)
    (hrest : rest = [] ∨ E.encoding.is_code_digit (E.encoding.mbc_to_code rest) = false) :
    do_escape E S rep region q cp0 cpl0 buf
      = escape_group S region (q + 1) ((d1 - 0x30 : Nat) : Int) buf := by
  have hlen := drop_length hd
  simp only [List.length_cons] at hlen
  have hd2 := drop_next hd
  obtain ⟨hc1, hw1⟩ := hasc.1 d1 rest (by omega)
  have hdig1 : E.encoding.is_code_digit d1 = true := by
    rw [hasc.2 d1 (by omega)]; simpa using h1
  have hg1 : to_int (0 * 10 + ((d1 : Int) - 48)) = ((d1 - 0x30 : Nat) : Int) := by
    rw [to_int_small] <;> omega
  have hnl1 : ¬ rep.length ≤ q := by omega
  unfold do_escape
  simp only [scan_digits, get_code_point, hd, hd2, hc1, hw1, hdig1, hg1, hnl1, if_false,
    Bool.true_eq_false, zero_add]
  rcases hrest with hnil | hnd
  · have hend : rep.length ≤ q + 1 := by
      rw [hnil] at hlen; simp at hlen; omega
    simp [hend]
  · by_cases hend : rep.length ≤ q + 1
    · simp [hend]
    · simp [hend, hnd]

theorem region_at_get {arr : List Int} {N : Nat} {v : Int} (h : arr[N]? = some v) :
    region_at arr (N : Int) = .ok v := by
  simp [region_at, h]

theorem escape_group_text (S : Bytes) (spans : List (Int × Int)) (pos N : Nat) (buf : Bytes)
    (hin : spans_in S spans) :
    escape_group S (region_of spans) pos (N : Int) buf
      = .ok (pos, buf ++ group_text S spans N) := by
  unfold escape_group group_text
  cases hget : spans[N]? with
  | none =>
    have hlen : spans.length ≤ N := List.getElem?_eq_none_iff.mp hget
    simp only [region_of]
    rw [if_neg (by omega)]
    simp
  | some be =>
    have hlt : N < spans.length := by
      by_contra hge
      rw [List.getElem?_eq_none_iff.mpr (by omega)] at hget
      cases hget
    have hmem : be ∈ spans := List.getElem?_mem hget
    have hb : region_at (region_of spans).beg (N : Int) = .ok be.1 :=
      region_at_get (by simp only [region_of, List.getElem?_map, hget]; rfl)
    have he : region_at (region_of spans).end_ (N : Int) = .ok be.2 :=
      region_at_get (by simp only [region_of, List.getElem?_map, hget]; rfl)
    have hnum : (region_of spans).num_regs = spans.length := rfl
    rw [if_pos (by rw [hnum]; omega)]
    simp only [hb, Res.bind_ok]
    rcases hin be hmem with ⟨hb1, _⟩ | ⟨h0, h1, h2⟩
    · rw [if_neg (by omega), if_neg (by omega)]
      simp
    · rw [if_pos h0, if_pos h0]
      unfold cat_group
      simp only [hb, he, Res.bind_ok, rb_str_buf_cat_slice buf S be.1 be.2 h0 h1 h2]
      rfl

theorem loop_done (E : Engine) (S rep : Bytes) (region : OnigRegion) (fuel p : Nat)
    (buf : Bytes) (h : rep.length ≤ p) :
    do_replacement_loop E S rep region fuel p buf = .ok buf := by
  cases fuel <;> simp [do_replacement_loop, h]

/-- At a one-byte character that is not a backslash, one iteration of the loop copies
the character. -/
theorem loop_at_plain (E : Engine) (S rep : Bytes) (region : OnigRegion) (fuel p : Nat)
    (buf : Bytes) (c : Nat) (rest : Bytes) (hasc : E.encoding.ascii_compatible)
    (hd : rep.drop p = c :: rest) (hc : c < 0x80) (hne : c ≠ 0x5c) :
    do_replacement_loop E S rep region (fuel + 1) p buf
      = do_replacement_loop E S rep region fuel (p + 1) (buf ++ [c]) := by
  have hlen := drop_length hd
  simp only [List.length_cons] at hlen
  obtain ⟨hcode, hwidth⟩ := hasc.1 c rest hc
  have hcat : rb_str_buf_cat buf rep (((p + 1 : Nat) : Int) - ((1 : Nat) : Int)) ((1 : Nat) : Int)
      = .ok (buf ++ [c]) := by
    have e : (((p + 1 : Nat) : Int) - ((1 : Nat) : Int)) = (p : Int) := by omega
    rw [e, rb_str_buf_cat_width _ _ _ _ (by omega) (by omega) (by omega)]
    unfold slice
    have e1 : ((p : Int)).toNat = p := by omega
    have e2 : ((p : Int) + ((1 : Nat) : Int) - (p : Int)).toNat = 1 := by omega
    rw [e1, e2, hd]
    rfl
  conv_lhs => unfold do_replacement_loop
  simp only [get_code_point, hd, hcode, hwidth]
  rw [if_neg (by omega)]
  simp only [one_ne_zero, if_false, ne_eq, hne, not_false_eq_true, if_true, hcat, Res.bind_ok]

/-- C7: in a replacement template read in an ASCII-compatible encoding, against a match
whose groups either did not take part or lie inside the subject, a backslash followed by
decimal digits denotes a group. With two digits `d1 d2` the loop takes both, whatever
follows (never a third), and emits the text of group `10*d1 + d2`; with one digit `d1`
followed by the end of the template or by a character that is not a digit it emits the
text of group `d1`. The text of group `N` is `S[beg(N), end(N))` when `N` is below the
number of groups of the region and the group took part, and nothing otherwise. So `\0`
emits the whole match, `\123` is group 12 followed by the literal `3`, and `\10` against
fewer than 11 groups emits nothing. -/
theorem backslash_digits_denote_group (E : Engine) (S rep : Bytes) (spans : List (Int × Int))
    (fuel p : Nat) (buf : Bytes)
    (hasc : E.encoding.ascii_compatible) (hin : spans_in S spans) :
    (∀ (d1 d2 : Nat) (rest : Bytes), rep.drop p = 0x5c :: d1 :: d2 :: rest →
      0x30 ≤ d1 ∧ d1 ≤ 0x39 → 0x30 ≤ d2 ∧ d2 ≤ 0x39 →
      do_replacement_loop E S rep (region_of spans) (fuel + 1) p buf
        = do_replacement_loop E S rep (region_of spans) fuel (p + 3)
            (buf ++ group_text S spans ((d1 - 0x30) * 10 + (d2 - 0x30)))) ∧
    (∀ (d1 : Nat) (rest : Bytes), rep.drop p = 0x5c :: d1 :: rest →
      0x30 ≤ d1 ∧ d1 ≤ 0x39 →
      rest = [] ∨ E.encoding.is_code_digit (E.encoding.mbc_to_code rest) = false →
      do_replacement_loop E S rep (region_of spans) (fuel + 1) p buf
        = do_replacement_loop E S rep (region_of spans) fuel (p + 2)
            (buf ++ group_text S spans (d1 - 0x30))) ∧
    (∀ (b e : Int) (others : List (Int × Int)), spans = (b, e) :: others → 0 ≤ b →
      og_oniguruma_oregexp_do_replacement E buf S [0x5c, 0x30] (region_of spans)
        = .ok (buf ++ slice S b e)) ∧
    og_oniguruma_oregexp_do_replacement E buf S [0x5c, 0x31, 0x32, 0x33] (region_of spans)
      = .ok (buf ++ group_text S spans 12 ++ [0x33]) ∧
    (spans.length < 11 →
      og_oniguruma_oregexp_do_replacement E buf S [0x5c, 0x31, 0x30] (region_of spans)
        = .ok buf) := by
  have two : ∀ (rep : Bytes) (fuel p : Nat) (buf : Bytes) (d1 d2 : Nat) (rest : Bytes),
      rep.drop p = 0x5c :: d1 :: d2 :: rest →
      0x30 ≤ d1 ∧ d1 ≤ 0x39 → 0x30 ≤ d2 ∧ d2 ≤ 0x39 →
      do_replacement_loop E S rep (region_of spans) (fuel + 1) p buf
        = do_replacement_loop E S rep (region_of spans) fuel (p + 3)
            (buf ++ group_text S spans ((d1 - 0x30) * 10 + (d2 - 0x30))) := by
    intro rep fuel p buf d1 d2 rest hd h1 h2
    rw [loop_at_backslash E S rep _ fuel p buf d1 (d2 :: rest) hasc hd,
      do_escape_two_digits E S rep _ (p + 1) _ _ buf d1 d2 rest hasc (drop_next hd) h1 h2,
      escape_group_text S spans _ _ buf hin]
    rfl
  have one : ∀ (rep : Bytes) (fuel p : Nat) (buf : Bytes) (d1 : Nat) (rest : Bytes),
      rep.drop p = 0x5c :: d1 :: rest → 0x30 ≤ d1 ∧ d1 ≤ 0x39 →
      rest = [] ∨ E.encoding.is_code_digit (E.encoding.mbc_to_code rest) = false →
      do_replacement_loop E S rep (region_of spans) (fuel + 1) p buf
        = do_replacement_loop E S rep (region_of spans) fuel (p + 2)
            (buf ++ group_text S spans (d1 - 0x30)) := by
    intro rep fuel p buf d1 rest hd h1 hrest
    rw [loop_at_backslash E S rep _ fuel p buf d1 rest hasc hd,
      do_escape_one_digit E S rep _ (p + 1) _ _ buf d1 rest hasc (drop_next hd) h1 hrest,
      escape_group_text S spans _ _ buf hin]
    rfl
  refine ⟨two rep fuel p buf, one rep fuel p buf, ?_, ?_, ?_⟩
  · intro b e others hsp h0
    unfold og_oniguruma_oregexp_do_replacement
    rw [show ([0x5c, 0x30] : Bytes).length = 1 + 1 from rfl,
      one [0x5c, 0x30] 1 0 buf 0x30 [] rfl (by decide) (Or.inl rfl), loop_done _ _ _ _ _ _ _
        (by decide)]
    simp [group_text, hsp, h0]
  · unfold og_oniguruma_oregexp_do_replacement
    rw [show ([0x5c, 0x31, 0x32, 0x33] : Bytes).length = 3 + 1 from rfl,
      two [0x5c, 0x31, 0x32, 0x33] 3 0 buf 0x31 0x32 [0x33] rfl (by decide) (by decide),
      loop_at_plain E S [0x5c, 0x31, 0x32, 0x33] _ 2 (0 + 3) _ 0x33 [] hasc rfl (by decide)
        (by decide),
      loop_done _ _ _ _ _ _ _ (by decide)]
  · intro hlen
    unfold og_oniguruma_oregexp_do_replacement
    rw [show ([0x5c, 0x31, 0x30] : Bytes).length = 2 + 1 from rfl,
      two [0x5c, 0x31, 0x30] 2 0 buf 0x31 0x30 [] rfl (by decide) (by decide),
      loop_done _ _ _ _ _ _ _ (by decide)]
    have hnone : spans[10]? = none := List.getElem?_eq_none_iff.mpr (by omega)
    simp [group_text, hnone]

/-- C7 at a concrete input: over the subject `"abc"`, with the whole match `(0, 3)` and
group 1 at `(1, 2)`, the template `\0` emits `"abc"`. -/
theorem backslash_digits_denote_group_witness :
    ONIG_ENCODING_ASCII.ascii_compatible ∧ spans_in [0x61, 0x62, 0x63] [(0, 3), (1, 2)] ∧
    og_oniguruma_oregexp_do_replacement (empty_pattern_engine ONIG_ENCODING_ASCII) []
        [0x61, 0x62, 0x63] [0x5c, 0x30] (region_of [(0, 3), (1, 2)])
      = .ok [0x61, 0x62, 0x63] :=
  ⟨ONIG_ENCODING_ASCII_ascii_compatible, by decide,
    (backslash_digits_denote_group (empty_pattern_engine ONIG_ENCODING_ASCII) [0x61, 0x62, 0x63]
      [] [(0, 3), (1, 2)] 0 0 [] ONIG_ENCODING_ASCII_ascii_compatible (by decide)).2.2.1
      0 3 [(1, 2)] rfl (by decide)⟩

/-- At a backslash followed by a one-byte character that is not a digit, one iteration
of the loop is the escape switch on that character followed by the rest of the loop. -/
theorem loop_at_escape_char (E : Engine) (S rep : Bytes) (region : OnigRegion) (fuel p : Nat)
    (buf : Bytes) (c : Nat) (rest : Bytes) (hasc : E.encoding.ascii_compatible)
    (hd : rep.drop p = 0x5c :: c :: rest) (hc : c < 0x80) (hnd : ¬ (0x30 ≤ c ∧ c ≤ 0x39)) :
    do_replacement_loop E S rep region (fuel + 1) p buf
      = (escape_char E S rep region (p + 1) 1 c 1 buf >>=
          fun r => do_replacement_loop E S rep region fuel r.1 r.2) := by
  have hlen := drop_length hd
  simp only [List.length_cons] at hlen
  have hd2 := drop_next hd
  obtain ⟨hcode, hwidth⟩ := hasc.1 c rest hc
  have hdig : E.encoding.is_code_digit c = false := by
    rw [hasc.2 c hc]; simpa using hnd
  rw [loop_at_backslash E S rep region fuel p buf c rest hasc hd,
    do_escape_nondigit E S rep region (p + 1) _ _ buf c 1 (by omega) (by rw [hd2, hcode])
      (by rw [hd2, hwidth]) hdig]

/-- C8: in a replacement template read in an ASCII-compatible encoding, for every
subject `S` and every match with whole-match span `(b, e)` inside it: the escape `\&`
emits `S[b, e)`, the escape backslash-backtick emits `S[0, b)` and the escape
backslash-apostrophe emits `S[e, len(S))`, each resuming right after the escape.
Consequently the template made of the three escapes in the order prematch, match,
postmatch emits exactly `S`. -/
theorem match_prematch_postmatch_escapes (E : Engine) (S rep : Bytes) (region : OnigRegion)
    (fuel p : Nat) (buf : Bytes) (b e : Int)
    (hasc : E.encoding.ascii_compatible)
    (hb : region_at region.beg 0 = .ok b) (he : region_at region.end_ 0 = .ok e)
    (h0 : 0 ≤ b) (hbe : b ≤ e) (hel : e ≤ S.length) :
    (∀ rest : Bytes, rep.drop p = 0x5c :: 0x26 :: rest →
      do_replacement_loop E S rep region (fuel + 1) p buf
        = do_replacement_loop E S rep region fuel (p + 2) (buf ++ slice S b e)) ∧
    (∀ rest : Bytes, rep.drop p = 0x5c :: 0x60 :: rest →
      do_replacement_loop E S rep region (fuel + 1) p buf
        = do_replacement_loop E S rep region fuel (p + 2) (buf ++ slice S 0 b)) ∧
    (∀ rest : Bytes, rep.drop p = 0x5c :: 0x27 :: rest →
      do_replacement_loop E S rep region (fuel + 1) p buf
        = do_replacement_loop E S rep region fuel (p + 2) (buf ++ slice S e S.length)) ∧
    og_oniguruma_oregexp_do_replacement E buf S [0x5c, 0x60, 0x5c, 0x26, 0x5c, 0x27] region
      = .ok (buf ++ S) := by
  have hmatch : ∀ (rep : Bytes) (fuel p : Nat) (buf rest : Bytes),
      rep.drop p = 0x5c :: 0x26 :: rest →
      do_replacement_loop E S rep region (fuel + 1) p buf
        = do_replacement_loop E S rep region fuel (p + 2) (buf ++ slice S b e) := by
    intro rep fuel p buf rest hd
    rw [loop_at_escape_char E S rep region fuel p buf 0x26 rest hasc hd (by decide) (by decide)]
    unfold escape_char
    simp only [show ¬ ((0x26 : Nat) = 0x5c) by decide, if_false, if_true, hb, he, Res.bind_ok,
      rb_str_buf_cat_slice buf S b e h0 hbe hel, Res.pure_eq]
  have hpre : ∀ (rep : Bytes) (fuel p : Nat) (buf rest : Bytes),
      rep.drop p = 0x5c :: 0x60 :: rest →
      do_replacement_loop E S rep region (fuel + 1) p buf
        = do_replacement_loop E S rep region fuel (p + 2) (buf ++ slice S 0 b) := by
    intro rep fuel p buf rest hd
    have hcat := rb_str_buf_cat_slice buf S 0 b (le_refl _) h0 (by omega)
    simp only [sub_zero] at hcat
    rw [loop_at_escape_char E S rep region fuel p buf 0x60 rest hasc hd (by decide) (by decide)]
    unfold escape_char
    simp only [show ¬ ((0x60 : Nat) = 0x5c) by decide, show ¬ ((0x60 : Nat) = 0x26) by decide,
      if_false, if_true, hb, Res.bind_ok, hcat, Res.pure_eq]
  have hpost : ∀ (rep : Bytes) (fuel p : Nat) (buf rest : Bytes),
      rep.drop p = 0x5c :: 0x27 :: rest →
      do_replacement_loop E S rep region (fuel + 1) p buf
        = do_replacement_loop E S rep region fuel (p + 2) (buf ++ slice S e S.length) := by
    intro rep fuel p buf rest hd
    rw [loop_at_escape_char E S rep region fuel p buf 0x27 rest hasc hd (by decide) (by decide)]
    unfold escape_char
    simp only [show ¬ ((0x27 : Nat) = 0x5c) by decide, show ¬ ((0x27 : Nat) = 0x26) by decide,
      show ¬ ((0x27 : Nat) = 0x60) by decide, if_false, if_true, he, Res.bind_ok,
      rb_str_buf_cat_slice buf S e S.length (by omega) hel (le_refl _), Res.pure_eq]
  refine ⟨hmatch rep fuel p buf, hpre rep fuel p buf, hpost rep fuel p buf, ?_⟩
  unfold og_oniguruma_oregexp_do_replacement
  rw [show ([0x5c, 0x60, 0x5c, 0x26, 0x5c, 0x27] : Bytes).length = 5 + 1 from rfl,
    hpre [0x5c, 0x60, 0x5c, 0x26, 0x5c, 0x27] 5 0 buf _ rfl,
    hmatch [0x5c, 0x60, 0x5c, 0x26, 0x5c, 0x27] 4 (0 + 2) _ _ rfl,
    hpost [0x5c, 0x60, 0x5c, 0x26, 0x5c, 0x27] 3 (0 + 2 + 2) _ _ rfl,
    loop_done _ _ _ _ _ _ _ (by decide), List.append_assoc, List.append_assoc,
    slice_append S b e S.length h0 hbe hel, slice_append S 0 b S.length (le_refl _) h0 (by omega),
    slice_full]

/-- C8 at a concrete input: over `"abc"` with the match `(1, 2)`, the template of the
three escapes emits `"abc"`. -/
theorem match_prematch_postmatch_escapes_witness :
    ONIG_ENCODING_ASCII.ascii_compatible ∧
    og_oniguruma_oregexp_do_replacement (empty_pattern_engine ONIG_ENCODING_ASCII) []
        [0x61, 0x62, 0x63] [0x5c, 0x60, 0x5c, 0x26, 0x5c, 0x27] (region_of [(1, 2)])
      = .ok [0x61, 0x62, 0x63] :=
  ⟨ONIG_ENCODING_ASCII_ascii_compatible,
    (match_prematch_postmatch_escapes (empty_pattern_engine ONIG_ENCODING_ASCII)
      [0x61, 0x62, 0x63] [] (region_of [(1, 2)]) 0 0 [] 1 2 ONIG_ENCODING_ASCII_ascii_compatible
      (by decide) (by decide) (by decide) (by decide) (by decide)).2.2.2⟩

/-! ## Named group references -/

theorem cat_group_text (S : Bytes) (spans : List (Int × Int)) (g : Nat) (buf : Bytes)
    (hin : spans_in S spans) (hg : g < spans.length) :
    cat_group buf S (region_of spans) (g : Int) = .ok (buf ++ group_text S spans g) := by
  have hget : spans[g]? = some spans[g] := List.getElem?_eq_getElem hg
  have hmem : spans[g] ∈ spans := List.getElem_mem hg
  have hb : region_at (region_of spans).beg (g : Int) = .ok spans[g].1 :=
    region_at_get (by simp only [region_of, List.getElem?_map, hget]; rfl)
  have he : region_at (region_of spans).end_ (g : Int) = .ok spans[g].2 :=
    region_at_get (by simp only [region_of, List.getElem?_map, hget]; rfl)
  unfold cat_group group_text
  simp only [hb, he, Res.bind_ok, hget]
  rcases hin _ hmem with ⟨hb1, he1⟩ | ⟨h0, h1, h2⟩
  · rw [hb1, he1, if_neg (by omega)]
    simp [rb_str_buf_cat]
  · rw [if_pos h0, rb_str_buf_cat_slice buf S _ _ h0 h1 h2]

theorem word_characters_nonempty (enc : OnigEncoding) (post : Bytes) (cs : List Bytes)
    (h : word_characters enc post cs) : ∀ c ∈ cs, c ≠ [] := by
  induction cs with
  | nil => simp
  | cons c cs ih =>
    intro x hx
    rcases List.mem_cons.mp hx with rfl | hx
    · exact h.1
    · exact ih h.2.2.2.2 x hx

theorem scan_name_word_characters (enc : OnigEncoding) (rep post : Bytes)
    (hgt : enc.mbc_to_code (0x3e :: post) = 0x3e ∧ enc.mbc_enc_len (0x3e :: post) = 1) :
    ∀ (cs : List Bytes) (q fuel : Nat) (s : NameScan),
      rep.drop q = cs.flatten ++ 0x3e :: post → word_characters enc (0x3e :: post) cs →
      s.named_group_pos = q → cs.length < fuel →
      scan_name enc rep fuel s
        = .ok { named_group_pos := q + cs.flatten.length + 1
                named_group_end := s.named_group_end + cs.flatten.length
                code_point := 0x3e
                code_point_len := 1 } := by
  intro cs
  induction cs with
  | nil =>
    intro q fuel s hd _ hpos hf
    obtain ⟨k, rfl⟩ : ∃ k, fuel = k + 1 := ⟨fuel - 1, by simp at hf; omega⟩
    subst hpos
    simp only [List.flatten_nil, List.nil_append] at hd
    have hlen := drop_length hd
    simp only [List.length_cons] at hlen
    have hnl : ¬ rep.length ≤ s.named_group_pos := by omega
    unfold scan_name
    simp [get_code_point, hd, hgt.1, hgt.2, hnl]
  | cons c cs ih =>
    intro q fuel s hd hw hpos hf
    obtain ⟨hne, hwidth, hword, hngt, hrest⟩ := hw
    obtain ⟨k, rfl⟩ : ∃ k, fuel = k + 1 := ⟨fuel - 1, by simp at hf; omega⟩
    subst hpos
    have hd1 : rep.drop s.named_group_pos = c ++ (cs.flatten ++ 0x3e :: post) := by
      rw [hd]; simp
    have hcpos : 0 < c.length := List.length_pos.mpr hne
    have hlen := drop_length hd1
    simp only [List.length_append] at hlen
    have hnl : ¬ rep.length ≤ s.named_group_pos := by omega
    have hnext := ih (s.named_group_pos + c.length) k
      { named_group_pos := s.named_group_pos + c.length
        named_group_end := s.named_group_end + c.length
        code_point := enc.mbc_to_code (c ++ (cs.flatten ++ 0x3e :: post))
        code_point_len := c.length }
      (drop_more c hd1) hrest rfl (by simp at hf; omega)
    unfold scan_name
    simp only [get_code_point, hd1, hwidth, hword, hngt, hnl, if_false, if_true]
    rw [hnext]
    simp only [List.flatten_cons, List.length_append, Res.ok.injEq, NameScan.mk.injEq, and_true]
    constructor <;> omega

theorem escape_named_resolved (E : Engine) (S rep : Bytes) (spans : List (Int × Int))
    (q : Nat) (buf : Bytes) (cs : List Bytes) (post : Bytes) (g : Nat)
    (hasc : E.encoding.ascii_compatible) (hin : spans_in S spans) (hcs : cs ≠ [])
    (hw : word_characters E.encoding (0x3e :: post) cs)
    (hd : rep.drop q = 0x3c :: (cs.flatten ++ 0x3e :: post))
    (hname : E.name_to_backref_number cs.flatten (region_of spans) = (g : Int))
    (hg : g < spans.length) :
    escape_named E S rep (region_of spans) q 1 0x3c 1 buf
      = .ok (q + 1 + cs.flatten.length + 1, buf ++ group_text S spans g) := by
  have hd1 := drop_next hd
  have hlen := drop_length hd1
  simp only [List.length_append, List.length_cons] at hlen
  have hne := word_characters_nonempty _ _ cs hw
  have hle := length_le_flatten cs hne
  have hpos : 0 < cs.flatten.length := by
    have : 0 < cs.length := List.length_pos.mpr hcs
    omega
  have hscan := scan_name_word_characters E.encoding rep post (hasc.1 0x3e post (by decide))
    cs (q + 1) (rep.length + 1)
    { named_group_pos := q + 1, named_group_end := q + 1, code_point := 0x3c,
      code_point_len := 1 } hd1 hw rfl (by omega)
  have htake : (rep.drop (q + 1)).take (q + 1 + cs.flatten.length - (q + 1)) = cs.flatten := by
    rw [hd1, show q + 1 + cs.flatten.length - (q + 1) = cs.flatten.length by omega,
      List.take_left]
  have hcond : ¬ ((0x3e : Nat) ≠ 0x3e ∨ q + 1 + cs.flatten.length = q + 1) := by omega
  unfold escape_named
  simp only [hscan, Res.bind_ok, htake, hname]
  rw [if_neg hcond, if_pos (by omega), cat_group_text S spans g buf hin hg]
  rfl

theorem loop_at_named_reference (E : Engine) (S rep : Bytes) (spans : List (Int × Int))
    (fuel p : Nat) (buf : Bytes) (cs : List Bytes) (post : Bytes) (g : Nat)
    (hasc : E.encoding.ascii_compatible) (hin : spans_in S spans) (hcs : cs ≠ [])
    (hw : word_characters E.encoding (0x3e :: post) cs)
    (hname : E.name_to_backref_number cs.flatten (region_of spans) = (g : Int))
    (hg : g < spans.length)
    (hd : rep.drop p = 0x5c :: 0x3c :: (cs.flatten ++ 0x3e :: post)) :
    do_replacement_loop E S rep (region_of spans) (fuel + 1) p buf
      = do_replacement_loop E S rep (region_of spans) fuel (p + 2 + cs.flatten.length + 1)
          (buf ++ group_text S spans g) := by
  rw [loop_at_escape_char E S rep _ fuel p buf 0x3c _ hasc hd (by decide) (by decide)]
  unfold escape_char
  simp only [show ¬ ((0x3c : Nat) = 0x5c) by decide, show ¬ ((0x3c : Nat) = 0x26) by decide,
    show ¬ ((0x3c : Nat) = 0x60) by decide, show ¬ ((0x3c : Nat) = 0x27) by decide,
    show ¬ ((0x3c : Nat) = 0x2b) by decide, if_false, if_true]
  rw [escape_named_resolved E S rep spans (p + 1) buf cs post g hasc hin hcs hw
    (drop_next hd) hname hg]
  simp only [Res.bind_ok]

theorem named_reference_chunk (E : Engine) (S : Bytes) (spans : List (Int × Int))
    (buf : Bytes) (cs : List Bytes) (g : Nat)
    (hasc : E.encoding.ascii_compatible) (hin : spans_in S spans) (hcs : cs ≠ [])
    (hw : word_characters E.encoding [0x3e] cs)
    (hname : E.name_to_backref_number cs.flatten (region_of spans) = (g : Int))
    (hg : g < spans.length) :
    og_oniguruma_oregexp_do_replacement E buf S (0x5c :: 0x3c :: (cs.flatten ++ [0x3e]))
        (region_of spans)
      = .ok (buf ++ group_text S spans g) := by
  unfold og_oniguruma_oregexp_do_replacement
  rw [show (0x5c :: 0x3c :: (cs.flatten ++ [0x3e])).length = (cs.flatten.length + 2) + 1 by simp,
    loop_at_named_reference E S _ spans _ 0 buf cs [] g hasc hin hcs hw hname hg rfl,
    loop_done _ _ _ _ _ _ _ (by simp; omega)]

/-- C10: in a replacement template read in an ASCII-compatible encoding, against a match
whose groups either did not take part or lie inside the subject: where the template
holds `\<name>`, the name being a non-empty run of whole word characters closed by `>`,
and the engine resolves the name to the group `g` of the region, one iteration of the
loop appends `S[beg(g), end(g))` to the buffer (nothing when `g` did not take part) and
nothing else, and resumes right after the `>`. The template `\<name>` alone emits
exactly that text. -/
theorem named_reference_emits_group (E : Engine) (S rep : Bytes) (spans : List (Int × Int))
    (fuel p : Nat) (buf : Bytes) (cs : List Bytes) (post : Bytes) (g : Nat)
    (hasc : E.encoding.ascii_compatible) (hin : spans_in S spans) (hcs : cs ≠ [])
    (hw : word_characters E.encoding (0x3e :: post) cs)
    (hname : E.name_to_backref_number cs.flatten (region_of spans) = (g : Int))
    (hg : g < spans.length) :
    (rep.drop p = 0x5c :: 0x3c :: (cs.flatten ++ 0x3e :: post) →
      do_replacement_loop E S rep (region_of spans) (fuel + 1) p buf
        = do_replacement_loop E S rep (region_of spans) fuel (p + 2 + cs.flatten.length + 1)
            (buf ++ group_text S spans g)) ∧
    (post = [] →
      og_oniguruma_oregexp_do_replacement E buf S (0x5c :: 0x3c :: (cs.flatten ++ [0x3e]))
          (region_of spans)
        = .ok (buf ++ group_text S spans g)) := by
  refine ⟨loop_at_named_reference E S rep spans fuel p buf cs post g hasc hin hcs hw hname hg,
    ?_⟩
  intro hpost
  subst hpost
  exact named_reference_chunk E S spans buf cs g hasc hin hcs hw hname hg

/-- C10 at a concrete input: the pattern `(?<foo>b)` matched in `"abc"`, with the
template `\<foo>`, emits `"b"`. -/
theorem named_reference_emits_group_witness :
    og_oniguruma_oregexp_do_replacement
        (named_literal_engine ONIG_ENCODING_ASCII [0x62] [0x66, 0x6f, 0x6f]) []
        [0x61, 0x62, 0x63] [0x5c, 0x3c, 0x66, 0x6f, 0x6f, 0x3e] (region_of [(1, 2), (1, 2)])
      = .ok [0x62] :=
  (named_reference_emits_group (named_literal_engine ONIG_ENCODING_ASCII [0x62] [0x66, 0x6f, 0x6f])
    [0x61, 0x62, 0x63] [] [(1, 2), (1, 2)] 0 0 [] [[0x66], [0x6f], [0x6f]] [] 1
    ONIG_ENCODING_ASCII_ascii_compatible (by decide) (by decide) (by decide) (by decide)
    (by decide)).2 rfl

/-! ## C9: the `\k<name>` form -/

/-- At a backslash followed by `k`, one iteration of the loop copies both characters:
`\k` is not an escape. -/
theorem loop_at_backslash_k (E : Engine) (S rep : Bytes) (region : OnigRegion) (fuel p : Nat)
    (buf rest : Bytes) (hasc : E.encoding.ascii_compatible)
    (hd : rep.drop p = 0x5c :: 0x6b :: rest) :
    do_replacement_loop E S rep region (fuel + 1) p buf
      = do_replacement_loop E S rep region fuel (p + 2) (buf ++ [0x5c, 0x6b]) := by
  have hlen := drop_length hd
  simp only [List.length_cons] at hlen
  have hcat : rb_str_buf_cat buf rep (((p + 1 : Nat) : Int) - ((1 : Nat) : Int))
      (((1 : Nat) : Int) + ((1 : Nat) : Int)) = .ok (buf ++ [0x5c, 0x6b]) := by
    have e : (((p + 1 : Nat) : Int) - ((1 : Nat) : Int)) = (p : Int) := by omega
    rw [e, rb_str_buf_cat_width _ _ _ _ (by omega) (by omega) (by omega)]
    unfold slice
    have e1 : ((p : Int)).toNat = p := by omega
    have e2 : ((p : Int) + (((1 : Nat) : Int) + ((1 : Nat) : Int)) - (p : Int)).toNat = 2 := by
      omega
    rw [e1, e2, hd]
    rfl
  rw [loop_at_escape_char E S rep region fuel p buf 0x6b rest hasc hd (by decide) (by decide)]
  unfold escape_char
  simp only [show ¬ ((0x6b : Nat) = 0x5c) by decide, show ¬ ((0x6b : Nat) = 0x26) by decide,
    show ¬ ((0x6b : Nat) = 0x60) by decide, show ¬ ((0x6b : Nat) = 0x27) by decide,
    show ¬ ((0x6b : Nat) = 0x2b) by decide, show ¬ ((0x6b : Nat) = 0x3c) by decide,
    if_false, hcat, Res.bind_ok, Res.pure_eq]

theorem backslash_k_foo_chunk (E : Engine) (S : Bytes) (region : OnigRegion)
    (hasc : E.encoding.ascii_compatible) :
    replacement_chunk E S [0x5c, 0x6b, 0x3c, 0x66, 0x6f, 0x6f, 0x3e] region
      = .ok [0x5c, 0x6b, 0x3c, 0x66, 0x6f, 0x6f, 0x3e] := by
  unfold replacement_chunk og_oniguruma_oregexp_do_replacement
  rw [show ([0x5c, 0x6b, 0x3c, 0x66, 0x6f, 0x6f, 0x3e] : Bytes).length = 6 + 1 from rfl,
    loop_at_backslash_k E S [0x5c, 0x6b, 0x3c, 0x66, 0x6f, 0x6f, 0x3e] region 6 0 _ _ hasc rfl,
    loop_at_plain E S [0x5c, 0x6b, 0x3c, 0x66, 0x6f, 0x6f, 0x3e] region 5 (0 + 2) _ 0x3c _ hasc
      rfl (by decide) (by decide),
    loop_at_plain E S [0x5c, 0x6b, 0x3c, 0x66, 0x6f, 0x6f, 0x3e] region 4 (0 + 2 + 1) _ 0x66 _
      hasc rfl (by decide) (by decide),
    loop_at_plain E S [0x5c, 0x6b, 0x3c, 0x66, 0x6f, 0x6f, 0x3e] region 3 (0 + 2 + 1 + 1) _ 0x6f
      _ hasc rfl (by decide) (by decide),
    loop_at_plain E S [0x5c, 0x6b, 0x3c, 0x66, 0x6f, 0x6f, 0x3e] region 2 (0 + 2 + 1 + 1 + 1) _
      0x6f _ hasc rfl (by decide) (by decide),
    loop_at_plain E S [0x5c, 0x6b, 0x3c, 0x66, 0x6f, 0x6f, 0x3e] region 1
      (0 + 2 + 1 + 1 + 1 + 1) _ 0x3e _ hasc rfl (by decide) (by decide),
    loop_done _ _ _ _ _ _ _ (by decide)]
  rfl

/-- C9, as stated, fails: for the pattern `(?<foo>b)` matched in `"abc"`, where the
group `foo` captured `"b"`, `sub` with the template `\k<foo>` does not give `"abc"`: the
`k` case of the escape switch is commented out, so the template is copied literally and
the result is `a\k<foo>c`. -/
theorem backslash_k_is_copied_literally :
    (named_literal_engine ONIG_ENCODING_ASCII [0x62] [0x66, 0x6f, 0x6f]).name_to_backref_number
        [0x66, 0x6f, 0x6f] (region_of [(1, 2), (1, 2)]) = 1 ∧
    group_text [0x61, 0x62, 0x63] [(1, 2), (1, 2)] 1 = [0x62] ∧
    (og_oniguruma_oregexp_sub (named_literal_engine ONIG_ENCODING_ASCII [0x62] [0x66, 0x6f, 0x6f])
        [0x5c, 0x6b, 0x3c, 0x66, 0x6f, 0x6f, 0x3e] none
        { ptr := 0, bytes := [0x61, 0x62, 0x63] } World.init 1).result
      = .ok { value := .fresh [0x61, 0x5c, 0x6b, 0x3c, 0x66, 0x6f, 0x6f, 0x3e, 0x63],
              str_bytes := [0x61, 0x62, 0x63], world := World.init,
              visited := [region_of [(1, 2), (1, 2)]] } := by
  decide

/-- C9, amended: the named-group round trip holds with the `\<name>` form. In an
ASCII-compatible encoding, when the first search matches with the whole-match span
`(b, e)` and its groups either did not take part or lie inside the subject, and the
engine resolves the name, a non-empty run of whole word characters, to the group `g`
of the region: `sub` with the template `\<name>` returns `S[0,b)`, then exactly the
bytes group `g` captured, then `S[e,len)`; while `sub` with the template `\k<foo>`
copies the seven bytes of the template in place of the match. -/
theorem named_round_trip (E : Engine) (S : Bytes) (ptr : Nat) (w : World)
    (fuel : Nat) (spans others : List (Int × Int)) (b e : Int) (cs : List Bytes) (g : Nat)
    (hasc : E.encoding.ascii_compatible)
    (hfirst : 0 ≤ (E.search S 0 S.length).1)
    (hreg : (E.search S 0 S.length).2 = region_of spans)
    (hsp : spans = (b, e) :: others) (hin : spans_in S spans) (h0 : 0 ≤ b)
    (hcs : cs ≠ []) (hw : word_characters E.encoding [0x3e] cs)
    (hname : E.name_to_backref_number cs.flatten (region_of spans) = (g : Int))
    (hg : g < spans.length) (hfuel : 0 < fuel) :
    (og_oniguruma_oregexp_sub E (0x5c :: 0x3c :: (cs.flatten ++ [0x3e])) none
        { ptr := ptr, bytes := S } w fuel).result
      = .ok { value := .fresh (slice S 0 b ++ group_text S spans g ++ slice S e S.length),
              str_bytes := S, world := w, visited := [region_of spans] } ∧
    (og_oniguruma_oregexp_sub E [0x5c, 0x6b, 0x3c, 0x66, 0x6f, 0x6f, 0x3e] none
        { ptr := ptr, bytes := S } w fuel).result
      = .ok { value := .fresh (slice S 0 b ++ [0x5c, 0x6b, 0x3c, 0x66, 0x6f, 0x6f, 0x3e]
                ++ slice S e S.length),
              str_bytes := S, world := w, visited := [region_of spans] } := by
  have hmem : (b, e) ∈ spans := by rw [hsp]; simp
  have hbe : b ≤ e ∧ e ≤ S.length := by
    rcases hin _ hmem with ⟨hb1, _⟩ | ⟨_, h1, h2⟩
    · simp only at hb1; omega
    · exact ⟨h1, h2⟩
  have hb : region_at (E.search S 0 S.length).2.beg 0 = .ok b := by
    rw [hreg, hsp]; simp [region_of, region_at]
  have he : region_at (E.search S 0 S.length).2.end_ 0 = .ok e := by
    rw [hreg, hsp]; simp [region_of, region_at]
  have hchunk : replacement_chunk E S (0x5c :: 0x3c :: (cs.flatten ++ [0x3e]))
      (E.search S 0 S.length).2 = .ok (group_text S spans g) := by
    rw [hreg]
    have := named_reference_chunk E S spans [] cs g hasc hin hcs hw hname hg
    simpa [replacement_chunk] using this
  have h1 := sub_one_iteration E S _ ptr w fuel b e _ hfirst hb he h0 hbe.1 hbe.2 hchunk hfuel
  have h2 := sub_one_iteration E S _ ptr w fuel b e _ hfirst hb he h0 hbe.1 hbe.2
    (backslash_k_foo_chunk E S _ hasc) hfuel
  rw [hreg] at h1 h2
  exact ⟨h1, h2⟩

/-- C9, amended, at a concrete input: for the pattern `(?<foo>b)` over `"abc"`, `sub`
with the template `\<foo>` gives back `"abc"`. -/
theorem named_round_trip_witness :
    (og_oniguruma_oregexp_sub (named_literal_engine ONIG_ENCODING_ASCII [0x62] [0x66, 0x6f, 0x6f])
        [0x5c, 0x3c, 0x66, 0x6f, 0x6f, 0x3e] none
        { ptr := 0, bytes := [0x61, 0x62, 0x63] } World.init 1).result
      = .ok { value := .fresh [0x61, 0x62, 0x63], str_bytes := [0x61, 0x62, 0x63],
              world := World.init, visited := [region_of [(1, 2), (1, 2)]] } :=
  (named_round_trip (named_literal_engine ONIG_ENCODING_ASCII [0x62] [0x66, 0x6f, 0x6f])
    [0x61, 0x62, 0x63] 0 World.init 1 [(1, 2), (1, 2)] [(1, 2)] 1 2 [[0x66], [0x6f], [0x6f]] 1
    ONIG_ENCODING_ASCII_ascii_compatible (by decide) (by decide) rfl (by decide) (by decide)
    (by decide) (by decide) (by decide) (by decide) (by decide)).1

/-! ## C19: the destructive forms -/

theorem substitution_loop_update_self (E : Engine) (t : Bytes) (block : Option Block)
    (g u : Bool) (ptr : Nat) (subj_len : Int) (fuel : Nat) :
    ∀ (region : OnigRegion) (st : SubstLoop),
    substitution_loop E { replacement := t, block := block, global := g, update_self := u }
        ptr subj_len fuel region st
      = substitution_loop E { replacement := t, block := block, global := g, update_self := false }
          ptr subj_len fuel region st := by
  induction fuel with
  | zero => intro region st; rfl
  | succ fuel ih =>
    intro region st
    unfold substitution_loop
    simp only [ih]
    rfl

theorem update_self_no_match (E : Engine) (t : Bytes) (block : Option Block) (g : Bool)
    (str : RString) (w : World) (fuel : Nat)
    (h : (E.search str.bytes 0 str.bytes.length).1 < 0) :
    (og_oniguruma_oregexp_do_substitution_safe E t block g true str w fuel).result
      = .ok { value := .nil, str_bytes := str.bytes, world := w, visited := [] } := by
  unfold og_oniguruma_oregexp_do_substitution_safe og_oniguruma_oregexp_do_substitution
  simp [h]

theorem update_self_match (E : Engine) (t : Bytes) (block : Option Block) (g : Bool)
    (str : RString) (w : World) (fuel : Nat)
    (h : 0 ≤ (E.search str.bytes 0 str.bytes.length).1) :
    (∀ out, (og_oniguruma_oregexp_do_substitution_safe E t block g false str w fuel).result
        = .ok out →
      ∃ buf, out.value = .fresh buf ∧
        (og_oniguruma_oregexp_do_substitution_safe E t block g true str w fuel).result
          = .ok { value := .subject, str_bytes := buf, world := out.world,
                  visited := out.visited }) ∧
    (∀ e, (og_oniguruma_oregexp_do_substitution_safe E t block g false str w fuel).result
        = .raise e →
      (og_oniguruma_oregexp_do_substitution_safe E t block g true str w fuel).result
        = .raise e) ∧
    ((og_oniguruma_oregexp_do_substitution_safe E t block g false str w fuel).result
        = .timeout →
      (og_oniguruma_oregexp_do_substitution_safe E t block g true str w fuel).result
        = .timeout) := by
  have hn : ¬ (E.search str.bytes 0 str.bytes.length).1 < 0 := by omega
  unfold og_oniguruma_oregexp_do_substitution_safe og_oniguruma_oregexp_do_substitution
  simp only [if_neg hn, substitution_loop_update_self E t block g true]
  cases substitution_loop E
      { replacement := t, block := block, global := g, update_self := false } str.ptr
      str.bytes.length fuel (E.search str.bytes 0 str.bytes.length).2
      { buffer := [], end_ := 0, subj := str.bytes, world := w, visited := [] } with
  | ok st =>
    simp only [Res.bind_ok]
    cases rb_str_buf_cat st.buffer st.subj st.end_ ((str.bytes.length : Int) - st.end_) with
    | ok buf =>
      refine ⟨?_, ?_, ?_⟩
      · intro out hout
        simp only [Res.bind_ok, Bool.false_eq_true, if_false, Res.pure_eq, Res.ok.injEq] at hout
        subst hout
        exact ⟨buf, rfl, rfl⟩
      · intro e he; simp at he
      · intro ht; simp at ht
    | raise e =>
      refine ⟨?_, ?_, ?_⟩
      · intro out hout; simp at hout
      · intro e' he; exact he
      · intro ht; simp at ht
    | timeout =>
      refine ⟨?_, ?_, ?_⟩
      · intro out hout; simp at hout
      · intro e he; simp at he
      · intro _; rfl
  | raise e =>
    refine ⟨?_, ?_, ?_⟩
    · intro out hout; simp at hout
    · intro e' he; exact he
    · intro ht; simp at ht
  | timeout =>
    refine ⟨?_, ?_, ?_⟩
    · intro out hout; simp at hout
    · intro e he; simp at he
    · intro _; rfl

/-- C19: destructive substitution, for `sub!` and `gsub!` alike, with a template or a
block. When the first search finds no match (a negative status) it returns nil and the
subject keeps its bytes. Otherwise, whenever the non-destructive form (`sub`, `gsub`)
returns on the same inputs, it returns a new string of some bytes `buf`, and the
destructive form returns the subject itself, whose contents are now exactly `buf`, with
the same process-wide cells and the same visited matches; and whenever the
non-destructive form raises, the destructive form raises the same exception. -/
theorem destructive_forms_replace_subject (E : Engine) (t : Bytes) (block : Option Block)
    (str : RString) (w : World) (fuel : Nat) :
    ((E.search str.bytes 0 str.bytes.length).1 < 0 →
      (og_oniguruma_oregexp_sub_bang E t block str w fuel).result
        = .ok { value := .nil, str_bytes := str.bytes, world := w, visited := [] } ∧
      (og_oniguruma_oregexp_gsub_bang E t block str w fuel).result
        = .ok { value := .nil, str_bytes := str.bytes, world := w, visited := [] }) ∧
    (0 ≤ (E.search str.bytes 0 str.bytes.length).1 →
      (∀ out, (og_oniguruma_oregexp_sub E t block str w fuel).result = .ok out →
        ∃ buf, out.value = .fresh buf ∧
          (og_oniguruma_oregexp_sub_bang E t block str w fuel).result
            = .ok { value := .subject, str_bytes := buf, world := out.world,
                    visited := out.visited }) ∧
      (∀ out, (og_oniguruma_oregexp_gsub E t block str w fuel).result = .ok out →
        ∃ buf, out.value = .fresh buf ∧
          (og_oniguruma_oregexp_gsub_bang E t block str w fuel).result
            = .ok { value := .subject, str_bytes := buf, world := out.world,
                    visited := out.visited }) ∧
      (∀ e, (og_oniguruma_oregexp_sub E t block str w fuel).result = .raise e →
        (og_oniguruma_oregexp_sub_bang E t block str w fuel).result = .raise e) ∧
      (∀ e, (og_oniguruma_oregexp_gsub E t block str w fuel).result = .raise e →
        (og_oniguruma_oregexp_gsub_bang E t block str w fuel).result = .raise e)) := by
  refine ⟨fun h => ⟨update_self_no_match E t block false str w fuel h,
    update_self_no_match E t block true str w fuel h⟩, fun h => ?_⟩
  have hs := update_self_match E t block false str w fuel h
  have hg := update_self_match E t block true str w fuel h
  exact ⟨hs.1, hg.1, hs.2.1, hg.2.1⟩

/-- C19 at a concrete input: for the pattern `(?<foo>b)` over `"abcb"` with the template
`"-"`, `gsub` returns a new string and `gsub!` leaves exactly its bytes, `"a-c-"`, in
the subject. -/
theorem destructive_forms_replace_subject_witness :
    ∃ buf, (Value.fresh [0x61, 0x2d, 0x63, 0x2d]) = .fresh buf ∧
      (og_oniguruma_oregexp_gsub_bang
          (named_literal_engine ONIG_ENCODING_ASCII [0x62] [0x66, 0x6f, 0x6f]) [0x2d] none
          { ptr := 0, bytes := [0x61, 0x62, 0x63, 0x62] } World.init 5).result
        = .ok { value := .subject, str_bytes := buf, world := World.init,
                visited := [region_of [(1, 2), (1, 2)], region_of [(3, 4), (3, 4)]] } :=
  (destructive_forms_replace_subject
    (named_literal_engine ONIG_ENCODING_ASCII [0x62] [0x66, 0x6f, 0x6f]) [0x2d] none
    { ptr := 0, bytes := [0x61, 0x62, 0x63, 0x62] } World.init 5).2 (by decide) |>.2.1
    { value := .fresh [0x61, 0x2d, 0x63, 0x2d], str_bytes := [0x61, 0x62, 0x63, 0x62],
      world := World.init,
      visited := [region_of [(1, 2), (1, 2)], region_of [(3, 4), (3, 4)]] } (by decide)

/-! ## C16: the three outcomes of `match` -/

/-- When both conversions return, `match` is the code after the search on the converted
window. -/
theorem match_of_converted (fix2int : Int → Except Raised Int) (E : Engine)
    (string : Bytes) (begin end_ : Option Int) (w : World) (b e : Int)
    (hb : fix2int (begin.getD 0) = .ok b)
    (he : fix2int (end_.getD string.length) = .ok e) :
    og_oniguruma_oregexp_match fix2int E string begin end_ w
      = match_after_search E string b e w := by
  unfold og_oniguruma_oregexp_match
  cases begin <;> cases end_ <;> simp only [Option.getD] at hb he <;> simp only [hb, he]

/-- When the conversion of `begin` raises, `match` raises that exception and leaves the
region acquired and not released; likewise when that of `end` raises after it. -/
theorem match_of_unconverted (fix2int : Int → Except Raised Int) (E : Engine)
    (string : Bytes) (begin end_ : Option Int) (w : World) (x : Raised)
    (h : fix2int (begin.getD 0) = .error x ∨
      ((∃ b, fix2int (begin.getD 0) = .ok b) ∧
        fix2int (end_.getD string.length) = .error x)) :
    og_oniguruma_oregexp_match fix2int E string begin end_ w
      = { result := .raise x, region_new := 1, region_free := 0 } := by
  unfold og_oniguruma_oregexp_match
  rcases h with h | ⟨⟨b, hb⟩, he⟩
  · cases begin <;> cases end_ <;> simp only [Option.getD] at h <;> simp only [h]
  · cases begin <;> cases end_ <;> simp only [Option.getD] at hb he <;> simp only [hb, he]

/-- C16: `match` classifies the status of the engine exhaustively. Once the host has
converted `begin` and `end` (an omitted one being 0 and `len(subject)`) to the C
integers `b` and `e`, `match` makes one search over the window `[b, e)`. It returns a
match result exactly when the status is at least 0, and that result holds the region and
the subject of the search; it returns nil exactly when the status is `ONIG_MISMATCH`; it
raises exactly when the status is any other negative number, and the exception is the
engine error of that very status. With `begin` and `end` omitted the search window is
`[0, len(subject))`. -/
theorem match_classifies_status (fix2int : Int → Except Raised Int) (E : Engine)
    (string : Bytes) (begin end_ : Option Int) (w : World) (b e : Int)
    (hb : fix2int (begin.getD 0) = .ok b)
    (he : fix2int (end_.getD string.length) = .ok e) :
    ((∃ out m, (og_oniguruma_oregexp_match fix2int E string begin end_ w).result = .ok out ∧
        out.value = some m ∧
        m.region = (E.search string b e).2 ∧
        m.string = string)
      ↔ 0 ≤ (E.search string b e).1) ∧
    ((∃ out, (og_oniguruma_oregexp_match fix2int E string begin end_ w).result = .ok out ∧
        out.value = none)
      ↔ (E.search string b e).1 = ONIG_MISMATCH) ∧
    ((∃ x, (og_oniguruma_oregexp_match fix2int E string begin end_ w).result = .raise x)
      ↔ ((E.search string b e).1 < 0 ∧ (E.search string b e).1 ≠ ONIG_MISMATCH)) ∧
    (∀ x, (og_oniguruma_oregexp_match fix2int E string begin end_ w).result = .raise x →
      x = .onig_error (E.search string b e).1) ∧
    (og_oniguruma_oregexp_match fix2int E string begin end_ w).result ≠ .timeout ∧
    og_oniguruma_oregexp_match fix2int E string none none w
      = og_oniguruma_oregexp_match fix2int E string (some 0) (some string.length) w := by
  have hm : og_oniguruma_oregexp_match fix2int E string begin end_ w
      = match_after_search E string b e w :=
    match_of_converted fix2int E string begin end_ w b e hb he
  rw [hm]
  refine ⟨?_, ?_, ?_, ?_, ?_, rfl⟩ <;> unfold match_after_search <;> dsimp only
  all_goals
    by_cases h0 : 0 ≤ (E.search string b e).1
    · have hmis : (E.search string b e).1 ≠ ONIG_MISMATCH := by
        unfold ONIG_MISMATCH; omega
      simp [h0, hmis, og_oniguruma_oregexp_do_match]
    · have hlt : (E.search string b e).1 < 0 := by omega
      by_cases hmis : (E.search string b e).1 = ONIG_MISMATCH
      · simp [hmis, show ¬ 0 ≤ ONIG_MISMATCH by decide, show ONIG_MISMATCH < 0 by decide]
      · simp [h0, hmis, hlt]

/-- C16 at a concrete input: on a host whose `FIX2INT` checks the range of `int`, `match`
of the empty pattern over `"ab"` with `begin` 1 searches from 1 and returns the match
`(1, 1)`. -/
theorem match_classifies_status_witness :
    rb_fix2int 1 = .ok 1 ∧ rb_fix2int 2 = .ok 2 ∧
    ((∃ out m, (og_oniguruma_oregexp_match rb_fix2int (empty_pattern_engine ONIG_ENCODING_ASCII)
          [0x61, 0x62] (some 1) none World.init).result = .ok out ∧
        out.value = some m ∧
        m.region = ((empty_pattern_engine ONIG_ENCODING_ASCII).search [0x61, 0x62] 1 2).2 ∧
        m.string = [0x61, 0x62])
      ↔ 0 ≤ ((empty_pattern_engine ONIG_ENCODING_ASCII).search [0x61, 0x62] 1 2).1) ∧
    0 ≤ ((empty_pattern_engine ONIG_ENCODING_ASCII).search [0x61, 0x62] 1 2).1 :=
  ⟨rfl, rfl,
    (match_classifies_status rb_fix2int (empty_pattern_engine ONIG_ENCODING_ASCII)
      [0x61, 0x62] (some 1) none World.init 1 2 rfl rfl).1, by decide⟩

/-! ## C17: engine failures during substitution and scan -/

/-- C17, evaluated on the code: with an engine whose searches fail with `ONIGERR_MEMORY`,
a status that is not `ONIG_MISMATCH`, `gsub` and `sub` return a copy of the subject and
`scan` returns nil, as if the pattern did not match; when only the re-search fails,
`gsub` and `scan` complete normally with the one match found before. No exception is
raised, where `match` on the same engine raises the engine error. -/
theorem engine_failure_passes_for_no_match :
    (og_oniguruma_oregexp_gsub (failing_engine ONIG_ENCODING_ASCII false ONIGERR_MEMORY) [0x2d]
        none { ptr := 0, bytes := [0x61, 0x62] } World.init 5).result
      = .ok { value := .fresh [0x61, 0x62], str_bytes := [0x61, 0x62], world := World.init,
              visited := [] } ∧
    (og_oniguruma_oregexp_sub (failing_engine ONIG_ENCODING_ASCII false ONIGERR_MEMORY) [0x2d]
        none { ptr := 0, bytes := [0x61, 0x62] } World.init 5).result
      = .ok { value := .fresh [0x61, 0x62], str_bytes := [0x61, 0x62], world := World.init,
              visited := [] } ∧
    (og_oniguruma_oregexp_scan (failing_engine ONIG_ENCODING_ASCII false ONIGERR_MEMORY)
        none { ptr := 0, bytes := [0x61, 0x62] } World.init 5).result
      = .ok { value := none, str := { ptr := 0, bytes := [0x61, 0x62] }, world := World.init } ∧
    (og_oniguruma_oregexp_gsub (failing_engine ONIG_ENCODING_ASCII true ONIGERR_MEMORY) [0x2d]
        none { ptr := 0, bytes := [0x61, 0x62] } World.init 5).result
      = .ok { value := .fresh [0x2d, 0x62], str_bytes := [0x61, 0x62], world := World.init,
              visited := [region_of [(0, 1)]] } ∧
    ((og_oniguruma_oregexp_scan (failing_engine ONIG_ENCODING_ASCII true ONIGERR_MEMORY)
        none { ptr := 0, bytes := [0x61, 0x62] } World.init 5).result >>=
          fun out => .ok (out.value.map (fun ms => ms.map (fun m => m.region))))
      = .ok (some [region_of [(0, 1)]]) ∧
    (og_oniguruma_oregexp_match rb_fix2int
        (failing_engine ONIG_ENCODING_ASCII false ONIGERR_MEMORY)
        [0x61, 0x62] none none World.init).result
      = .raise (.onig_error ONIGERR_MEMORY) := by
  decide

/-! ## C12, C13: unknown escapes -/

/-- At a backslash followed by a one-byte character that is neither a digit nor one of
the characters of the escape switch, one iteration of the loop copies both bytes. -/
theorem loop_at_unknown_escape (E : Engine) (S rep : Bytes) (region : OnigRegion)
    (fuel p : Nat) (buf : Bytes) (c cp : Nat) (rest : Bytes)
    (hasc : E.encoding.ascii_compatible) (hd : rep.drop p = 0x5c :: c :: rest)
    (hwidth : E.encoding.mbc_enc_len (c :: rest) = 1)
    (hcode : E.encoding.mbc_to_code (c :: rest) = cp)
    (hnd : E.encoding.is_code_digit cp = false)
    (hne : cp ≠ 0x5c ∧ cp ≠ 0x26 ∧ cp ≠ 0x60 ∧ cp ≠ 0x27 ∧ cp ≠ 0x2b ∧ cp ≠ 0x3c) :
    do_replacement_loop E S rep region (fuel + 1) p buf
      = do_replacement_loop E S rep region fuel (p + 2) (buf ++ [0x5c, c]) := by
  have hlen := drop_length hd
  simp only [List.length_cons] at hlen
  have hd2 := drop_next hd
  obtain ⟨h1, h2, h3, h4, h5, h6⟩ := hne
  have hcat : rb_str_buf_cat buf rep (((p + 1 : Nat) : Int) - ((1 : Nat) : Int))
      (((1 : Nat) : Int) + ((1 : Nat) : Int)) = .ok (buf ++ [0x5c, c]) := by
    have e : (((p + 1 : Nat) : Int) - ((1 : Nat) : Int)) = (p : Int) := by omega
    rw [e, rb_str_buf_cat_width _ _ _ _ (by omega) (by omega) (by omega)]
    unfold slice
    have e1 : ((p : Int)).toNat = p := by omega
    have e2 : ((p : Int) + (((1 : Nat) : Int) + ((1 : Nat) : Int)) - (p : Int)).toNat = 2 := by
      omega
    rw [e1, e2, hd]
    rfl
  rw [loop_at_backslash E S rep region fuel p buf c rest hasc hd,
    do_escape_nondigit E S rep region (p + 1) _ _ buf cp 1 (by omega) (by rw [hd2, hcode])
      (by rw [hd2, hwidth]) hnd]
  unfold escape_char
  simp only [h1, h2, h3, h4, h5, h6, if_false, hcat, Res.bind_ok, Res.pure_eq]

/-- C12: escape literalism. In an ASCII-compatible encoding, for every match and every
character `c` that is one byte wide, is not a digit and is none of backslash, `&`,
backtick, apostrophe, `+` and `<`: where a template holds a backslash followed by `c`,
one iteration of the loop copies exactly these two bytes and resumes after them, and
the template made of the backslash and `c` emits exactly the two bytes, without raising.
The template `\q` emits the literal `\q`. -/
theorem unknown_escape_is_literal (E : Engine) (S rep : Bytes) (region : OnigRegion)
    (fuel p : Nat) (buf : Bytes) (c cp : Nat)
    (hasc : E.encoding.ascii_compatible)
    (hnd : E.encoding.is_code_digit cp = false)
    (hne : cp ≠ 0x5c ∧ cp ≠ 0x26 ∧ cp ≠ 0x60 ∧ cp ≠ 0x27 ∧ cp ≠ 0x2b ∧ cp ≠ 0x3c) :
    (∀ rest : Bytes, rep.drop p = 0x5c :: c :: rest →
      E.encoding.mbc_enc_len (c :: rest) = 1 → E.encoding.mbc_to_code (c :: rest) = cp →
      do_replacement_loop E S rep region (fuel + 1) p buf
        = do_replacement_loop E S rep region fuel (p + 2) (buf ++ [0x5c, c])) ∧
    (E.encoding.mbc_enc_len [c] = 1 → E.encoding.mbc_to_code [c] = cp →
      og_oniguruma_oregexp_do_replacement E buf S [0x5c, c] region = .ok (buf ++ [0x5c, c])) ∧
    og_oniguruma_oregexp_do_replacement E buf S [0x5c, 0x71] region
      = .ok (buf ++ [0x5c, 0x71]) := by
  refine ⟨?_, ?_, ?_⟩
  · intro rest hd hwidth hcode
    exact loop_at_unknown_escape E S rep region fuel p buf c cp rest hasc hd hwidth hcode hnd hne
  · intro hwidth hcode
    unfold og_oniguruma_oregexp_do_replacement
    rw [show ([0x5c, c] : Bytes).length = 1 + 1 from rfl,
      loop_at_unknown_escape E S [0x5c, c] region 1 0 buf c cp [] hasc rfl hwidth hcode hnd hne,
      loop_done _ _ _ _ _ _ _ (by simp)]
  · have hq := hasc.1 0x71 [] (by decide)
    have hdq : E.encoding.is_code_digit 0x71 = false := by
      rw [hasc.2 0x71 (by decide)]; decide
    unfold og_oniguruma_oregexp_do_replacement
    rw [show ([0x5c, 0x71] : Bytes).length = 1 + 1 from rfl,
      loop_at_unknown_escape E S [0x5c, 0x71] region 1 0 buf 0x71 0x71 [] hasc rfl hq.2 hq.1 hdq
        (by decide),
      loop_done _ _ _ _ _ _ _ (by simp)]

/-- C12 at a concrete input: in the ASCII encoding the template `\q` emits `\q`. -/
theorem unknown_escape_is_literal_witness :
    og_oniguruma_oregexp_do_replacement (empty_pattern_engine ONIG_ENCODING_ASCII) []
        [0x61] [0x5c, 0x71] (region_of [(0, 1)]) = .ok [0x5c, 0x71] :=
  (unknown_escape_is_literal (empty_pattern_engine ONIG_ENCODING_ASCII) [0x61] []
    (region_of [(0, 1)]) 0 0 [] 0x71 0x71 ONIG_ENCODING_ASCII_ascii_compatible (by decide)
    (by decide)).2.1 (by decide) (by decide)

/-- C13, evaluated on the code: in the UTF-8 encoding the template `ab\` followed by the
three-byte euro sign (`E2 82 AC`) does not yield that same text. The width kept in
`previous_code_point_len` is the one of the euro sign, not of the backslash, so the
default branch copies six bytes starting three bytes before the euro sign: the output
is `abab\` followed by the euro sign. With `abc\` in front, two stray bytes `bc` are
emitted, and for the template made of the backslash and the euro sign alone the copy
starts before the template. -/
theorem unknown_multibyte_escape_copies_stray_bytes :
    replacement_chunk (empty_pattern_engine ONIG_ENCODING_UTF8) [0x61]
        [0x61, 0x62, 0x5c, 0xe2, 0x82, 0xac] (region_of [(0, 1)])
      = .ok [0x61, 0x62, 0x61, 0x62, 0x5c, 0xe2, 0x82, 0xac] ∧
    replacement_chunk (empty_pattern_engine ONIG_ENCODING_UTF8) [0x61]
        [0x61, 0x62, 0x63, 0x5c, 0xe2, 0x82, 0xac, 0x64] (region_of [(0, 1)])
      = .ok [0x61, 0x62, 0x63, 0x62, 0x63, 0x5c, 0xe2, 0x82, 0xac, 0x64] ∧
    replacement_chunk (empty_pattern_engine ONIG_ENCODING_UTF8) [0x61]
        [0x5c, 0xe2, 0x82, 0xac] (region_of [(0, 1)])
      = .raise .out_of_bounds := by
  decide

/-! ## C11: a name the pattern does not have -/

theorem escape_named_unresolved (E : Engine) (S rep : Bytes) (region : OnigRegion)
    (q : Nat) (buf : Bytes) (cs : List Bytes) (post : Bytes)
    (hasc : E.encoding.ascii_compatible) (hcs : cs ≠ [])
    (hw : word_characters E.encoding (0x3e :: post) cs)
    (hd : rep.drop q = 0x3c :: (cs.flatten ++ 0x3e :: post))
    (hname : E.name_to_backref_number cs.flatten region < 0) :
    escape_named E S rep region q 1 0x3c 1 buf
      = .ok (q + 1 + cs.flatten.length + 1, buf) := by
  have hd1 := drop_next hd
  have hlen := drop_length hd1
  simp only [List.length_append, List.length_cons] at hlen
  have hne := word_characters_nonempty _ _ cs hw
  have hle := length_le_flatten cs hne
  have hpos : 0 < cs.flatten.length := by
    have : 0 < cs.length := List.length_pos.mpr hcs
    omega
  have hscan := scan_name_word_characters E.encoding rep post (hasc.1 0x3e post (by decide))
    cs (q + 1) (rep.length + 1)
    { named_group_pos := q + 1, named_group_end := q + 1, code_point := 0x3c,
      code_point_len := 1 } hd1 hw rfl (by omega)
  have htake : (rep.drop (q + 1)).take (q + 1 + cs.flatten.length - (q + 1)) = cs.flatten := by
    rw [hd1, show q + 1 + cs.flatten.length - (q + 1) = cs.flatten.length by omega,
      List.take_left]
  have hcond : ¬ ((0x3e : Nat) ≠ 0x3e ∨ q + 1 + cs.flatten.length = q + 1) := by omega
  unfold escape_named
  simp only [hscan, Res.bind_ok, htake]
  rw [if_neg hcond, if_neg (by omega)]
  rfl

/-- C11, as stated, fails: for the pattern `(?<foo>b)`, whose only name is `foo`, the
name lookup of `nosuch` reports `ONIGERR_UNDEFINED_NAME_REFERENCE`, and the template
`\<nosuch>` is not output as the literal text `\<nosuch>`: the interpolation emits
nothing for it, so `sub` over `"abc"` gives `"ac"`. -/
theorem unknown_name_is_dropped :
    (named_literal_engine ONIG_ENCODING_ASCII [0x62] [0x66, 0x6f, 0x6f]).name_to_backref_number
        [0x6e, 0x6f, 0x73, 0x75, 0x63, 0x68] (region_of [(1, 2), (1, 2)])
      = ONIGERR_UNDEFINED_NAME_REFERENCE ∧
    replacement_chunk (named_literal_engine ONIG_ENCODING_ASCII [0x62] [0x66, 0x6f, 0x6f])
        [0x61, 0x62, 0x63] [0x5c, 0x3c, 0x6e, 0x6f, 0x73, 0x75, 0x63, 0x68, 0x3e]
        (region_of [(1, 2), (1, 2)])
      = .ok [] ∧
    (og_oniguruma_oregexp_sub (named_literal_engine ONIG_ENCODING_ASCII [0x62] [0x66, 0x6f, 0x6f])
        [0x5c, 0x3c, 0x6e, 0x6f, 0x73, 0x75, 0x63, 0x68, 0x3e] none
        { ptr := 0, bytes := [0x61, 0x62, 0x63] } World.init 1).result
      = .ok { value := .fresh [0x61, 0x63], str_bytes := [0x61, 0x62, 0x63],
              world := World.init, visited := [region_of [(1, 2), (1, 2)]] } := by
  decide

/-- C11, amended: in a replacement template read in an ASCII-compatible encoding, where
the template holds a well-terminated reference `\<name>`, the name being a non-empty
run of whole word characters, and the name lookup of the engine reports not-found (a
negative number), one iteration of the loop emits nothing and resumes scanning right
after the `>`. So such a template `\<name>` alone is output as the empty text. -/
theorem unknown_name_emits_nothing (E : Engine) (S rep : Bytes) (region : OnigRegion)
    (fuel p : Nat) (buf : Bytes) (cs : List Bytes) (post : Bytes)
    (hasc : E.encoding.ascii_compatible) (hcs : cs ≠ [])
    (hw : word_characters E.encoding (0x3e :: post) cs)
    (hname : E.name_to_backref_number cs.flatten region < 0) :
    (rep.drop p = 0x5c :: 0x3c :: (cs.flatten ++ 0x3e :: post) →
      do_replacement_loop E S rep region (fuel + 1) p buf
        = do_replacement_loop E S rep region fuel (p + 2 + cs.flatten.length + 1) buf) ∧
    (post = [] →
      og_oniguruma_oregexp_do_replacement E buf S (0x5c :: 0x3c :: (cs.flatten ++ [0x3e])) region
        = .ok buf) := by
  have step : ∀ (rep : Bytes) (fuel p : Nat),
      rep.drop p = 0x5c :: 0x3c :: (cs.flatten ++ 0x3e :: post) →
      do_replacement_loop E S rep region (fuel + 1) p buf
        = do_replacement_loop E S rep region fuel (p + 2 + cs.flatten.length + 1) buf := by
    intro rep fuel p hd
    rw [loop_at_escape_char E S rep _ fuel p buf 0x3c _ hasc hd (by decide) (by decide)]
    unfold escape_char
    simp only [show ¬ ((0x3c : Nat) = 0x5c) by decide, show ¬ ((0x3c : Nat) = 0x26) by decide,
      show ¬ ((0x3c : Nat) = 0x60) by decide, show ¬ ((0x3c : Nat) = 0x27) by decide,
      show ¬ ((0x3c : Nat) = 0x2b) by decide, if_false, if_true]
    rw [escape_named_unresolved E S rep region (p + 1) buf cs post hasc hcs hw (drop_next hd)
      hname]
    simp only [Res.bind_ok]
  refine ⟨step rep fuel p, ?_⟩
  intro hpost
  subst hpost
  unfold og_oniguruma_oregexp_do_replacement
  rw [show (0x5c :: 0x3c :: (cs.flatten ++ [0x3e])).length = (cs.flatten.length + 2) + 1 by simp,
    step _ _ 0 rfl, loop_done _ _ _ _ _ _ _ (by simp; omega)]

/-- C11, amended, at a concrete input: for the pattern `(?<foo>b)` the template
`\<nosuch>` emits nothing. -/
theorem unknown_name_emits_nothing_witness :
    og_oniguruma_oregexp_do_replacement
        (named_literal_engine ONIG_ENCODING_ASCII [0x62] [0x66, 0x6f, 0x6f]) []
        [0x61, 0x62, 0x63] [0x5c, 0x3c, 0x6e, 0x6f, 0x73, 0x75, 0x63, 0x68, 0x3e]
        (region_of [(1, 2), (1, 2)])
      = .ok [] :=
  (unknown_name_emits_nothing (named_literal_engine ONIG_ENCODING_ASCII [0x62] [0x66, 0x6f, 0x6f])
    [0x61, 0x62, 0x63] [] (region_of [(1, 2), (1, 2)]) 0 0 []
    [[0x6e], [0x6f], [0x73], [0x75], [0x63], [0x68]] []
    ONIG_ENCODING_ASCII_ascii_compatible (by decide) (by decide) (by decide)).2 rfl

/-! ## C14: the last group that took part -/

theorem cat_last_group_take (S : Bytes) (spans : List (Int × Int)) (buf : Bytes)
    (hin : spans_in S spans) :
    ∀ g : Nat, g < spans.length →
      cat_last_group buf S (region_of spans) g
        = .ok (buf ++ last_group_text S (spans.take (g + 1))) := by
  intro g
  induction g with
  | zero =>
    intro hg
    cases spans with
    | nil => simp at hg
    | cons a rest => simp [cat_last_group, last_group_text, last_group]
  | succ g ih =>
    intro hg
    have hget : spans[g + 1]? = some spans[g + 1] := List.getElem?_eq_getElem hg
    have hmem : spans[g + 1] ∈ spans := List.getElem_mem hg
    have hb : region_at (region_of spans).beg ((g + 1 : Nat) : Int) = .ok spans[g + 1].1 :=
      region_at_get (by simp only [region_of, List.getElem?_map, hget]; rfl)
    have he : region_at (region_of spans).end_ ((g + 1 : Nat) : Int) = .ok spans[g + 1].2 :=
      region_at_get (by simp only [region_of, List.getElem?_map, hget]; rfl)
    have htake : spans.take (g + 1 + 1) = spans.take (g + 1) ++ [spans[g + 1]] := by
      rw [List.take_succ, hget]; rfl
    have hdrop : (spans.take (g + 1 + 1)).drop 1
        = (spans.take (g + 1)).drop 1 ++ [spans[g + 1]] := by
      rw [htake, List.drop_append_of_le_length (by rw [List.length_take]; omega)]
    unfold cat_last_group
    simp only [hb, Res.bind_ok]
    by_cases hpart : spans[g + 1].1 = -1
    · rw [if_neg (by simp [hpart]), ih (by omega)]
      simp [last_group_text, last_group, hdrop, List.filter_append, hpart]
    · rw [if_pos hpart]
      unfold cat_group
      simp only [hb, he, Res.bind_ok]
      rcases hin _ hmem with ⟨hb1, _⟩ | ⟨h0, h1, h2⟩
      · exact absurd hb1 hpart
      · rw [rb_str_buf_cat_slice buf S _ _ h0 h1 h2]
        simp [last_group_text, last_group, hdrop, List.filter_append, hpart]

theorem cat_last_group_text (S : Bytes) (spans : List (Int × Int)) (buf : Bytes)
    (hin : spans_in S spans) :
    cat_last_group buf S (region_of spans) ((region_of spans).num_regs - 1).toNat
      = .ok (buf ++ last_group_text S spans) := by
  cases hsp : spans with
  | nil => simp [region_of, cat_last_group, last_group_text, last_group]
  | cons a rest =>
    rw [← hsp]
    have hlen : 0 < spans.length := by rw [hsp]; simp
    have hnum : ((region_of spans).num_regs - 1).toNat = spans.length - 1 := by
      simp only [region_of]; omega
    rw [hnum, cat_last_group_take S spans buf hin (spans.length - 1) (by omega),
      show spans.length - 1 + 1 = spans.length by omega, List.take_length]

theorem last_group_none (spans : List (Int × Int)) (h : ∀ be ∈ spans.drop 1, be.1 = -1) :
    last_group spans = none := by
  unfold last_group
  have : (spans.drop 1).filter (fun be => decide (be.1 ≠ -1)) = [] := by
    rw [List.filter_eq_nil_iff]
    intro be hbe
    simp [h be hbe]
  rw [this]
  rfl

theorem last_group_some (first : Int × Int) (mid after : List (Int × Int)) (be : Int × Int)
    (hbe : be.1 ≠ -1) (hafter : ∀ x ∈ after, x.1 = -1) :
    last_group (first :: (mid ++ be :: after)) = some be := by
  unfold last_group
  have hnil : after.filter (fun x => decide (x.1 ≠ -1)) = [] := by
    rw [List.filter_eq_nil_iff]
    intro x hx
    simp [hafter x hx]
  simp only [List.drop_succ_cons, List.drop_zero, List.filter_append, List.filter_cons, hbe,
    ne_eq, not_false_eq_true, decide_True, if_true, hnil]
  rw [show mid.filter (fun x => decide (¬ x.1 = -1)) ++ [be]
      = mid.filter (fun x => decide (¬ x.1 = -1)) ++ [be] from rfl, List.getLast?_concat]

/-- C14: in a replacement template read in an ASCII-compatible encoding, against a match
whose groups either did not take part or lie inside the subject, the escape `\+` emits
the text of the last group, among the groups of index 1 and above, that took part in
the match, and resumes right after the `+`. When the groups after group `be` all stayed
out and `be`, of index at least 1, took part, that text is `S[beg, end)` of `be`; when
no group of index 1 or above took part, nothing is emitted, whether or not group 0
matched. -/
theorem last_group_escape (E : Engine) (S rep : Bytes) (spans : List (Int × Int))
    (fuel p : Nat) (buf : Bytes)
    (hasc : E.encoding.ascii_compatible) (hin : spans_in S spans) :
    (∀ rest : Bytes, rep.drop p = 0x5c :: 0x2b :: rest →
      do_replacement_loop E S rep (region_of spans) (fuel + 1) p buf
        = do_replacement_loop E S rep (region_of spans) fuel (p + 2)
            (buf ++ last_group_text S spans)) ∧
    og_oniguruma_oregexp_do_replacement E buf S [0x5c, 0x2b] (region_of spans)
      = .ok (buf ++ last_group_text S spans) ∧
    (∀ (first be : Int × Int) (mid after : List (Int × Int)),
      spans = first :: (mid ++ be :: after) → be.1 ≠ -1 → (∀ x ∈ after, x.1 = -1) →
      last_group_text S spans = slice S be.1 be.2) ∧
    ((∀ be ∈ spans.drop 1, be.1 = -1) → last_group_text S spans = []) := by
  have step : ∀ (rep : Bytes) (fuel p : Nat) (rest : Bytes),
      rep.drop p = 0x5c :: 0x2b :: rest →
      do_replacement_loop E S rep (region_of spans) (fuel + 1) p buf
        = do_replacement_loop E S rep (region_of spans) fuel (p + 2)
            (buf ++ last_group_text S spans) := by
    intro rep fuel p rest hd
    rw [loop_at_escape_char E S rep _ fuel p buf 0x2b rest hasc hd (by decide) (by decide)]
    unfold escape_char
    simp only [show ¬ ((0x2b : Nat) = 0x5c) by decide, show ¬ ((0x2b : Nat) = 0x26) by decide,
      show ¬ ((0x2b : Nat) = 0x60) by decide, show ¬ ((0x2b : Nat) = 0x27) by decide,
      if_false, if_true, cat_last_group_text S spans buf hin, Res.bind_ok, Res.pure_eq]
  refine ⟨step rep fuel p, ?_, ?_, ?_⟩
  · unfold og_oniguruma_oregexp_do_replacement
    rw [show ([0x5c, 0x2b] : Bytes).length = 1 + 1 from rfl, step [0x5c, 0x2b] 1 0 [] rfl,
      loop_done _ _ _ _ _ _ _ (by decide)]
  · intro first be mid after hsp hbe hafter
    unfold last_group_text
    rw [hsp, last_group_some first mid after be hbe hafter]
  · intro h
    unfold last_group_text
    rw [last_group_none spans h]

/-- C14 at a concrete input: for the pattern `(a)(b)?` matched against `"a"`, where
only group 1 takes part, the template `\+` emits `"a"`. -/
theorem last_group_escape_witness :
    ONIG_ENCODING_ASCII.ascii_compatible ∧ spans_in [0x61] [(0, 1), (0, 1), (-1, -1)] ∧
    og_oniguruma_oregexp_do_replacement (empty_pattern_engine ONIG_ENCODING_ASCII) [] [0x61]
        [0x5c, 0x2b] (region_of [(0, 1), (0, 1), (-1, -1)])
      = .ok [0x61] :=
  ⟨ONIG_ENCODING_ASCII_ascii_compatible, by decide,
    (last_group_escape (empty_pattern_engine ONIG_ENCODING_ASCII) [0x61] []
      [(0, 1), (0, 1), (-1, -1)] 0 0 [] ONIG_ENCODING_ASCII_ascii_compatible (by decide)).2.1⟩

/-! ## C15: malformed escapes -/

theorem loop_over_plain (E : Engine) (S rep : Bytes) (region : OnigRegion)
    (hasc : E.encoding.ascii_compatible) :
    ∀ (xs : Bytes) (fuel p : Nat) (buf rest : Bytes),
      rep.drop p = xs ++ rest → plain_ascii xs →
      do_replacement_loop E S rep region (fuel + xs.length) p buf
        = do_replacement_loop E S rep region fuel (p + xs.length) (buf ++ xs) := by
  intro xs
  induction xs with
  | nil => intro fuel p buf rest _ _; simp
  | cons x xs ih =>
    intro fuel p buf rest hd hp
    have hx := hp x (by simp)
    have hd1 : rep.drop p = x :: (xs ++ rest) := by rw [hd]; rfl
    rw [show fuel + (x :: xs).length = (fuel + xs.length) + 1 by simp; omega,
      loop_at_plain E S rep region _ p buf x (xs ++ rest) hasc hd1 hx.1 hx.2,
      ih fuel (p + 1) (buf ++ [x]) rest (drop_next hd1) (fun b hb => hp b (by simp [hb]))]
    simp only [List.length_cons, List.append_assoc, List.singleton_append]
    rw [show p + 1 + xs.length = p + (xs.length + 1) by omega]

/-- At a backslash that is the last character of the template, the loop copies it and
stops. -/
theorem loop_at_last_backslash (E : Engine) (S rep : Bytes) (region : OnigRegion)
    (fuel p : Nat) (buf : Bytes) (hasc : E.encoding.ascii_compatible)
    (hd : rep.drop p = [0x5c]) :
    do_replacement_loop E S rep region (fuel + 1) p buf = .ok (buf ++ [0x5c]) := by
  have hlen := drop_length hd
  simp only [List.length_cons, List.length_nil] at hlen
  obtain ⟨hcode, hwidth⟩ := hasc.1 0x5c [] (by decide)
  have hcat : rb_str_buf_cat buf rep (((p + 1 : Nat) : Int) - ((1 : Nat) : Int)) ((1 : Nat) : Int)
      = .ok (buf ++ [0x5c]) := by
    have e : (((p + 1 : Nat) : Int) - ((1 : Nat) : Int)) = (p : Int) := by omega
    rw [e, rb_str_buf_cat_width _ _ _ _ (by omega) (by omega) (by omega)]
    unfold slice
    have e1 : ((p : Int)).toNat = p := by omega
    have e2 : ((p : Int) + ((1 : Nat) : Int) - (p : Int)).toNat = 1 := by omega
    rw [e1, e2, hd]
    rfl
  unfold do_replacement_loop
  simp only [get_code_point, hd, hcode, hwidth]
  rw [if_neg (by omega)]
  simp only [one_ne_zero, if_false, ne_eq, not_true_eq_false]
  rw [if_pos (by omega), hcat]

theorem scan_name_stops (enc : OnigEncoding) (rep rest : Bytes)
    (hasc : enc.ascii_compatible)
    (hrest : match rest with
      | [] => True
      | c :: _ => c < 0x80 ∧ c ≠ 0x3e ∧ enc.is_code_word c = false) :
    ∀ (name : Bytes) (q fuel : Nat) (s : NameScan),
      rep.drop q = name ++ rest → (∀ b ∈ name, b < 0x80) → word_bytes enc name →
      s.named_group_pos = q → s.code_point_len = 1 → s.code_point ≠ 0x3e →
      name.length < fuel →
      ∃ n, scan_name enc rep fuel s = .ok n ∧ n.code_point_len = 1 ∧ n.code_point ≠ 0x3e := by
  intro name
  induction name with
  | nil =>
    intro q fuel s hd _ _ hpos hcpl hcp hf
    obtain ⟨k, rfl⟩ : ∃ k, fuel = k + 1 := ⟨fuel - 1, by simp at hf; omega⟩
    subst hpos
    simp only [List.nil_append] at hd
    have hlen := drop_length hd
    cases rest with
    | nil =>
      simp only [List.length_nil] at hlen
      refine ⟨s, ?_, hcpl, hcp⟩
      unfold scan_name
      rw [if_pos (by omega)]
    | cons c rest1 =>
      simp only [List.length_cons] at hlen
      obtain ⟨hc, hne, hnw⟩ := hrest
      obtain ⟨hcode, hwidth⟩ := hasc.1 c rest1 hc
      have hnl : ¬ rep.length ≤ s.named_group_pos := by omega
      refine ⟨{ s with named_group_pos := s.named_group_pos + 1, code_point := c,
                       code_point_len := 1 }, ?_, rfl, hne⟩
      unfold scan_name
      simp [get_code_point, hd, hcode, hwidth, hnl, hne, hnw]
  | cons b name1 ih =>
    intro q fuel s hd hascii hword hpos hcpl hcp hf
    obtain ⟨k, rfl⟩ : ∃ k, fuel = k + 1 := ⟨fuel - 1, by simp at hf; omega⟩
    subst hpos
    have hd1 : rep.drop s.named_group_pos = b :: (name1 ++ rest) := by rw [hd]; rfl
    have hlen := drop_length hd1
    simp only [List.length_cons] at hlen
    have hb := hascii b (by simp)
    obtain ⟨hbw, hbne⟩ := hword b (by simp)
    obtain ⟨hcode, hwidth⟩ := hasc.1 b (name1 ++ rest) hb
    have hnl : ¬ rep.length ≤ s.named_group_pos := by omega
    obtain ⟨n, hn, hn1, hn2⟩ := ih (s.named_group_pos + 1) k
      { named_group_pos := s.named_group_pos + 1, named_group_end := s.named_group_end + 1,
        code_point := b, code_point_len := 1 }
      (drop_next hd1) (fun x hx => hascii x (by simp [hx])) (fun x hx => hword x (by simp [hx]))
      rfl rfl hbne (by simp at hf; omega)
    refine ⟨n, ?_, hn1, hn2⟩
    unfold scan_name
    simp only [get_code_point, hd1, hcode, hwidth, hnl, hbne, hbw, if_false, if_true]
    exact hn

theorem escape_named_malformed (E : Engine) (S rep : Bytes) (region : OnigRegion)
    (p : Nat) (buf name rest : Bytes)
    (hasc : E.encoding.ascii_compatible)
    (hd : rep.drop p = 0x5c :: 0x3c :: (name ++ rest))
    (hname : ∀ b ∈ name, b < 0x80) (hword : word_bytes E.encoding name)
    (hrest : ∀ b ∈ rest, b < 0x80) (hbreak : name_breaks E.encoding name rest) :
    escape_named E S rep region (p + 1) 1 0x3c 1 buf = .ok (p + 2, buf ++ [0x5c, 0x3c]) := by
  have hlen := drop_length hd
  simp only [List.length_cons, List.length_append] at hlen
  have hd1 := drop_next hd
  have hd2 := drop_next hd1
  have hcat : rb_str_buf_cat buf rep (((p + 1 : Nat) : Int) - ((1 : Nat) : Int))
      (((1 : Nat) : Int) + ((1 : Nat) : Int)) = .ok (buf ++ [0x5c, 0x3c]) := by
    have e : (((p + 1 : Nat) : Int) - ((1 : Nat) : Int)) = (p : Int) := by omega
    rw [e, rb_str_buf_cat_width _ _ _ _ (by omega) (by omega) (by omega)]
    unfold slice
    have e1 : ((p : Int)).toNat = p := by omega
    have e2 : ((p : Int) + (((1 : Nat) : Int) + ((1 : Nat) : Int)) - (p : Int)).toNat = 2 := by
      omega
    rw [e1, e2, hd]
    rfl
  have hscan : ∃ n, scan_name E.encoding rep (rep.length + 1)
      { named_group_pos := p + 1 + 1, named_group_end := p + 1 + 1, code_point := 0x3c,
        code_point_len := 1 } = .ok n ∧ n.code_point_len = 1 ∧
      (n.code_point ≠ 0x3e ∨ n.named_group_end = p + 1 + 1) := by
    cases hr : rest with
    | nil =>
      subst hr
      obtain ⟨n, hn, hn1, hn2⟩ := scan_name_stops E.encoding rep [] hasc trivial name (p + 1 + 1)
        (rep.length + 1)
        { named_group_pos := p + 1 + 1, named_group_end := p + 1 + 1, code_point := 0x3c, code_point_len := 1 }
        hd2 hname hword rfl rfl (by simp) (by omega)
      exact ⟨n, hn, hn1, Or.inl hn2⟩
    | cons c rest1 =>
      subst hr
      have hc := hrest c (by simp)
      rcases hbreak with ⟨hc1, hn0⟩ | ⟨hc1, hc2⟩
      · subst hc1 hn0
        simp only [List.nil_append] at hd2
        have hlen2 := drop_length hd2
        simp only [List.length_cons] at hlen2
        obtain ⟨hcode, hwidth⟩ := hasc.1 0x3e rest1 (by decide)
        refine ⟨{ named_group_pos := p + 1 + 1 + 1, named_group_end := p + 1 + 1,
                  code_point := 0x3e, code_point_len := 1 }, ?_, rfl, Or.inr rfl⟩
        unfold scan_name
        simp [get_code_point, hd2, hcode, hwidth]
        omega
      · obtain ⟨n, hn, hn1, hn2⟩ := scan_name_stops E.encoding rep (c :: rest1) hasc
          ⟨hc, hc1, hc2⟩ name (p + 1 + 1) (rep.length + 1)
          { named_group_pos := p + 1 + 1, named_group_end := p + 1 + 1, code_point := 0x3c, code_point_len := 1 }
          hd2 hname hword rfl rfl (by simp) (by omega)
        exact ⟨n, hn, hn1, Or.inl hn2⟩
  obtain ⟨n, hn, hn1, hn2⟩ := hscan
  unfold escape_named
  simp only [hn, Res.bind_ok, hn1]
  rw [if_pos hn2, hcat]
  rfl

/-- At `\<` followed by a name that is empty or is not closed by `>`, one iteration of
the loop copies the two bytes `\<` and resumes right after the `<`. -/
theorem loop_at_malformed_name (E : Engine) (S rep : Bytes) (region : OnigRegion)
    (fuel p : Nat) (buf name rest : Bytes)
    (hasc : E.encoding.ascii_compatible)
    (hd : rep.drop p = 0x5c :: 0x3c :: (name ++ rest))
    (hname : ∀ b ∈ name, b < 0x80) (hword : word_bytes E.encoding name)
    (hrest : ∀ b ∈ rest, b < 0x80) (hbreak : name_breaks E.encoding name rest) :
    do_replacement_loop E S rep region (fuel + 1) p buf
      = do_replacement_loop E S rep region fuel (p + 2) (buf ++ [0x5c, 0x3c]) := by
  rw [loop_at_escape_char E S rep _ fuel p buf 0x3c _ hasc hd (by decide) (by decide)]
  unfold escape_char
  simp only [show ¬ ((0x3c : Nat) = 0x5c) by decide, show ¬ ((0x3c : Nat) = 0x26) by decide,
    show ¬ ((0x3c : Nat) = 0x60) by decide, show ¬ ((0x3c : Nat) = 0x27) by decide,
    show ¬ ((0x3c : Nat) = 0x2b) by decide, if_false, if_true]
  rw [escape_named_malformed E S rep region p buf name rest hasc hd hname hword hrest hbreak]
  simp only [Res.bind_ok]

/-- Malformed escapes made of one-byte characters are output literally. In a
replacement template read in an ASCII-compatible encoding, a template of plain ASCII
characters that ends in a lone backslash is output whole, backslash included; and a
template of plain ASCII characters holding `\<` followed by a run of word characters
that is empty or is not closed by `>` (the template ends there, or a character that is
neither a word character nor `>` follows, or the run is empty) is reproduced byte for
byte. -/
theorem malformed_ascii_escapes_are_literal (E : Engine) (S : Bytes) (region : OnigRegion)
    (buf : Bytes) (hasc : E.encoding.ascii_compatible) :
    (∀ xs : Bytes, plain_ascii xs →
      og_oniguruma_oregexp_do_replacement E buf S (xs ++ [0x5c]) region
        = .ok (buf ++ (xs ++ [0x5c]))) ∧
    (∀ pre name rest : Bytes, plain_ascii pre → plain_ascii name →
      word_bytes E.encoding name → plain_ascii rest → name_breaks E.encoding name rest →
      og_oniguruma_oregexp_do_replacement E buf S (pre ++ 0x5c :: 0x3c :: (name ++ rest)) region
        = .ok (buf ++ (pre ++ 0x5c :: 0x3c :: (name ++ rest)))) := by
  constructor
  · intro xs hxs
    unfold og_oniguruma_oregexp_do_replacement
    have hl : List.length (xs ++ [0x5c]) = 1 + xs.length := by simp; omega
    rw [hl, loop_over_plain E S _ region hasc xs 1 0 buf [0x5c] rfl hxs,
      loop_at_last_backslash E S _ region 0 (0 + xs.length) (buf ++ xs) hasc (by simp)]
    simp
  · intro pre name rest hpre hname hword hrest hbreak
    have hnr : plain_ascii (name ++ rest) := by
      intro b hb
      rcases List.mem_append.mp hb with h | h
      · exact hname b h
      · exact hrest b h
    unfold og_oniguruma_oregexp_do_replacement
    have hl : List.length (pre ++ 0x5c :: 0x3c :: (name ++ rest))
        = ((1 + (name ++ rest).length) + 1) + pre.length := by simp; omega
    rw [hl, loop_over_plain E S _ region hasc pre _ 0 buf (0x5c :: 0x3c :: (name ++ rest)) rfl hpre,
      loop_at_malformed_name E S _ region _ (0 + pre.length) (buf ++ pre) name rest hasc
        (by simp) (fun b hb => (hname b hb).1) hword (fun b hb => (hrest b hb).1) hbreak,
      loop_over_plain E S _ region hasc (name ++ rest) 1 (0 + pre.length + 2)
        (buf ++ pre ++ [0x5c, 0x3c]) [] (by simp) hnr,
      loop_done _ _ _ _ _ _ _ (by simp; omega)]
    simp

/-- In ASCII the templates `a\`, `\<foo`, `\<>` and `\<a-b>` are output as they
stand. -/
theorem malformed_ascii_escapes_examples :
    og_oniguruma_oregexp_do_replacement (empty_pattern_engine ONIG_ENCODING_ASCII) [] [0x61, 0x62] [0x61, 0x5c]
        (region_of [(0, 0)])
      = .ok [0x61, 0x5c] ∧
    og_oniguruma_oregexp_do_replacement (empty_pattern_engine ONIG_ENCODING_ASCII) [] [0x61, 0x62]
        [0x5c, 0x3c, 0x66, 0x6f, 0x6f] (region_of [(0, 0)])
      = .ok [0x5c, 0x3c, 0x66, 0x6f, 0x6f] ∧
    og_oniguruma_oregexp_do_replacement (empty_pattern_engine ONIG_ENCODING_ASCII) [] [0x61, 0x62]
        [0x5c, 0x3c, 0x3e] (region_of [(0, 0)])
      = .ok [0x5c, 0x3c, 0x3e] ∧
    og_oniguruma_oregexp_do_replacement (empty_pattern_engine ONIG_ENCODING_ASCII) [] [0x61, 0x62]
        [0x5c, 0x3c, 0x61, 0x2d, 0x62, 0x3e] (region_of [(0, 0)])
      = .ok [0x5c, 0x3c, 0x61, 0x2d, 0x62, 0x3e] :=
  ⟨(malformed_ascii_escapes_are_literal (empty_pattern_engine ONIG_ENCODING_ASCII) [0x61, 0x62] (region_of [(0, 0)]) []
      ONIG_ENCODING_ASCII_ascii_compatible).1 [0x61] (by decide),
   (malformed_ascii_escapes_are_literal (empty_pattern_engine ONIG_ENCODING_ASCII) [0x61, 0x62] (region_of [(0, 0)]) []
      ONIG_ENCODING_ASCII_ascii_compatible).2 [] [0x66, 0x6f, 0x6f] [] (by decide) (by decide)
      (by decide) (by decide) (by decide),
   (malformed_ascii_escapes_are_literal (empty_pattern_engine ONIG_ENCODING_ASCII) [0x61, 0x62] (region_of [(0, 0)]) []
      ONIG_ENCODING_ASCII_ascii_compatible).2 [] [] [0x3e] (by decide) (by decide)
      (by decide) (by decide) (by decide),
   (malformed_ascii_escapes_are_literal (empty_pattern_engine ONIG_ENCODING_ASCII) [0x61, 0x62] (region_of [(0, 0)]) []
      ONIG_ENCODING_ASCII_ascii_compatible).2 [] [0x61] [0x2d, 0x62, 0x3e] (by decide) (by decide)
      (by decide) (by decide) (by decide)⟩

/-- C15, evaluated on the code: a malformed named reference whose name holds multi-byte
characters is not reproduced byte for byte. In the malformed branch the length of the
copy and the step forward are computed with `code_point_len`, which the name loop has
overwritten with the width of the last character it read, where the width of `<` is
meant. In Shift_JIS the template `\<` followed by the two-byte character `83 5C` twice,
six bytes, yields the seven bytes `5C 3C 83 83 5C 83 5C`: the copy takes one byte of the
name, and the scan resumes on the trail byte `5C` of the first character, read as a
backslash. The template `\<`, `83 5C`, `1`, `82 A0` comes out without its bytes `5C 31`,
read as a reference to group 1: nothing stands for them when the match has no group 1,
and the text of group 1 when it has one. In UTF-8 the template `\<` followed by a lead
byte `E3` whose character is cut short makes the copy run past the end of the
template. -/
theorem malformed_multibyte_name_is_not_literal :
    replacement_chunk (empty_pattern_engine ONIG_ENCODING_SJIS) [0x61]
        [0x5c, 0x3c, 0x83, 0x5c, 0x83, 0x5c] (region_of [(0, 1)])
      = .ok [0x5c, 0x3c, 0x83, 0x83, 0x5c, 0x83, 0x5c] ∧
    replacement_chunk (empty_pattern_engine ONIG_ENCODING_SJIS) [0x61]
        [0x5c, 0x3c, 0x83, 0x5c, 0x31, 0x82, 0xa0] (region_of [(0, 1)])
      = .ok [0x5c, 0x3c, 0x83, 0x82, 0xa0] ∧
    replacement_chunk (empty_pattern_engine ONIG_ENCODING_SJIS) [0x61]
        [0x5c, 0x3c, 0x83, 0x5c, 0x31, 0x82, 0xa0] (region_of [(0, 1), (0, 1)])
      = .ok [0x5c, 0x3c, 0x83, 0x61, 0x82, 0xa0] ∧
    replacement_chunk (empty_pattern_engine ONIG_ENCODING_UTF8) [0x61]
        [0x5c, 0x3c, 0xe3] (region_of [(0, 1)])
      = .raise .out_of_bounds := by
  decide

/-! ## C20: termination of the template interpreter and of the loops -/

theorem Res.bind_ne_timeout {α β : Type} (x : Res α) (f : α → Res β)
    (hx : x ≠ .timeout) (hf : ∀ a, x = .ok a → f a ≠ .timeout) :
    (x >>= f) ≠ .timeout := by
  cases x with
  | ok a => exact hf a rfl
  | raise e => intro h; cases h
  | timeout => exact absurd rfl hx

theorem rb_str_buf_cat_ne_timeout (buffer mem : Bytes) (off len : Int) :
    rb_str_buf_cat buffer mem off len ≠ .timeout := by
  unfold rb_str_buf_cat
  split_ifs <;> intro h <;> cases h

theorem region_at_ne_timeout (arr : List Int) (i : Int) : region_at arr i ≠ .timeout := by
  unfold region_at
  split_ifs
  · cases arr[i.toNat]? <;> intro h <;> cases h
  · intro h; cases h

theorem cat_group_ne_timeout (buffer subj : Bytes) (region : OnigRegion) (group : Int) :
    cat_group buffer subj region group ≠ .timeout := by
  unfold cat_group
  refine Res.bind_ne_timeout _ _ (region_at_ne_timeout _ _) fun b _ => ?_
  refine Res.bind_ne_timeout _ _ (region_at_ne_timeout _ _) fun e _ => ?_
  exact rb_str_buf_cat_ne_timeout _ _ _ _

theorem cat_last_group_ne_timeout (buffer subj : Bytes) (region : OnigRegion) :
    ∀ g : Nat, cat_last_group buffer subj region g ≠ .timeout := by
  intro g
  induction g with
  | zero => intro h; cases h
  | succ g ih =>
    unfold cat_last_group
    refine Res.bind_ne_timeout _ _ (region_at_ne_timeout _ _) fun b _ => ?_
    split_ifs
    · exact cat_group_ne_timeout _ _ _ _
    · exact ih

theorem scan_name_ne_timeout (enc : OnigEncoding) (rep : Bytes)
    (hw : well_formed_characters enc rep) :
    ∀ (fuel : Nat) (s : NameScan), rep.length ≤ s.named_group_pos + fuel →
      scan_name enc rep fuel s ≠ .timeout := by
  intro fuel
  induction fuel with
  | zero =>
    intro s h
    unfold scan_name
    rw [if_pos (by omega)]
    intro h; cases h
  | succ k ih =>
    intro s h
    unfold scan_name
    by_cases h1 : rep.length ≤ s.named_group_pos
    · rw [if_pos h1]; intro h; cases h
    · rw [if_neg h1]
      dsimp only
      by_cases h2 : (get_code_point enc rep s.named_group_pos).1 = 0x3e
      · rw [if_pos h2]; intro h; cases h
      · rw [if_neg h2]
        by_cases h3 : enc.is_code_word (get_code_point enc rep s.named_group_pos).1 = true
        · rw [if_pos h3]
          have := hw s.named_group_pos (by omega)
          exact ih _ (by simp only [get_code_point]; omega)
        · rw [if_neg h3]; intro h; cases h

theorem scan_name_pos_le (enc : OnigEncoding) (rep : Bytes) :
    ∀ (fuel : Nat) (s n : NameScan), scan_name enc rep fuel s = .ok n →
      s.named_group_pos ≤ n.named_group_pos := by
  intro fuel
  induction fuel with
  | zero =>
    intro s n h
    unfold scan_name at h
    split_ifs at h
    cases h
    exact le_refl _
  | succ k ih =>
    intro s n h
    unfold scan_name at h
    by_cases h1 : rep.length ≤ s.named_group_pos
    · rw [if_pos h1] at h; cases h; exact le_refl _
    · rw [if_neg h1] at h
      dsimp only at h
      by_cases h2 : (get_code_point enc rep s.named_group_pos).1 = 0x3e
      · rw [if_pos h2] at h; cases h; simp
      · rw [if_neg h2] at h
        by_cases h3 : enc.is_code_word (get_code_point enc rep s.named_group_pos).1 = true
        · rw [if_pos h3] at h
          have := ih _ _ h
          simp only at this
          omega
        · rw [if_neg h3] at h; cases h; simp

theorem escape_named_ne_timeout (E : Engine) (subj rep : Bytes) (region : OnigRegion)
    (position prev cp cpl : Nat) (buffer : Bytes)
    (hw : well_formed_characters E.encoding rep) :
    escape_named E subj rep region position prev cp cpl buffer ≠ .timeout := by
  unfold escape_named
  refine Res.bind_ne_timeout _ _ (scan_name_ne_timeout _ _ hw _ _ (by simp only; omega)) fun n _ => ?_
  split_ifs
  · refine Res.bind_ne_timeout _ _ (rb_str_buf_cat_ne_timeout _ _ _ _) fun b _ => ?_
    intro h; cases h
  · refine Res.bind_ne_timeout _ _ (cat_group_ne_timeout _ _ _ _) fun b _ => ?_
    intro h; cases h
  · intro h; cases h

theorem escape_named_pos_le (E : Engine) (subj rep : Bytes) (region : OnigRegion)
    (position prev cp cpl : Nat) (buffer : Bytes) (r : Nat × Bytes)
    (h : escape_named E subj rep region position prev cp cpl buffer = .ok r) :
    position ≤ r.1 := by
  unfold escape_named at h
  cases hn : scan_name E.encoding rep (rep.length + 1)
      { named_group_pos := position + cpl, named_group_end := position + cpl,
        code_point := cp, code_point_len := cpl } with
  | ok n =>
    have hp := scan_name_pos_le _ _ _ _ _ hn
    simp only at hp
    rw [hn] at h
    simp only [Res.bind_ok] at h
    split_ifs at h
    · cases hc : rb_str_buf_cat buffer rep ((position : Int) - prev)
          ((prev : Int) + n.code_point_len) with
      | ok b => rw [hc] at h; cases h; simp
      | raise e => rw [hc] at h; cases h
      | timeout => rw [hc] at h; cases h
    · cases hc : cat_group buffer subj region
          (E.name_to_backref_number
            ((rep.drop (position + cpl)).take (n.named_group_end - (position + cpl))) region) with
      | ok b => rw [hc] at h; cases h; simp only; omega
      | raise e => rw [hc] at h; cases h
      | timeout => rw [hc] at h; cases h
    · cases h; simp only; omega
  | raise e => rw [hn] at h; cases h
  | timeout => rw [hn] at h; cases h

theorem Res.bind_eq_ok {α β : Type} {x : Res α} {f : α → Res β} {b : β}
    (h : (x >>= f) = .ok b) : ∃ a, x = .ok a ∧ f a = .ok b := by
  cases x with
  | ok a => exact ⟨a, rfl, h⟩
  | raise e => cases h
  | timeout => cases h

theorem scan_digits_pos_le (enc : OnigEncoding) (rep : Bytes) :
    ∀ (k : Nat) (s : DigitScan), s.position ≤ (scan_digits enc rep k s).position := by
  intro k
  induction k with
  | zero => intro s; exact le_refl _
  | succ k ih =>
    intro s
    unfold scan_digits
    by_cases h1 : rep.length ≤ s.position
    · rw [if_pos h1]
    · rw [if_neg h1]
      dsimp only
      by_cases h2 : enc.is_code_digit (get_code_point enc rep s.position).1 = false
      · rw [if_pos h2]
      · rw [if_neg h2]
        by_cases h3 : 2 ≤ s.digits + 1
        · rw [if_pos h3]; simp
        · rw [if_neg h3]
          have := ih
            { position := s.position + (get_code_point enc rep s.position).2
              digits := s.digits + 1
              group := to_int (s.group * 10 + (((get_code_point enc rep s.position).1 : Int) - 48))
              code_point := (get_code_point enc rep s.position).1
              code_point_len := (get_code_point enc rep s.position).2 }
          simp only at this
          omega

theorem escape_char_ne_timeout (E : Engine) (subj rep : Bytes) (region : OnigRegion)
    (position prev cp cpl : Nat) (buffer : Bytes)
    (hw : well_formed_characters E.encoding rep) :
    escape_char E subj rep region position prev cp cpl buffer ≠ .timeout := by
  unfold escape_char
  split_ifs
  · refine Res.bind_ne_timeout _ _ (rb_str_buf_cat_ne_timeout _ _ _ _) fun b _ => ?_
    intro h; cases h
  · refine Res.bind_ne_timeout _ _ (region_at_ne_timeout _ _) fun b _ => ?_
    refine Res.bind_ne_timeout _ _ (region_at_ne_timeout _ _) fun e _ => ?_
    refine Res.bind_ne_timeout _ _ (rb_str_buf_cat_ne_timeout _ _ _ _) fun b _ => ?_
    intro h; cases h
  · refine Res.bind_ne_timeout _ _ (region_at_ne_timeout _ _) fun b _ => ?_
    refine Res.bind_ne_timeout _ _ (rb_str_buf_cat_ne_timeout _ _ _ _) fun b _ => ?_
    intro h; cases h
  · refine Res.bind_ne_timeout _ _ (region_at_ne_timeout _ _) fun b _ => ?_
    refine Res.bind_ne_timeout _ _ (rb_str_buf_cat_ne_timeout _ _ _ _) fun b _ => ?_
    intro h; cases h
  · refine Res.bind_ne_timeout _ _ (cat_last_group_ne_timeout _ _ _ _) fun b _ => ?_
    intro h; cases h
  · exact escape_named_ne_timeout _ _ _ _ _ _ _ _ _ hw
  · refine Res.bind_ne_timeout _ _ (rb_str_buf_cat_ne_timeout _ _ _ _) fun b _ => ?_
    intro h; cases h

theorem escape_char_pos_le (E : Engine) (subj rep : Bytes) (region : OnigRegion)
    (position prev cp cpl : Nat) (buffer : Bytes) (r : Nat × Bytes)
    (h : escape_char E subj rep region position prev cp cpl buffer = .ok r) :
    position ≤ r.1 := by
  unfold escape_char at h
  split_ifs at h
  · obtain ⟨b, _, h⟩ := Res.bind_eq_ok h
    cases h; simp
  · obtain ⟨b, _, h⟩ := Res.bind_eq_ok h
    obtain ⟨e, _, h⟩ := Res.bind_eq_ok h
    obtain ⟨c, _, h⟩ := Res.bind_eq_ok h
    cases h; simp
  · obtain ⟨b, _, h⟩ := Res.bind_eq_ok h
    obtain ⟨c, _, h⟩ := Res.bind_eq_ok h
    cases h; simp
  · obtain ⟨b, _, h⟩ := Res.bind_eq_ok h
    obtain ⟨c, _, h⟩ := Res.bind_eq_ok h
    cases h; simp
  · obtain ⟨b, _, h⟩ := Res.bind_eq_ok h
    cases h; simp
  · exact escape_named_pos_le _ _ _ _ _ _ _ _ _ _ h
  · obtain ⟨b, _, h⟩ := Res.bind_eq_ok h
    cases h; simp

theorem escape_group_ne_timeout (subj : Bytes) (region : OnigRegion) (position : Nat)
    (group : Int) (buffer : Bytes) :
    escape_group subj region position group buffer ≠ .timeout := by
  unfold escape_group
  split_ifs
  · refine Res.bind_ne_timeout _ _ (region_at_ne_timeout _ _) fun b _ => ?_
    split_ifs
    · refine Res.bind_ne_timeout _ _ (cat_group_ne_timeout _ _ _ _) fun b _ => ?_
      intro h; cases h
    · intro h; cases h
  · intro h; cases h

theorem escape_group_pos_le (subj : Bytes) (region : OnigRegion) (position : Nat)
    (group : Int) (buffer : Bytes) (r : Nat × Bytes)
    (h : escape_group subj region position group buffer = .ok r) :
    position ≤ r.1 := by
  unfold escape_group at h
  split_ifs at h
  · obtain ⟨b, _, h⟩ := Res.bind_eq_ok h
    split_ifs at h
    · obtain ⟨c, _, h⟩ := Res.bind_eq_ok h
      cases h; simp
    · cases h; simp
  · cases h; simp

theorem do_escape_ne_timeout (E : Engine) (subj rep : Bytes) (region : OnigRegion)
    (position cp cpl : Nat) (buffer : Bytes)
    (hw : well_formed_characters E.encoding rep) :
    do_escape E subj rep region position cp cpl buffer ≠ .timeout := by
  unfold do_escape
  dsimp only
  split_ifs
  · exact escape_char_ne_timeout _ _ _ _ _ _ _ _ _ hw
  · exact escape_group_ne_timeout _ _ _ _ _

theorem do_escape_pos_le (E : Engine) (subj rep : Bytes) (region : OnigRegion)
    (position cp cpl : Nat) (buffer : Bytes) (r : Nat × Bytes)
    (h : do_escape E subj rep region position cp cpl buffer = .ok r) :
    position ≤ r.1 := by
  unfold do_escape at h
  dsimp only at h
  have hp := scan_digits_pos_le E.encoding rep 2
    { position := position, digits := 0, group := 0, code_point := cp, code_point_len := cpl }
  simp only at hp
  split_ifs at h
  · exact le_trans hp (escape_char_pos_le _ _ _ _ _ _ _ _ _ _ h)
  · exact le_trans hp (escape_group_pos_le _ _ _ _ _ _ h)

/-- The interpolation of a template of well-formed characters returns or raises: the
iterations its length allows are enough. -/
theorem do_replacement_loop_ne_timeout (E : Engine) (subj rep : Bytes) (region : OnigRegion)
    (hw : well_formed_characters E.encoding rep) :
    ∀ (fuel p : Nat) (buf : Bytes), rep.length ≤ p + fuel →
      do_replacement_loop E subj rep region fuel p buf ≠ .timeout := by
  intro fuel
  induction fuel with
  | zero =>
    intro p buf h
    unfold do_replacement_loop
    rw [if_pos (by omega)]
    intro h; cases h
  | succ k ih =>
    intro p buf h
    unfold do_replacement_loop
    by_cases h1 : rep.length ≤ p
    · rw [if_pos h1]; intro h; cases h
    · rw [if_neg h1]
      dsimp only
      have hpos : 1 ≤ (if (get_code_point E.encoding rep p).2 = 0 then 1
          else (get_code_point E.encoding rep p).2) := by
        split_ifs <;> omega
      generalize (if (get_code_point E.encoding rep p).2 = 0 then 1
          else (get_code_point E.encoding rep p).2) = w at hpos ⊢
      by_cases h2 : (get_code_point E.encoding rep p).1 ≠ 0x5c
      · rw [if_pos h2]
        refine Res.bind_ne_timeout _ _ (rb_str_buf_cat_ne_timeout _ _ _ _) fun b _ => ?_
        exact ih _ _ (by omega)
      · rw [if_neg h2]
        by_cases h3 : rep.length ≤ p + w
        · rw [if_pos h3]
          exact rb_str_buf_cat_ne_timeout _ _ _ _
        · rw [if_neg h3]
          refine Res.bind_ne_timeout _ _ (do_escape_ne_timeout _ _ _ _ _ _ _ _ hw) fun r hr => ?_
          have := do_escape_pos_le _ _ _ _ _ _ _ _ _ hr
          exact ih _ _ (by omega)

theorem do_replacement_ne_timeout (E : Engine) (buf subj rep : Bytes) (region : OnigRegion)
    (hw : well_formed_characters E.encoding rep) :
    og_oniguruma_oregexp_do_replacement E buf subj rep region ≠ .timeout :=
  do_replacement_loop_ne_timeout E subj rep region hw _ _ _ (by omega)

theorem substitution_chunk_ne_timeout (E : Engine) (t : Bytes) (g u : Bool) (ptr : Nat)
    (subj_len : Int) (region : OnigRegion) (buf S : Bytes) (w : World)
    (ht : well_formed_characters E.encoding t) :
    substitution_chunk E { replacement := t, block := none, global := g, update_self := u }
        ptr subj_len region buf S w ≠ .timeout := by
  unfold substitution_chunk
  dsimp only
  have := do_replacement_ne_timeout E buf S t region ht
  cases h : og_oniguruma_oregexp_do_replacement E buf S t region with
  | ok b => intro h; cases h
  | raise e => intro h; cases h
  | timeout => exact absurd h this

/-- Under the engine contract, each offset the loops search again from lies strictly
after the offset of the search before. -/
theorem next_start_gt (E : Engine) (S : Bytes) (hS : well_formed_characters E.encoding S)
    (hb : E.matches_in_bounds S) (s s' : Int) (h0 : 0 ≤ s)
    (hs : 0 ≤ (E.search S s S.length).1) (hn : E.next_start S s = some s') : s < s' := by
  obtain ⟨b, e, hbeg, hend, h1, h2, h3⟩ := hb s h0 hs
  unfold Engine.next_start at hn
  rw [hbeg, hend] at hn
  dsimp only at hn
  split_ifs at hn with hbe hlen
  · cases hn
    have := hS e.toNat (by omega)
    omega
  · cases hn
    omega

/-- The global substitution loop over a template of well-formed characters, entered
after a successful search from `start`, returns or raises when the fuel exceeds the
number of bytes left from `start`. -/
theorem substitution_loop_ne_timeout (E : Engine) (S t : Bytes) (u : Bool) (ptr : Nat)
    (hS : well_formed_characters E.encoding S) (ht : well_formed_characters E.encoding t)
    (hb : E.matches_in_bounds S) :
    ∀ (fuel : Nat) (start : Int) (st : SubstLoop),
      st.subj = S → 0 ≤ start → 0 ≤ (E.search S start S.length).1 →
      (S.length : Int) - start < fuel →
      substitution_loop E { replacement := t, block := none, global := true, update_self := u }
          ptr S.length fuel (E.search S start S.length).2 st ≠ .timeout := by
  intro fuel
  induction fuel with
  | zero =>
    intro start st _ h0 hs hf
    obtain ⟨b, e, _, _, h1, h2, h3⟩ := hb start h0 hs
    simp only [Nat.cast_zero] at hf
    omega
  | succ k ih =>
    intro start st hsubj h0 hs hf
    obtain ⟨b, e, hbeg, hend, h1, h2, h3⟩ := hb start h0 hs
    unfold substitution_loop
    rw [hbeg, hend]
    simp only [Res.bind_ok]
    refine Res.bind_ne_timeout _ _ (rb_str_buf_cat_ne_timeout _ _ _ _) fun buffer _ => ?_
    refine Res.bind_ne_timeout _ _ (substitution_chunk_ne_timeout _ _ _ _ _ _ _ _ _ _ ht)
      fun c hc => ?_
    have hc1 := (substitution_chunk_template_inv _ _ _ _ _ _ _ _ _ _ _ hc).1
    rw [hsubj] at hc1
    simp only [Bool.true_eq_false, if_false, hc1]
    by_cases hbe : b = e
    · rw [if_pos hbe]
      by_cases hlen : (S.length : Int) ≤ e
      · rw [if_pos hlen]; intro h; cases h
      · rw [if_neg hlen, if_neg (by omega)]
        refine Res.bind_ne_timeout _ _ (rb_str_buf_cat_ne_timeout _ _ _ _) fun buffer1 _ => ?_
        have hwid := hS e.toNat (by omega)
        by_cases hs1 : 0 ≤ (E.search S (e + E.encoding.mbc_enc_len (S.drop e.toNat)) S.length).1
        · rw [if_pos hs1]
          exact ih _ _ rfl (by omega) hs1 (by push_cast at hf ⊢; omega)
        · rw [if_neg hs1]; intro h; cases h
    · rw [if_neg hbe]
      by_cases hs1 : 0 ≤ (E.search S e S.length).1
      · rw [if_pos hs1]
        exact ih _ _ rfl (by omega) hs1 (by push_cast at hf ⊢; omega)
      · rw [if_neg hs1]; intro h; cases h

/-- The regions a global substitution over a template visits are those of the
successful searches it makes, in order: the one it was entered with, then the search
made again after each match, until the loop stops. -/
theorem substitution_loop_trace (E : Engine) (S t : Bytes) (u : Bool) (ptr : Nat) :
    ∀ (fuel : Nat) (start : Int) (st st1 : SubstLoop),
      st.subj = S →
      substitution_loop E { replacement := t, block := none, global := true, update_self := u }
          ptr S.length fuel (E.search S start S.length).2 st = .ok st1 →
      ∃ starts : List Int,
        st1.visited = st.visited ++ (start :: starts).map (fun s => (E.search S s S.length).2) ∧
        List.Chain (E.searches_again S) start starts ∧
        ∀ s ∈ (start :: starts).getLast?, E.stops_after S s := by
  intro fuel
  induction fuel with
  | zero =>
    intro start st st1 _ h
    unfold substitution_loop at h
    cases h
  | succ k ih =>
    intro start st st1 hsubj h
    unfold substitution_loop at h
    obtain ⟨b, hbeg, h⟩ := Res.bind_eq_ok h
    obtain ⟨e, hend, h⟩ := Res.bind_eq_ok h
    obtain ⟨buffer, _, h⟩ := Res.bind_eq_ok h
    obtain ⟨c, hc, h⟩ := Res.bind_eq_ok h
    have hc1 := (substitution_chunk_template_inv _ _ _ _ _ _ _ _ _ _ _ hc).1
    rw [hsubj] at hc1
    simp only [Bool.true_eq_false, if_false, hc1] at h
    have hnext : E.next_start S start
        = if b = e then
            if (S.length : Int) ≤ e then none
            else some (e + E.encoding.mbc_enc_len (S.drop e.toNat))
          else some e := by
      unfold Engine.next_start
      rw [hbeg, hend]
    by_cases hbe : b = e
    · rw [if_pos hbe] at h hnext
      by_cases hlen : (S.length : Int) ≤ e
      · rw [if_pos hlen] at h hnext
        cases h
        refine ⟨[], by simp, List.Chain.nil, ?_⟩
        intro s hs s' hs'
        simp only [List.getLast?_singleton, Option.mem_def, Option.some.injEq] at hs
        subst hs
        rw [hnext] at hs'
        cases hs'
      · rw [if_neg hlen] at h hnext
        split_ifs at h with hneg hs1
        · obtain ⟨buffer1, _, h⟩ := Res.bind_eq_ok h
          obtain ⟨starts, hv, hch, hlast⟩ := ih _ _ _ rfl h
          refine ⟨(e + E.encoding.mbc_enc_len (S.drop e.toNat)) :: starts, ?_,
            List.Chain.cons ⟨hnext, hs1⟩ hch, ?_⟩
          · rw [hv]; simp
          · simpa using hlast
        · obtain ⟨buffer1, _, h⟩ := Res.bind_eq_ok h
          cases h
          refine ⟨[], by simp, List.Chain.nil, ?_⟩
          intro s hs s' hs'
          simp only [List.getLast?_singleton, Option.mem_def, Option.some.injEq] at hs
          subst hs
          rw [hnext] at hs'
          cases hs'
          omega
    · rw [if_neg hbe] at h hnext
      by_cases hs1 : 0 ≤ (E.search S e S.length).1
      · rw [if_pos hs1] at h
        obtain ⟨starts, hv, hch, hlast⟩ := ih _ _ _ rfl h
        refine ⟨e :: starts, ?_, List.Chain.cons ⟨hnext, hs1⟩ hch, ?_⟩
        · rw [hv]; simp
        · simpa using hlast
      · rw [if_neg hs1] at h
        cases h
        refine ⟨[], by simp, List.Chain.nil, ?_⟩
        intro s hs s' hs'
        simp only [List.getLast?_singleton, Option.mem_def, Option.some.injEq] at hs
        subst hs
        rw [hnext] at hs'
        cases hs'
        omega

/-- The matches a scan without a block collects are those of the successful searches
it makes, in order: the one it was entered with, then the search made again after each
match, until the loop stops. -/
theorem scan_loop_trace (E : Engine) (S : Bytes) (hr : E.returns_begin S) :
    ∀ (fuel : Nat) (start : Int) (st st1 : ScanLoop),
      st.str.bytes = S → 0 ≤ (E.search S start S.length).1 →
      scan_loop E none fuel (E.search S start S.length).1 (E.search S start S.length).2 st
        = .ok st1 →
      ∃ starts : List Int,
        st1.matches_ = st.matches_ ++ (start :: starts).map (fun s =>
          (og_oniguruma_oregexp_do_match E (E.search S s S.length).2 S World.init).1) ∧
        List.Chain (E.searches_again S) start starts ∧
        (∀ s ∈ (start :: starts).getLast?, E.stops_after S s) ∧
        st1.str = st.str := by
  intro fuel
  induction fuel with
  | zero =>
    intro start st st1 _ _ h
    unfold scan_loop at h
    cases h
  | succ k ih =>
    intro start st st1 hsubj hs h
    have hbeg := hr start hs
    unfold scan_loop at h
    dsimp only at h
    obtain ⟨e, hend, h⟩ := Res.bind_eq_ok h
    simp only [Res.bind_ok, hsubj] at h
    have hnext : E.next_start S start
        = if e = (E.search S start S.length).1 then
            if (S.length : Int) ≤ e then none
            else some (e + E.encoding.mbc_enc_len (S.drop e.toNat))
          else some e := by
      unfold Engine.next_start
      rw [hbeg, hend]
      dsimp only
      by_cases hbe : (E.search S start S.length).1 = e
      · rw [if_pos hbe, if_pos hbe.symm]
      · rw [if_neg hbe, if_neg (fun h => hbe h.symm)]
    have hm : ∀ w : World,
        (og_oniguruma_oregexp_do_match E (E.search S start S.length).2 S w).1
          = (og_oniguruma_oregexp_do_match E (E.search S start S.length).2 S World.init).1 :=
      fun _ => rfl
    have stop : ∀ s' : Int, E.next_start S start = some s' → (E.search S s' S.length).1 < 0 →
        ∀ w : World, ∃ starts : List Int,
          st.matches_ ++ [(og_oniguruma_oregexp_do_match E (E.search S start S.length).2 S w).1]
            = st.matches_ ++ (start :: starts).map (fun s =>
              (og_oniguruma_oregexp_do_match E (E.search S s S.length).2 S World.init).1) ∧
          List.Chain (E.searches_again S) start starts ∧
          (∀ s ∈ (start :: starts).getLast?, E.stops_after S s) := by
      intro s' hs' hneg w
      refine ⟨[], by simp [hm w], List.Chain.nil, ?_⟩
      intro s hs t ht
      simp only [List.getLast?_singleton, Option.mem_def, Option.some.injEq] at hs
      subst hs
      rw [hs'] at ht
      cases ht
      exact hneg
    by_cases hbe : e = (E.search S start S.length).1
    · rw [if_pos hbe] at h hnext
      by_cases hlen : (S.length : Int) ≤ e
      · rw [if_pos hlen] at h hnext
        cases h
        refine ⟨[], by simp [hm st.world], List.Chain.nil, ?_, rfl⟩
        intro s hs t ht
        simp only [List.getLast?_singleton, Option.mem_def, Option.some.injEq] at hs
        subst hs
        rw [hnext] at ht
        cases ht
      · rw [if_neg hlen] at h hnext
        rw [if_neg (by omega)] at h
        by_cases hs1 : 0 ≤ (E.search S (e + E.encoding.mbc_enc_len (S.drop e.toNat)) S.length).1
        · rw [if_pos hs1] at h
          obtain ⟨starts, hv, hch, hlast, hstr⟩ := ih _ _ _ (by exact hsubj) hs1 h
          refine ⟨(e + E.encoding.mbc_enc_len (S.drop e.toNat)) :: starts, ?_,
            List.Chain.cons ⟨hnext, hs1⟩ hch, ?_, hstr⟩
          · rw [hv]; simp [hm st.world]
          · simpa using hlast
        · rw [if_neg hs1] at h
          cases h
          obtain ⟨starts, h1, h2, h3⟩ := stop _ hnext (by omega) st.world
          exact ⟨starts, h1, h2, h3, rfl⟩
    · rw [if_neg hbe] at h hnext
      by_cases hs1 : 0 ≤ (E.search S e S.length).1
      · rw [if_pos hs1] at h
        obtain ⟨starts, hv, hch, hlast, hstr⟩ := ih _ _ _ (by exact hsubj) hs1 h
        refine ⟨e :: starts, ?_, List.Chain.cons ⟨hnext, hs1⟩ hch, ?_, hstr⟩
        · rw [hv]; simp [hm st.world]
        · simpa using hlast
      · rw [if_neg hs1] at h
        cases h
        obtain ⟨starts, h1, h2, h3⟩ := stop _ hnext (by omega) st.world
        exact ⟨starts, h1, h2, h3, rfl⟩

/-- Under the engine contract a scan without a block, entered after a successful
search from `start`, returns when the fuel exceeds the number of bytes left from
`start`. -/
theorem scan_loop_returns (E : Engine) (S : Bytes) (hS : well_formed_characters E.encoding S)
    (hb : E.matches_in_bounds S) (hr : E.returns_begin S) :
    ∀ (fuel : Nat) (start : Int) (st : ScanLoop),
      st.str.bytes = S → 0 ≤ start → 0 ≤ (E.search S start S.length).1 →
      (S.length : Int) - start < fuel →
      ∃ st1, scan_loop E none fuel (E.search S start S.length).1 (E.search S start S.length).2 st
        = .ok st1 := by
  intro fuel
  induction fuel with
  | zero =>
    intro start st _ h0 hs hf
    obtain ⟨b, e, _, _, h1, h2, h3⟩ := hb start h0 hs
    simp only [Nat.cast_zero] at hf
    omega
  | succ k ih =>
    intro start st hsubj h0 hs hf
    obtain ⟨b, e, hbeg, hend, h1, h2, h3⟩ := hb start h0 hs
    have hbs : b = (E.search S start S.length).1 := by
      have := hr start hs
      rw [hbeg] at this
      cases this
      rfl
    unfold scan_loop
    dsimp only
    rw [hend]
    simp only [Res.bind_ok, hsubj]
    by_cases hbe : e = (E.search S start S.length).1
    · rw [if_pos hbe]
      by_cases hlen : (S.length : Int) ≤ e
      · rw [if_pos hlen]; exact ⟨_, rfl⟩
      · rw [if_neg hlen, if_neg (by omega)]
        have hwid := hS e.toNat (by omega)
        by_cases hs1 : 0 ≤ (E.search S (e + E.encoding.mbc_enc_len (S.drop e.toNat)) S.length).1
        · rw [if_pos hs1]
          exact ih _ _ (by exact hsubj) (by omega) hs1 (by push_cast at hf ⊢; omega)
        · rw [if_neg hs1]; exact ⟨_, rfl⟩
    · rw [if_neg hbe]
      by_cases hs1 : 0 ≤ (E.search S e S.length).1
      · rw [if_pos hs1]
        exact ih _ _ (by exact hsubj) (by omega) hs1 (by push_cast at hf ⊢; omega)
      · rw [if_neg hs1]; exact ⟨_, rfl⟩

/-- Under the engine contract the offsets of successive successful searches increase
strictly and stay inside the subject. -/
theorem searches_again_chain (E : Engine) (S : Bytes)
    (hS : well_formed_characters E.encoding S) (hb : E.matches_in_bounds S) :
    ∀ (starts : List Int) (start : Int), 0 ≤ start → 0 ≤ (E.search S start S.length).1 →
      List.Chain (E.searches_again S) start starts →
      List.Chain (fun a b : Int => a < b) start starts ∧
      ∀ s ∈ start :: starts, 0 ≤ s ∧ s ≤ S.length ∧ 0 ≤ (E.search S s S.length).1 := by
  intro starts
  induction starts with
  | nil =>
    intro start h0 hs _
    obtain ⟨b, e, _, _, h1, h2, h3⟩ := hb start h0 hs
    refine ⟨List.Chain.nil, ?_⟩
    intro s hmem
    simp only [List.mem_singleton] at hmem
    subst hmem
    exact ⟨h0, by omega, hs⟩
  | cons x xs ih =>
    intro start h0 hs hch
    obtain ⟨b, e, _, _, h1, h2, h3⟩ := hb start h0 hs
    cases hch with
    | cons hx hrest =>
      have hlt := next_start_gt E S hS hb start x h0 hs hx.1
      obtain ⟨hc, hall⟩ := ih x (by omega) hx.2 hrest
      refine ⟨List.Chain.cons hlt hc, ?_⟩
      intro s hmem
      rcases List.mem_cons.mp hmem with h | h
      · subst h; exact ⟨h0, by omega, hs⟩
      · exact hall s h

theorem chain_lt_length :
    ∀ (l : List Int) (a b : Int), a ≤ b → List.Chain (fun x y : Int => x < y) a l →
      (∀ x ∈ l, x ≤ b) → (l.length : Int) ≤ b - a := by
  intro l
  induction l with
  | nil => intro a b hab _ _; simp only [List.length_nil, Nat.cast_zero]; omega
  | cons x xs ih =>
    intro a b hab hch hall
    cases hch with
    | cons hax hrest =>
      have hxb := hall x (by simp)
      have := ih x b hxb hrest (fun y hy => hall y (by simp [hy]))
      simp only [List.length_cons, Nat.cast_add, Nat.cast_one]
      omega

/-- Under the engine contract the offsets of the successful searches increase strictly,
lie inside the subject, and are at most `len(S) + 1`. -/
theorem successful_searches_bounded (E : Engine) (S : Bytes)
    (hS : well_formed_characters E.encoding S) (hb : E.matches_in_bounds S)
    (starts : List Int) (h : E.successful_searches S starts) :
    starts.Pairwise (fun a b : Int => a < b) ∧
    (∀ s ∈ starts, 0 ≤ s ∧ s ≤ S.length ∧ 0 ≤ (E.search S s S.length).1) ∧
    starts.length ≤ S.length + 1 := by
  obtain ⟨hhead, hs0, hch, _⟩ := h
  cases starts with
  | nil => cases hhead
  | cons x xs =>
    simp only [List.head?_cons, Option.some.injEq] at hhead
    subst hhead
    obtain ⟨hlt, hall⟩ := searches_again_chain E S hS hb xs 0 (le_refl _) hs0 hch
    refine ⟨List.chain_iff_pairwise.mp hlt, hall, ?_⟩
    have := chain_lt_length xs 0 S.length (by omega) hlt
      (fun y hy => (hall y (by simp [hy])).2.1)
    simp only [List.length_cons]
    omega

/-- The regions `gsub` with a template visits are those of the successful searches it
makes, in order. -/
theorem gsub_trace (E : Engine) (S t : Bytes) (ptr : Nat) (w : World) (fuel : Nat)
    (out : SubstOut)
    (h : (og_oniguruma_oregexp_gsub E t none { ptr := ptr, bytes := S } w fuel).result = .ok out) :
    ((E.search S 0 S.length).1 < 0 ∧ out.visited = []) ∨
    ∃ starts, E.successful_searches S starts ∧
      out.visited = starts.map (fun s => (E.search S s S.length).2) := by
  unfold og_oniguruma_oregexp_gsub og_oniguruma_oregexp_do_substitution_safe
    og_oniguruma_oregexp_do_substitution at h
  dsimp only at h
  by_cases h0 : (E.search S 0 S.length).1 < 0
  · rw [if_pos h0] at h
    simp only [Bool.false_eq_true, if_false] at h
    cases h
    exact Or.inl ⟨h0, rfl⟩
  · rw [if_neg h0] at h
    obtain ⟨st, hst, h⟩ := Res.bind_eq_ok h
    obtain ⟨buffer, _, h⟩ := Res.bind_eq_ok h
    simp only [Bool.false_eq_true, if_false] at h
    cases h
    obtain ⟨starts, hv, hch, hlast⟩ := substitution_loop_trace E S t false ptr fuel 0 _ st rfl hst
    refine Or.inr ⟨0 :: starts, ⟨rfl, by omega, hch, hlast⟩, ?_⟩
    simpa using hv

/-- The matches `scan` without a block returns are those of the successful searches it
makes, in order. -/
theorem scan_trace (E : Engine) (S : Bytes) (ptr : Nat) (w : World) (fuel : Nat)
    (hr : E.returns_begin S) (out : ScanOut)
    (h : (og_oniguruma_oregexp_scan E none { ptr := ptr, bytes := S } w fuel).result = .ok out) :
    ((E.search S 0 S.length).1 < 0 ∧ out.value = none) ∨
    ∃ starts, E.successful_searches S starts ∧
      out.value = some (starts.map (fun s =>
        (og_oniguruma_oregexp_do_match E (E.search S s S.length).2 S World.init).1)) := by
  unfold og_oniguruma_oregexp_scan og_oniguruma_oregexp_do_scan at h
  dsimp only at h
  by_cases h0 : (E.search S 0 S.length).1 < 0
  · rw [if_pos h0] at h
    cases h
    exact Or.inl ⟨h0, rfl⟩
  · rw [if_neg h0] at h
    obtain ⟨st, hst, h⟩ := Res.bind_eq_ok h
    cases h
    obtain ⟨starts, hv, hch, hlast, _⟩ := scan_loop_trace E S hr fuel 0 _ st rfl (by omega) hst
    refine Or.inr ⟨0 :: starts, ⟨rfl, by omega, hch, hlast⟩, ?_⟩
    simpa using hv

theorem empty_pattern_engine_matches_in_bounds (enc : OnigEncoding) (S : Bytes) :
    (empty_pattern_engine enc).matches_in_bounds S := by
  intro start h0 hs
  by_cases h1 : start ≤ S.length
  · refine ⟨start, start, ?_, ?_, le_refl _, le_refl _, h1⟩ <;>
      simp [empty_pattern_engine, h0, h1, region_of, region_at]
  · simp [empty_pattern_engine, h0, h1, ONIG_MISMATCH] at hs

theorem empty_pattern_engine_returns_begin (enc : OnigEncoding) (S : Bytes) :
    (empty_pattern_engine enc).returns_begin S := by
  intro start hs
  by_cases h : 0 ≤ start ∧ start ≤ S.length
  · simp [empty_pattern_engine, h, region_of, region_at]
  · simp [empty_pattern_engine, h, ONIG_MISMATCH] at hs

/-- Under the engine contract `gsub` with a template of well-formed characters returns
or raises once the fuel exceeds the length of the subject. -/
theorem gsub_terminates (E : Engine) (S t : Bytes) (ptr : Nat) (w : World) (fuel : Nat)
    (hS : well_formed_characters E.encoding S) (ht : well_formed_characters E.encoding t)
    (hb : E.matches_in_bounds S) (hf : S.length < fuel) :
    (og_oniguruma_oregexp_gsub E t none { ptr := ptr, bytes := S } w fuel).result ≠ .timeout := by
  unfold og_oniguruma_oregexp_gsub og_oniguruma_oregexp_do_substitution_safe
    og_oniguruma_oregexp_do_substitution
  dsimp only
  by_cases h0 : (E.search S 0 S.length).1 < 0
  · rw [if_pos h0]
    simp only [Bool.false_eq_true, if_false]
    intro h; cases h
  · rw [if_neg h0]
    refine Res.bind_ne_timeout _ _
      (substitution_loop_ne_timeout E S t false ptr hS ht hb fuel 0 _ rfl (le_refl _)
        (by omega) (by omega)) fun st _ => ?_
    refine Res.bind_ne_timeout _ _ (rb_str_buf_cat_ne_timeout _ _ _ _) fun buffer _ => ?_
    simp only [Bool.false_eq_true, if_false]
    intro h; cases h

/-- Under the engine contract `scan` without a block returns once the fuel exceeds the
length of the subject. -/
theorem scan_returns (E : Engine) (S : Bytes) (ptr : Nat) (w : World) (fuel : Nat)
    (hS : well_formed_characters E.encoding S) (hb : E.matches_in_bounds S)
    (hr : E.returns_begin S) (hf : S.length < fuel) :
    ∃ out, (og_oniguruma_oregexp_scan E none { ptr := ptr, bytes := S } w fuel).result
      = .ok out := by
  unfold og_oniguruma_oregexp_scan og_oniguruma_oregexp_do_scan
  dsimp only
  by_cases h0 : (E.search S 0 S.length).1 < 0
  · rw [if_pos h0]; exact ⟨_, rfl⟩
  · rw [if_neg h0]
    obtain ⟨st1, hst⟩ := scan_loop_returns E S hS hb hr fuel 0
      { matches_ := [], str := { ptr := ptr, bytes := S }, world := w } rfl (le_refl _)
      (by omega) (by omega)
    rw [hst]
    exact ⟨_, rfl⟩

/-- C20: empty matches cannot make the global loops run forever. Let every character of
the subject `S` and of the template be at least one byte wide, and let the engine
report only matches with `start <= begin <= end <= len(S)` (the status of a successful
search being the begin of the match). Then after each successful search the loops
search again from a strictly larger offset; `gsub` with a template returns or raises
and `scan` without a block returns, once the fuel exceeds `len(S)`; and the regions
`gsub` visits, as the matches `scan` returns, are those of the successful searches, whose
offsets increase strictly and which are at most `len(S) + 1`. -/
theorem empty_matches_cannot_loop_forever (E : Engine) (S t : Bytes) (ptr : Nat) (w : World)
    (fuel : Nat)
    (hS : well_formed_characters E.encoding S) (ht : well_formed_characters E.encoding t)
    (hb : E.matches_in_bounds S) (hr : E.returns_begin S) (hf : S.length < fuel) :
    (∀ s s' : Int, 0 ≤ s → 0 ≤ (E.search S s S.length).1 → E.next_start S s = some s' →
      s < s') ∧
    (og_oniguruma_oregexp_gsub E t none { ptr := ptr, bytes := S } w fuel).result ≠ .timeout ∧
    (∀ out, (og_oniguruma_oregexp_gsub E t none { ptr := ptr, bytes := S } w fuel).result
        = .ok out →
      ∃ starts : List Int, out.visited = starts.map (fun s => (E.search S s S.length).2) ∧
        ((starts = [] ∧ (E.search S 0 S.length).1 < 0) ∨ E.successful_searches S starts) ∧
        starts.Pairwise (fun a b : Int => a < b) ∧ starts.length ≤ S.length + 1) ∧
    (∃ (out : ScanOut) (starts : List Int),
      (og_oniguruma_oregexp_scan E none { ptr := ptr, bytes := S } w fuel).result = .ok out ∧
      out.value.getD [] = starts.map (fun s =>
        (og_oniguruma_oregexp_do_match E (E.search S s S.length).2 S World.init).1) ∧
      ((starts = [] ∧ (E.search S 0 S.length).1 < 0) ∨ E.successful_searches S starts) ∧
      starts.Pairwise (fun a b : Int => a < b) ∧ starts.length ≤ S.length + 1) := by
  refine ⟨fun s s' h0 hs hn => next_start_gt E S hS hb s s' h0 hs hn,
    gsub_terminates E S t ptr w fuel hS ht hb hf, ?_, ?_⟩
  · intro out hout
    rcases gsub_trace E S t ptr w fuel out hout with ⟨h0, hv⟩ | ⟨starts, hss, hv⟩
    · exact ⟨[], by simpa using hv, Or.inl ⟨rfl, h0⟩, List.Pairwise.nil, by simp⟩
    · obtain ⟨hp, _, hl⟩ := successful_searches_bounded E S hS hb starts hss
      exact ⟨starts, hv, Or.inr hss, hp, hl⟩
  · obtain ⟨out, hout⟩ := scan_returns E S ptr w fuel hS hb hr hf
    rcases scan_trace E S ptr w fuel hr out hout with ⟨h0, hv⟩ | ⟨starts, hss, hv⟩
    · exact ⟨out, [], hout, by simp [hv], Or.inl ⟨rfl, h0⟩, List.Pairwise.nil, by simp⟩
    · obtain ⟨hp, _, hl⟩ := successful_searches_bounded E S hS hb starts hss
      exact ⟨out, starts, hout, by simp [hv], Or.inr hss, hp, hl⟩

/-- C20 at a concrete input: for the pattern that matches the empty string everywhere,
on the subject `"ab"` in ASCII, `gsub` and `scan` with fuel 3 do not run out of fuel,
and at most 3 searches succeed. -/
theorem empty_matches_cannot_loop_forever_witness :
    well_formed_characters ONIG_ENCODING_ASCII [0x61, 0x62] ∧
    (og_oniguruma_oregexp_gsub (empty_pattern_engine ONIG_ENCODING_ASCII) [0x2d] none
      { ptr := 0, bytes := [0x61, 0x62] } World.init 3).result ≠ .timeout ∧
    ∃ (out : ScanOut) (starts : List Int),
      (og_oniguruma_oregexp_scan (empty_pattern_engine ONIG_ENCODING_ASCII) none
        { ptr := 0, bytes := [0x61, 0x62] } World.init 3).result = .ok out ∧
      out.value.getD [] = starts.map (fun s =>
        (og_oniguruma_oregexp_do_match (empty_pattern_engine ONIG_ENCODING_ASCII)
          ((empty_pattern_engine ONIG_ENCODING_ASCII).search [0x61, 0x62] s
            ([0x61, 0x62] : Bytes).length).2 [0x61, 0x62] World.init).1) ∧
      starts.length ≤ ([0x61, 0x62] : Bytes).length + 1 :=
  have h := empty_matches_cannot_loop_forever (empty_pattern_engine ONIG_ENCODING_ASCII)
    [0x61, 0x62] [0x2d] 0 World.init 3 (by decide) (by decide)
    (empty_pattern_engine_matches_in_bounds _ _) (empty_pattern_engine_returns_begin _ _)
    (by decide)
  ⟨by decide, h.2.1,
    match h.2.2.2 with
    | ⟨out, starts, h1, h2, _, _, h5⟩ => ⟨out, starts, h1, h2, h5⟩⟩

/-! ## C18: the value of `scan` -/

/-- C18: `scan` returns `nil` exactly when the very first search, over the whole subject,
fails. When the first search fails the result is `nil`, with or without a block;
whenever `scan` returns, its value is `nil` if and only if the first search failed.
Otherwise `scan` without a block returns a non-empty list that holds, in the order the
searches were made, the match of each successful search: the first from offset 0, each
later one made again after the match before it, up to the match after which the loop
stops. When moreover the characters of `S` are at least one byte wide and the engine
reports only matches with `start <= begin <= end <= len(S)`, `scan` does return, and
the offsets of these searches increase strictly. The status of a successful search is
taken to be the begin of its match. -/
theorem scan_nil_iff_first_search_fails (E : Engine) (S : Bytes) (ptr : Nat) (w : World)
    (fuel : Nat) (hr : E.returns_begin S) :
    (∀ block : Option Block, (E.search S 0 S.length).1 < 0 →
      (og_oniguruma_oregexp_scan E block { ptr := ptr, bytes := S } w fuel).result
        = .ok { value := none, str := { ptr := ptr, bytes := S }, world := w }) ∧
    (∀ (block : Option Block) (out : ScanOut),
      (og_oniguruma_oregexp_scan E block { ptr := ptr, bytes := S } w fuel).result = .ok out →
      (out.value = none ↔ (E.search S 0 S.length).1 < 0)) ∧
    (∀ out : ScanOut,
      (og_oniguruma_oregexp_scan E none { ptr := ptr, bytes := S } w fuel).result = .ok out →
      0 ≤ (E.search S 0 S.length).1 →
      ∃ starts : List Int, starts ≠ [] ∧ E.successful_searches S starts ∧
        out.value = some (starts.map (fun s =>
          (og_oniguruma_oregexp_do_match E (E.search S s S.length).2 S World.init).1))) ∧
    (well_formed_characters E.encoding S → E.matches_in_bounds S → S.length < fuel →
      (∃ out : ScanOut,
        (og_oniguruma_oregexp_scan E none { ptr := ptr, bytes := S } w fuel).result = .ok out) ∧
      ∀ starts : List Int, E.successful_searches S starts →
        starts.Pairwise (fun a b : Int => a < b)) := by
  refine ⟨?_, ?_, ?_, ?_⟩
  · intro block h0
    unfold og_oniguruma_oregexp_scan og_oniguruma_oregexp_do_scan
    dsimp only
    rw [if_pos h0]
  · intro block out h
    unfold og_oniguruma_oregexp_scan og_oniguruma_oregexp_do_scan at h
    dsimp only at h
    by_cases h0 : (E.search S 0 S.length).1 < 0
    · rw [if_pos h0] at h
      cases h
      exact ⟨fun _ => h0, fun _ => rfl⟩
    · rw [if_neg h0] at h
      obtain ⟨st, _, h⟩ := Res.bind_eq_ok h
      cases h
      exact ⟨fun hn => (by cases hn), fun hn => absurd hn h0⟩
  · intro out h h0
    rcases scan_trace E S ptr w fuel hr out h with ⟨hneg, _⟩ | ⟨starts, hss, hv⟩
    · omega
    · refine ⟨starts, ?_, hss, hv⟩
      intro hnil
      rw [hnil] at hss
      cases hss.1
  · intro hS hb hf
    exact ⟨scan_returns E S ptr w fuel hS hb hr hf,
      fun starts hss => (successful_searches_bounded E S hS hb starts hss).1⟩

/-- C18 at a concrete input: for the pattern that matches the empty string everywhere,
on the subject `"ab"` in ASCII, the first search succeeds and `scan` returns a list,
not `nil`. -/
theorem scan_nil_iff_first_search_fails_witness :
    ∃ out : ScanOut,
      (og_oniguruma_oregexp_scan (empty_pattern_engine ONIG_ENCODING_ASCII) none
        { ptr := 0, bytes := [0x61, 0x62] } World.init 3).result = .ok out ∧
      out.value ≠ none :=
  have h := scan_nil_iff_first_search_fails (empty_pattern_engine ONIG_ENCODING_ASCII)
    [0x61, 0x62] 0 World.init 3 (empty_pattern_engine_returns_begin _ _)
  match (h.2.2.2 (by decide) (empty_pattern_engine_matches_in_bounds _ _) (by decide)).1 with
  | ⟨out, hout⟩ => ⟨out, hout, fun hn => absurd ((h.2.1 none out hout).mp hn) (by decide)⟩

/-! ## C27: the last-match slot -/

theorem substitution_chunk_block_inv (E : Engine) (t : Bytes) (blk : Block) (g u : Bool)
    (ptr : Nat) (subj_len : Int) (region : OnigRegion) (buf S : Bytes) (w : World)
    (c : Bytes × Bytes × World)
    (h : substitution_chunk E
        { replacement := t, block := some blk, global := g, update_self := u }
        ptr subj_len region buf S w = .ok c) :
    ∃ r : BlockResult,
      blk (og_oniguruma_oregexp_do_match E region S w).1 { ptr := ptr, bytes := S }
        { (og_oniguruma_oregexp_do_match E region S w).2 with
          backref := some (og_oniguruma_oregexp_do_match E region S w).1 } = .ok r ∧
      r.str.ptr = ptr ∧ (r.str.bytes.length : Int) = subj_len ∧
      c = (buf ++ r.value, r.str.bytes, r.world) := by
  unfold substitution_chunk at h
  dsimp only at h
  cases hb : blk (og_oniguruma_oregexp_do_match E region S w).1 { ptr := ptr, bytes := S }
      { (og_oniguruma_oregexp_do_match E region S w).2 with
        backref := some (og_oniguruma_oregexp_do_match E region S w).1 } with
  | ok r =>
    rw [hb] at h
    dsimp only at h
    unfold og_oniguruma_string_modification_check at h
    by_cases hm : r.str.ptr ≠ ptr ∨ (r.str.bytes.length : Int) ≠ subj_len
    · rw [if_pos hm] at h
      cases h
    · rw [if_neg hm] at h
      cases h
      have h1 : r.str.ptr = ptr := by
        by_contra hne
        exact hm (Or.inl hne)
      have h2 : (r.str.bytes.length : Int) = subj_len := by
        by_contra hne
        exact hm (Or.inr hne)
      exact ⟨r, rfl, h1, h2, rfl⟩
  | raise e => rw [hb] at h; cases h
  | timeout => rw [hb] at h; cases h

/-- A substitution with a block ends with the process-wide cells as its last callback
left them, and that callback was entered with the last-match slot holding the match
built from the region visited last. -/
theorem substitution_loop_block_last_match (E : Engine) (t : Bytes) (blk : Block)
    (g u : Bool) (ptr : Nat) (subj_len : Int) :
    ∀ (fuel : Nat) (region : OnigRegion) (st st1 : SubstLoop),
      substitution_loop E { replacement := t, block := some blk, global := g, update_self := u }
          ptr subj_len fuel region st = .ok st1 →
      ∃ (m : MatchData) (s : RString) (w1 : World) (r : BlockResult),
        blk m s w1 = .ok r ∧ w1.last_match = some m ∧ w1.backref = some m ∧
        st1.visited.getLast? = some m.region ∧ st1.world = r.world := by
  intro fuel
  induction fuel with
  | zero =>
    intro region st st1 h
    unfold substitution_loop at h
    cases h
  | succ k ih =>
    intro region st st1 h
    unfold substitution_loop at h
    obtain ⟨b, _, h⟩ := Res.bind_eq_ok h
    obtain ⟨e, _, h⟩ := Res.bind_eq_ok h
    obtain ⟨buffer, _, h⟩ := Res.bind_eq_ok h
    obtain ⟨c, hc, h⟩ := Res.bind_eq_ok h
    obtain ⟨r, hblk, _, _, hceq⟩ := substitution_chunk_block_inv _ _ _ _ _ _ _ _ _ _ _ _ hc
    have stop : ∀ (buf : Bytes) (en : Int),
        ∃ (m : MatchData) (s : RString) (w1 : World) (r : BlockResult),
          blk m s w1 = .ok r ∧ w1.last_match = some m ∧ w1.backref = some m ∧
          ({ buffer := buf, end_ := en, subj := c.2.1, world := c.2.2,
             visited := st.visited ++ [region] } : SubstLoop).visited.getLast?
            = some m.region ∧
          ({ buffer := buf, end_ := en, subj := c.2.1, world := c.2.2,
             visited := st.visited ++ [region] } : SubstLoop).world = r.world := by
      intro buf en
      refine ⟨_, _, _, r, hblk, ?_, rfl, ?_, ?_⟩
      · simp [og_oniguruma_oregexp_do_match]
      · simp [og_oniguruma_oregexp_do_match]
      · rw [hceq]
    dsimp only at h
    by_cases hg : g = false
    · rw [if_pos hg] at h
      cases h
      exact stop _ _
    · rw [if_neg hg] at h
      by_cases hbe : b = e
      · rw [if_pos hbe] at h
        by_cases hlen : subj_len ≤ e
        · rw [if_pos hlen] at h
          cases h
          exact stop _ _
        · rw [if_neg hlen] at h
          by_cases hneg : e < 0
          · rw [if_pos hneg] at h; cases h
          · rw [if_neg hneg] at h
            obtain ⟨buffer1, _, h⟩ := Res.bind_eq_ok h
            by_cases hs1 : 0 ≤ (E.search c.2.1
                (e + E.encoding.mbc_enc_len (c.2.1.drop e.toNat)) subj_len).1
            · rw [if_pos hs1] at h
              exact ih _ _ _ h
            · rw [if_neg hs1] at h
              cases h
              exact stop _ _
      · rw [if_neg hbe] at h
        by_cases hs1 : 0 ≤ (E.search c.2.1 e subj_len).1
        · rw [if_pos hs1] at h
          exact ih _ _ _ h
        · rw [if_neg hs1] at h
          cases h
          exact stop _ _

/-- A substitution with a template leaves the process-wide cells as they were. -/
theorem substitution_loop_template_world (E : Engine) (t : Bytes) (g u : Bool) (ptr : Nat)
    (subj_len : Int) :
    ∀ (fuel : Nat) (region : OnigRegion) (st st1 : SubstLoop),
      substitution_loop E { replacement := t, block := none, global := g, update_self := u }
          ptr subj_len fuel region st = .ok st1 →
      st1.world = st.world := by
  intro fuel
  induction fuel with
  | zero =>
    intro region st st1 h
    unfold substitution_loop at h
    cases h
  | succ k ih =>
    intro region st st1 h
    unfold substitution_loop at h
    obtain ⟨b, _, h⟩ := Res.bind_eq_ok h
    obtain ⟨e, _, h⟩ := Res.bind_eq_ok h
    obtain ⟨buffer, _, h⟩ := Res.bind_eq_ok h
    obtain ⟨c, hc, h⟩ := Res.bind_eq_ok h
    have hw := (substitution_chunk_template_inv _ _ _ _ _ _ _ _ _ _ _ hc).2
    dsimp only at h
    by_cases hg : g = false
    · rw [if_pos hg] at h
      cases h
      exact hw
    · rw [if_neg hg] at h
      by_cases hbe : b = e
      · rw [if_pos hbe] at h
        by_cases hlen : subj_len ≤ e
        · rw [if_pos hlen] at h
          cases h
          exact hw
        · rw [if_neg hlen] at h
          by_cases hneg : e < 0
          · rw [if_pos hneg] at h; cases h
          · rw [if_neg hneg] at h
            obtain ⟨buffer1, _, h⟩ := Res.bind_eq_ok h
            by_cases hs1 : 0 ≤ (E.search c.2.1
                (e + E.encoding.mbc_enc_len (c.2.1.drop e.toNat)) subj_len).1
            · rw [if_pos hs1] at h
              exact (ih _ _ _ h).trans hw
            · rw [if_neg hs1] at h
              cases h
              exact hw
      · rw [if_neg hbe] at h
        by_cases hs1 : 0 ≤ (E.search c.2.1 e subj_len).1
        · rw [if_pos hs1] at h
          exact (ih _ _ _ h).trans hw
        · rw [if_neg hs1] at h
          cases h
          exact hw

/-- What one round of the scan loop yields to: without a block nothing runs and the
cells are as `do_match` left them; with a block the subject and the cells are as the
block left them, the block having been entered with the last-match slot holding the
match just built. -/
theorem scan_yield_inv (E : Engine) (block : Option Block) (region : OnigRegion)
    (st : ScanLoop) (y : RString × World)
    (h : (match block with
      | some blk =>
        match blk (og_oniguruma_oregexp_do_match E region st.str.bytes st.world).1 st.str
            (og_oniguruma_oregexp_do_match E region st.str.bytes st.world).2 with
        | .ok r => .ok (r.str, r.world)
        | .raise e => .raise e
        | .timeout => .timeout
      | none => .ok (st.str, (og_oniguruma_oregexp_do_match E region st.str.bytes st.world).2)
        : Res (RString × World)) = .ok y) :
    (block = none →
      y.2.last_match = some (og_oniguruma_oregexp_do_match E region st.str.bytes st.world).1) ∧
    (∀ blk, block = some blk →
      ∃ (s : RString) (w1 : World) (r : BlockResult),
        blk (og_oniguruma_oregexp_do_match E region st.str.bytes st.world).1 s w1 = .ok r ∧
        w1.last_match = some (og_oniguruma_oregexp_do_match E region st.str.bytes st.world).1 ∧
        y.2 = r.world) := by
  cases block with
  | none =>
    dsimp only at h
    cases h
    refine ⟨fun _ => ?_, fun blk hb => (by cases hb)⟩
    simp [og_oniguruma_oregexp_do_match]
  | some blk =>
    dsimp only at h
    refine ⟨fun hb => (by cases hb), ?_⟩
    intro blk1 hb
    cases hb
    cases hr : blk (og_oniguruma_oregexp_do_match E region st.str.bytes st.world).1 st.str
        (og_oniguruma_oregexp_do_match E region st.str.bytes st.world).2 with
    | ok r =>
      rw [hr] at h
      cases h
      exact ⟨_, _, r, hr, by simp [og_oniguruma_oregexp_do_match], rfl⟩
    | raise e => rw [hr] at h; cases h
    | timeout => rw [hr] at h; cases h

/-- A scan collects at least one match. Without a block it leaves in the last-match slot
the last match of the list it collected; with a block it leaves the process-wide cells
as its last callback left them, and that callback was entered with the slot holding
the last match of the list. -/
theorem scan_loop_last_match (E : Engine) (block : Option Block) :
    ∀ (fuel : Nat) (begin : Int) (region : OnigRegion) (st st1 : ScanLoop),
      scan_loop E block fuel begin region st = .ok st1 →
      st1.matches_ ≠ [] ∧
      (block = none → st1.world.last_match = st1.matches_.getLast?) ∧
      (∀ blk, block = some blk →
        ∃ (m : MatchData) (s : RString) (w1 : World) (r : BlockResult),
          blk m s w1 = .ok r ∧ w1.last_match = some m ∧
          st1.matches_.getLast? = some m ∧ st1.world = r.world) := by
  intro fuel
  induction fuel with
  | zero =>
    intro begin region st st1 h
    unfold scan_loop at h
    cases h
  | succ k ih =>
    intro begin region st st1 h
    unfold scan_loop at h
    dsimp only at h
    obtain ⟨e, _, h⟩ := Res.bind_eq_ok h
    obtain ⟨y, hy, h⟩ := Res.bind_eq_ok h
    obtain ⟨hnone, hsome⟩ := scan_yield_inv E block region st y hy
    have stop : ∀ (sl : ScanLoop),
        sl = { matches_ := st.matches_ ++
                 [(og_oniguruma_oregexp_do_match E region st.str.bytes st.world).1],
               str := y.1,
               world := y.2 } →
        sl.matches_ ≠ [] ∧
        (block = none → sl.world.last_match = sl.matches_.getLast?) ∧
        (∀ blk, block = some blk →
          ∃ (m : MatchData) (s : RString) (w1 : World) (r : BlockResult),
            blk m s w1 = .ok r ∧ w1.last_match = some m ∧
            sl.matches_.getLast? = some m ∧ sl.world = r.world) := by
      intro sl hsl
      subst hsl
      refine ⟨by simp, ?_, ?_⟩
      · intro hb
        rw [hnone hb]
        simp
      · intro blk hb
        obtain ⟨s, w1, r, h1, h2, h3⟩ := hsome blk hb
        exact ⟨_, s, w1, r, h1, h2, by simp, h3⟩
    by_cases hbe : e = begin
    · rw [if_pos hbe] at h
      by_cases hlen : (y.1.bytes.length : Int) ≤ e
      · rw [if_pos hlen] at h
        cases h
        exact stop _ rfl
      · rw [if_neg hlen] at h
        by_cases hneg : e < 0
        · rw [if_pos hneg] at h; cases h
        · rw [if_neg hneg] at h
          by_cases hs1 : 0 ≤ (E.search y.1.bytes
              (e + E.encoding.mbc_enc_len (y.1.bytes.drop e.toNat)) y.1.bytes.length).1
          · rw [if_pos hs1] at h
            exact ih _ _ _ _ h
          · rw [if_neg hs1] at h
            cases h
            exact stop _ rfl
    · rw [if_neg hbe] at h
      by_cases hs1 : 0 ≤ (E.search y.1.bytes e y.1.bytes.length).1
      · rw [if_pos hs1] at h
        exact ih _ _ _ _ h
      · rw [if_neg hs1] at h
        cases h
        exact stop _ rfl

/-- C27, as stated, fails in two ways, both for the pattern `(?<foo>b)` over `"abcb"`.
In template mode, with the template `"-"`, `gsub` makes two successful searches and
returns `"a-c-"`, and `sub` makes one and returns `"a-cb"`, yet the last-match slot,
empty before the call, is still empty after it. In callback mode, with a block that
itself calls `match` of the same pattern on `"b"`, `gsub` returns `"a-c-"` after two
successful searches, the last one with the match `(3, 4)` in `"abcb"`, and the slot
holds the match `(0, 1)` in `"b"` that the block made. -/
theorem last_match_is_not_the_last_search :
    0 ≤ ((named_literal_engine ONIG_ENCODING_ASCII [0x62] [0x66, 0x6f, 0x6f]).search
      [0x61, 0x62, 0x63, 0x62] 0 4).1 ∧
    World.init.last_match = none ∧
    (og_oniguruma_oregexp_gsub (named_literal_engine ONIG_ENCODING_ASCII [0x62] [0x66, 0x6f, 0x6f])
        [0x2d] none { ptr := 0, bytes := [0x61, 0x62, 0x63, 0x62] } World.init 5).result
      = .ok { value := .fresh [0x61, 0x2d, 0x63, 0x2d], str_bytes := [0x61, 0x62, 0x63, 0x62],
              world := { last_match := none, backref := none },
              visited := [region_of [(1, 2), (1, 2)], region_of [(3, 4), (3, 4)]] } ∧
    (og_oniguruma_oregexp_sub (named_literal_engine ONIG_ENCODING_ASCII [0x62] [0x66, 0x6f, 0x6f])
        [0x2d] none { ptr := 0, bytes := [0x61, 0x62, 0x63, 0x62] } World.init 5).result
      = .ok { value := .fresh [0x61, 0x2d, 0x63, 0x62], str_bytes := [0x61, 0x62, 0x63, 0x62],
              world := { last_match := none, backref := none },
              visited := [region_of [(1, 2), (1, 2)]] } ∧
    (og_oniguruma_oregexp_gsub (named_literal_engine ONIG_ENCODING_ASCII [0x62] [0x66, 0x6f, 0x6f])
        []
        (some (block_calling_match rb_fix2int
          (named_literal_engine ONIG_ENCODING_ASCII [0x62] [0x66, 0x6f, 0x6f]) [0x62] [0x2d]))
        { ptr := 0, bytes := [0x61, 0x62, 0x63, 0x62] } World.init 5).result
      = .ok { value := .fresh [0x61, 0x2d, 0x63, 0x2d], str_bytes := [0x61, 0x62, 0x63, 0x62],
              world :=
                { last_match := some
                    { region := region_of [(0, 1), (0, 1)], string := [0x62],
                      named_captures := some [([0x66, 0x6f, 0x6f], [1])] },
                  backref := some
                    { region := region_of [(0, 1), (0, 1)], string := [0x62],
                      named_captures := some [([0x66, 0x6f, 0x6f], [1])] } },
              visited := [region_of [(1, 2), (1, 2)], region_of [(3, 4), (3, 4)]] } := by
  decide

/-- C27, amended: the last-match slot is written whenever a match result is built, and
a callback that runs after it may write the slot again. After `match` with a successful
search the slot holds the match it returns. After `scan` without a block has returned a
list, the list is non-empty and the slot holds its last match. After `scan` with a
block has returned a list, or `sub`, `gsub`, `sub!` or `gsub!` with a block has returned
having visited at least one match, the process-wide cells are as the last callback left
them, and that callback was entered with the slot holding the match of the last
successful search; so the slot holds that match when that callback, or the block at
every call, leaves the slot as it found it. With a template, `sub`, `gsub`, `sub!` and `gsub!` build no match result and
leave the slot, like the other process-wide cell, as it was. -/
theorem last_match_follows_built_matches (E : Engine) (w : World) (fuel : Nat) :
    (∀ (fix2int : Int → Except Raised Int) (string : Bytes) (begin end_ : Option Int)
        (b e : Int),
      fix2int (begin.getD 0) = .ok b → fix2int (end_.getD string.length) = .ok e →
      0 ≤ (E.search string b e).1 →
      ∃ out m, (og_oniguruma_oregexp_match fix2int E string begin end_ w).result = .ok out ∧
        out.value = some m ∧
        m.region = (E.search string b e).2 ∧
        out.world.last_match = some m) ∧
    (∀ (str : RString) (out : ScanOut) (ms : List MatchData),
      (og_oniguruma_oregexp_scan E none str w fuel).result = .ok out →
      out.value = some ms → ms ≠ [] ∧ out.world.last_match = ms.getLast?) ∧
    (∀ (blk : Block) (str : RString) (out : ScanOut) (ms : List MatchData),
      (og_oniguruma_oregexp_scan E (some blk) str w fuel).result = .ok out →
      out.value = some ms →
      ms ≠ [] ∧
      (∃ (m : MatchData) (s : RString) (w1 : World) (r : BlockResult),
        blk m s w1 = .ok r ∧ w1.last_match = some m ∧
        ms.getLast? = some m ∧ out.world = r.world ∧
        (r.world.last_match = w1.last_match → out.world.last_match = some m)) ∧
      (keeps_last_match blk → out.world.last_match = ms.getLast?)) ∧
    (∀ (blk : Block) (t : Bytes) (g u : Bool) (str : RString) (out : SubstOut),
      (og_oniguruma_oregexp_do_substitution_safe E t (some blk) g u str w fuel).result
        = .ok out →
      out.visited ≠ [] →
      ∃ (m : MatchData) (s : RString) (w1 : World) (r : BlockResult),
        blk m s w1 = .ok r ∧ w1.last_match = some m ∧ w1.backref = some m ∧
        out.visited.getLast? = some m.region ∧ out.world = r.world ∧
        (r.world.last_match = w1.last_match → out.world.last_match = some m) ∧
        (keeps_last_match blk → out.world.last_match = some m)) ∧
    (∀ (t : Bytes) (g u : Bool) (str : RString) (out : SubstOut),
      (og_oniguruma_oregexp_do_substitution_safe E t none g u str w fuel).result = .ok out →
      out.world = w) := by
  refine ⟨?_, ?_, ?_, ?_, ?_⟩
  · intro fix2int string begin end_ b e hb he hs
    rw [match_of_converted fix2int E string begin end_ w b e hb he]
    unfold match_after_search
    dsimp only
    rw [if_pos hs]
    exact ⟨_, _, rfl, rfl, rfl, rfl⟩
  · intro str out ms h hv
    unfold og_oniguruma_oregexp_scan og_oniguruma_oregexp_do_scan at h
    dsimp only at h
    by_cases h0 : (E.search str.bytes 0 str.bytes.length).1 < 0
    · rw [if_pos h0] at h
      cases h
      cases hv
    · rw [if_neg h0] at h
      obtain ⟨st, hst, h⟩ := Res.bind_eq_ok h
      cases h
      cases hv
      have hl := scan_loop_last_match E none fuel _ _ _ st hst
      exact ⟨hl.1, hl.2.1 rfl⟩
  · intro blk str out ms h hv
    unfold og_oniguruma_oregexp_scan og_oniguruma_oregexp_do_scan at h
    dsimp only at h
    by_cases h0 : (E.search str.bytes 0 str.bytes.length).1 < 0
    · rw [if_pos h0] at h
      cases h
      cases hv
    · rw [if_neg h0] at h
      obtain ⟨st, hst, h⟩ := Res.bind_eq_ok h
      cases h
      cases hv
      have hl := scan_loop_last_match E (some blk) fuel _ _ _ st hst
      obtain ⟨m, s, w1, r, h1, h2, h3, h4⟩ := hl.2.2 blk rfl
      refine ⟨hl.1, ⟨m, s, w1, r, h1, h2, h3, h4, ?_⟩, ?_⟩
      · intro hk
        show st.world.last_match = some m
        rw [h4, hk, h2]
      · intro hk
        show st.world.last_match = st.matches_.getLast?
        rw [h4, hk m s w1 r h1, h2, h3]
  · intro blk t g u str out h hne
    unfold og_oniguruma_oregexp_do_substitution_safe og_oniguruma_oregexp_do_substitution at h
    dsimp only at h
    by_cases h0 : (E.search str.bytes 0 str.bytes.length).1 < 0
    · rw [if_pos h0] at h
      split_ifs at h <;> cases h <;> exact absurd rfl hne
    · rw [if_neg h0] at h
      obtain ⟨st, hst, h⟩ := Res.bind_eq_ok h
      obtain ⟨buffer, _, h⟩ := Res.bind_eq_ok h
      obtain ⟨m, s, w1, r, h1, h2, hb, h3, h4⟩ := substitution_loop_block_last_match E t blk
        g u str.ptr str.bytes.length fuel _ _ st hst
      have hl : r.world.last_match = w1.last_match → st.world.last_match = some m := by
        intro hl
        rw [h4, hl, h2]
      have hk : keeps_last_match blk → st.world.last_match = some m :=
        fun hk => hl (hk m s w1 r h1)
      split_ifs at h <;> cases h <;> exact ⟨m, s, w1, r, h1, h2, hb, h3, h4, hl, hk⟩
  · intro t g u str out h
    unfold og_oniguruma_oregexp_do_substitution_safe og_oniguruma_oregexp_do_substitution at h
    dsimp only at h
    by_cases h0 : (E.search str.bytes 0 str.bytes.length).1 < 0
    · rw [if_pos h0] at h
      split_ifs at h <;> cases h <;> rfl
    · rw [if_neg h0] at h
      obtain ⟨st, hst, h⟩ := Res.bind_eq_ok h
      obtain ⟨buffer, _, h⟩ := Res.bind_eq_ok h
      have hw := substitution_loop_template_world E t g u str.ptr str.bytes.length fuel _ _ st hst
      split_ifs at h <;> cases h <;> exact hw

/-- C27, amended, at a concrete input: for the pattern `(?<foo>b)` over `"abcb"`, `gsub`
with a block that answers `"-"` and leaves the slot alone leaves in the last-match slot
a match built from the region of the second, last, successful search. -/
theorem last_match_follows_built_matches_witness :
    keeps_last_match (fun _ s w => .ok { value := [0x2d], str := s, world := w }) ∧
    ∃ (out : SubstOut) (m : MatchData),
      (og_oniguruma_oregexp_do_substitution_safe
          (named_literal_engine ONIG_ENCODING_ASCII [0x62] [0x66, 0x6f, 0x6f]) []
          (some (fun _ s w => .ok { value := [0x2d], str := s, world := w })) true false
          { ptr := 0, bytes := [0x61, 0x62, 0x63, 0x62] } World.init 5).result = .ok out ∧
      out.value = .fresh [0x61, 0x2d, 0x63, 0x2d] ∧
      out.world.last_match = some m ∧ m.region = region_of [(3, 4), (3, 4)] :=
  have hk : keeps_last_match (fun _ s w => .ok { value := [0x2d], str := s, world := w }) :=
    fun _ _ _ _ h => by cases h; rfl
  have h : (og_oniguruma_oregexp_do_substitution_safe
      (named_literal_engine ONIG_ENCODING_ASCII [0x62] [0x66, 0x6f, 0x6f]) []
      (some (fun _ s w => .ok { value := [0x2d], str := s, world := w })) true false
      { ptr := 0, bytes := [0x61, 0x62, 0x63, 0x62] } World.init 5).result
      = .ok { value := .fresh [0x61, 0x2d, 0x63, 0x2d], str_bytes := [0x61, 0x62, 0x63, 0x62],
              world :=
                { last_match := some
                    { region := region_of [(3, 4), (3, 4)], string := [0x61, 0x62, 0x63, 0x62],
                      named_captures := some [([0x66, 0x6f, 0x6f], [1])] },
                  backref := some
                    { region := region_of [(3, 4), (3, 4)], string := [0x61, 0x62, 0x63, 0x62],
                      named_captures := some [([0x66, 0x6f, 0x6f], [1])] } },
              visited := [region_of [(1, 2), (1, 2)], region_of [(3, 4), (3, 4)]] } := by
    decide
  match (last_match_follows_built_matches
      (named_literal_engine ONIG_ENCODING_ASCII [0x62] [0x66, 0x6f, 0x6f]) World.init 5).2.2.2.1
      (fun _ s w => .ok { value := [0x2d], str := s, world := w }) [] true false
      { ptr := 0, bytes := [0x61, 0x62, 0x63, 0x62] } _ h (by decide) with
  | ⟨m, _, _, _, _, _, _, h3, _, _, h5⟩ => ⟨hk, _, m, h, rfl, h5 hk, by
      have h6 : some (region_of [(3, 4), (3, 4)]) = some m.region := h3
      exact (Option.some.inj h6).symm⟩

/-! ## C28: the modification check of callback mode -/

/-- The replacement chunk of callback mode, once the block has returned: the check
against the buffer identity and the length taken before the loop, then the block's
result appended. -/
theorem substitution_chunk_block (E : Engine) (t : Bytes) (blk : Block) (g u : Bool)
    (ptr : Nat) (subj_len : Int) (region : OnigRegion) (buf S : Bytes) (w : World)
    (r : BlockResult)
    (hblk : blk (og_oniguruma_oregexp_do_match E region S w).1 { ptr := ptr, bytes := S }
      { (og_oniguruma_oregexp_do_match E region S w).2 with
        backref := some (og_oniguruma_oregexp_do_match E region S w).1 } = .ok r) :
    substitution_chunk E { replacement := t, block := some blk, global := g, update_self := u }
        ptr subj_len region buf S w
      = if r.str.ptr ≠ ptr ∨ (r.str.bytes.length : Int) ≠ subj_len then .raise .string_modified
        else .ok (buf ++ r.value, r.str.bytes, r.world) := by
  unfold substitution_chunk
  dsimp only
  rw [hblk]
  dsimp only
  unfold og_oniguruma_string_modification_check
  split_ifs <;> rfl

/-- C28: in callback-mode substitution, at an iteration whose match was read from the
region and whose gap text was copied, once the callback has returned: if the subject's
buffer identity or its length differs from what it was before the substitution began,
the iteration, and with it the loop, raises the modification error, and `sub`, `gsub`,
`sub!` and `gsub!` whose first callback does so raise it and return no result. If both
are unchanged, the callback's result is appended to the buffer as the replacement
chunk; a single substitution then ends, and a global one, after a non-empty match,
searches again from the end of the match and carries on with the next match when that
search succeeds. -/
theorem callback_modification_check (E : Engine) (t : Bytes) (blk : Block) (g u : Bool)
    (ptr : Nat) (subj_len : Int) (region : OnigRegion) (st : SubstLoop) (fuel : Nat)
    (b e : Int) (buf : Bytes) (r : BlockResult)
    (hbeg : region_at region.beg 0 = .ok b) (hend : region_at region.end_ 0 = .ok e)
    (hcat : rb_str_buf_cat st.buffer st.subj st.end_ (b - st.end_) = .ok buf)
    (hblk : blk (og_oniguruma_oregexp_do_match E region st.subj st.world).1
      { ptr := ptr, bytes := st.subj }
      { (og_oniguruma_oregexp_do_match E region st.subj st.world).2 with
        backref := some (og_oniguruma_oregexp_do_match E region st.subj st.world).1 }
      = .ok r) :
    ((r.str.ptr ≠ ptr ∨ (r.str.bytes.length : Int) ≠ subj_len) →
      substitution_loop E
          { replacement := t, block := some blk, global := g, update_self := u }
          ptr subj_len (fuel + 1) region st = .raise .string_modified ∧
      ∀ (str : RString) (w : World), str.ptr = ptr → (str.bytes.length : Int) = subj_len →
        0 ≤ (E.search str.bytes 0 str.bytes.length).1 →
        (E.search str.bytes 0 str.bytes.length).2 = region →
        st = { buffer := [], end_ := 0, subj := str.bytes, world := w, visited := [] } →
        (og_oniguruma_oregexp_do_substitution_safe E t (some blk) g u str w (fuel + 1)).result
          = .raise .string_modified) ∧
    (r.str.ptr = ptr → (r.str.bytes.length : Int) = subj_len →
      (g = false →
        substitution_loop E
            { replacement := t, block := some blk, global := g, update_self := u }
            ptr subj_len (fuel + 1) region st
          = .ok { buffer := buf ++ r.value, end_ := e, subj := r.str.bytes,
                  world := r.world,
                  visited := st.visited ++ [region] }) ∧
      (g = true → b ≠ e →
        substitution_loop E
            { replacement := t, block := some blk, global := g, update_self := u }
            ptr subj_len (fuel + 1) region st
          = if 0 ≤ (E.search r.str.bytes e subj_len).1 then
              substitution_loop E
                { replacement := t, block := some blk, global := g, update_self := u }
                ptr subj_len fuel (E.search r.str.bytes e subj_len).2
                { buffer := buf ++ r.value, end_ := e, subj := r.str.bytes,
                  world := r.world,
                  visited := st.visited ++ [region] }
            else
              .ok { buffer := buf ++ r.value, end_ := e, subj := r.str.bytes,
                    world := r.world,
                    visited := st.visited ++ [region] })) := by
  have hchunk := substitution_chunk_block E t blk g u ptr subj_len region buf st.subj st.world
    r hblk
  constructor
  · intro hmod
    have h1 : substitution_loop E
        { replacement := t, block := some blk, global := g, update_self := u }
        ptr subj_len (fuel + 1) region st = .raise .string_modified := by
      conv_lhs => unfold substitution_loop
      rw [hbeg, hend]
      simp only [Res.bind_ok]
      rw [hcat]
      simp only [Res.bind_ok]
      rw [hchunk, if_pos hmod]
      rfl
    refine ⟨h1, ?_⟩
    intro str w hptr hlen hs hreg hst
    unfold og_oniguruma_oregexp_do_substitution_safe og_oniguruma_oregexp_do_substitution
    dsimp only
    rw [if_neg (by omega), hreg, hptr, hlen, ← hst, h1]
    rfl
  · intro hptr hlen
    have hok : ¬ (r.str.ptr ≠ ptr ∨ (r.str.bytes.length : Int) ≠ subj_len) := by
      rintro (h | h)
      · exact h hptr
      · exact h hlen
    constructor
    · intro hg
      conv_lhs => unfold substitution_loop
      rw [hbeg, hend]
      simp only [Res.bind_ok]
      rw [hcat]
      simp only [Res.bind_ok]
      rw [hchunk, if_neg hok]
      simp only [Res.bind_ok]
      rw [if_pos hg]
      rfl
    · intro hg hbe
      conv_lhs => unfold substitution_loop
      rw [hbeg, hend]
      simp only [Res.bind_ok]
      rw [hcat]
      simp only [Res.bind_ok]
      rw [hchunk, if_neg hok]
      simp only [Res.bind_ok]
      rw [if_neg (by simp [hg]), if_neg hbe]
      rfl

/-- C28 at a concrete input: for the pattern `(?<foo>b)` over `"abcb"`, a block that
appends a byte to the subject makes `gsub` raise the modification error. -/
theorem callback_modification_check_witness :
    (og_oniguruma_oregexp_do_substitution_safe
        (named_literal_engine ONIG_ENCODING_ASCII [0x62] [0x66, 0x6f, 0x6f]) []
        (some (fun _ s w => .ok { value := [0x2d],
                                  str := { ptr := s.ptr, bytes := s.bytes ++ [0x21] },
                                  world := w }))
        true false { ptr := 0, bytes := [0x61, 0x62, 0x63, 0x62] } World.init (4 + 1)).result
      = .raise .string_modified :=
  ((callback_modification_check
      (named_literal_engine ONIG_ENCODING_ASCII [0x62] [0x66, 0x6f, 0x6f]) []
      (fun _ s w => .ok { value := [0x2d],
                          str := { ptr := s.ptr, bytes := s.bytes ++ [0x21] }, world := w })
      true false 0 4 (region_of [(1, 2), (1, 2)])
      { buffer := [], end_ := 0, subj := [0x61, 0x62, 0x63, 0x62], world := World.init,
        visited := [] }
      4 1 2 [0x61]
      { value := [0x2d], str := { ptr := 0, bytes := [0x61, 0x62, 0x63, 0x62, 0x21] },
        world :=
          { last_match := some
              { region := region_of [(1, 2), (1, 2)], string := [0x61, 0x62, 0x63, 0x62],
                named_captures := some [([0x66, 0x6f, 0x6f], [1])] },
            backref := some
              { region := region_of [(1, 2), (1, 2)], string := [0x61, 0x62, 0x63, 0x62],
                named_captures := some [([0x66, 0x6f, 0x6f], [1])] } } }
      (by decide) (by decide) (by decide) rfl).1 (Or.inr (by decide))).2
    { ptr := 0, bytes := [0x61, 0x62, 0x63, 0x62] } World.init rfl rfl (by decide) (by decide)
    rfl

/-! ## C30: the release of the match region -/

/-- The entry points that run their body under `rb_ensure`, `sub`, `gsub`, `sub!`, `gsub!`
and `scan`, acquire one match region and release it once whenever they exit, be it with
a result or with an exception. -/
theorem ensured_entry_points_release_once (E : Engine) (w : World) (fuel : Nat) :
    (∀ (t : Bytes) (block : Option Block) (g u : Bool) (str : RString),
      (og_oniguruma_oregexp_do_substitution_safe E t block g u str w fuel).region_new = 1 ∧
      ((og_oniguruma_oregexp_do_substitution_safe E t block g u str w fuel).result ≠ .timeout →
        (og_oniguruma_oregexp_do_substitution_safe E t block g u str w fuel).region_free = 1)) ∧
    (∀ (block : Option Block) (str : RString),
      (og_oniguruma_oregexp_scan E block str w fuel).region_new = 1 ∧
      ((og_oniguruma_oregexp_scan E block str w fuel).result ≠ .timeout →
        (og_oniguruma_oregexp_scan E block str w fuel).region_free = 1)) := by
  refine ⟨?_, ?_⟩
  · intro t block g u str
    unfold og_oniguruma_oregexp_do_substitution_safe
    dsimp only
    refine ⟨rfl, ?_⟩
    intro h
    cases hr : og_oniguruma_oregexp_do_substitution E
        { replacement := t, block := block, global := g, update_self := u } str w fuel with
    | ok a => rfl
    | raise e => rfl
    | timeout => exact absurd hr h
  · intro block str
    unfold og_oniguruma_oregexp_scan
    dsimp only
    refine ⟨rfl, ?_⟩
    intro h
    cases hr : og_oniguruma_oregexp_do_scan E block str w fuel with
    | ok a => rfl
    | raise e => rfl
    | timeout => exact absurd hr h

/-- After the search `match` releases the region once on each of its three paths. -/
theorem match_after_search_releases_once (E : Engine) (string : Bytes) (b e : Int)
    (w : World) :
    (match_after_search E string b e w).region_new = 1 ∧
    (match_after_search E string b e w).region_free = 1 ∧
    (match_after_search E string b e w).result ≠ .timeout := by
  unfold match_after_search
  dsimp only
  split_ifs <;> exact ⟨rfl, rfl, fun h => by cases h⟩

/-- C30, evaluated on the code: `match` has an exit on which the region it acquired is
not released. On a host whose `FIX2INT` checks the range of `int`, `match` of `"ab"` with
`begin` or `end` equal to `2^32 + 1` raises `RangeError` having acquired one region and
released none; so does `match`, on any host, whenever the conversion of `begin` or of
`end` raises. On the paths that reach the search `match` releases the region once: a
match, no match, an engine error. `sub`, `gsub`, `sub!`, `gsub!` and `scan`, which run
under `rb_ensure`, release it once whenever they exit, with a result or with an
exception, among them the exception a callback raises and the modification error. -/
theorem match_leaves_region_when_conversion_raises :
    (og_oniguruma_oregexp_match rb_fix2int (empty_pattern_engine ONIG_ENCODING_ASCII)
        [0x61, 0x62] (some 4294967297) none World.init
      = { result := .raise .range_error, region_new := 1, region_free := 0 }) ∧
    (og_oniguruma_oregexp_match rb_fix2int (empty_pattern_engine ONIG_ENCODING_ASCII)
        [0x61, 0x62] none (some 4294967297) World.init
      = { result := .raise .range_error, region_new := 1, region_free := 0 }) ∧
    (∀ (fix2int : Int → Except Raised Int) (E : Engine) (string : Bytes)
        (begin end_ : Option Int) (w : World) (x : Raised),
      (fix2int (begin.getD 0) = .error x ∨
        ((∃ b, fix2int (begin.getD 0) = .ok b) ∧
          fix2int (end_.getD string.length) = .error x)) →
      (og_oniguruma_oregexp_match fix2int E string begin end_ w).result = .raise x ∧
      (og_oniguruma_oregexp_match fix2int E string begin end_ w).region_new = 1 ∧
      (og_oniguruma_oregexp_match fix2int E string begin end_ w).region_free = 0) ∧
    (∀ (fix2int : Int → Except Raised Int) (E : Engine) (string : Bytes)
        (begin end_ : Option Int) (w : World) (b e : Int),
      fix2int (begin.getD 0) = .ok b → fix2int (end_.getD string.length) = .ok e →
      (og_oniguruma_oregexp_match fix2int E string begin end_ w).region_new = 1 ∧
      (og_oniguruma_oregexp_match fix2int E string begin end_ w).region_free = 1 ∧
      (og_oniguruma_oregexp_match fix2int E string begin end_ w).result ≠ .timeout) ∧
    (og_oniguruma_oregexp_match rb_fix2int
        (failing_engine ONIG_ENCODING_ASCII false ONIGERR_MEMORY)
        [0x61, 0x62] none none World.init
      = { result := .raise (.onig_error ONIGERR_MEMORY), region_new := 1, region_free := 1 }) ∧
    (∀ (E : Engine) (w : World) (fuel : Nat) (t : Bytes) (block : Option Block) (g u : Bool)
        (str : RString),
      (og_oniguruma_oregexp_do_substitution_safe E t block g u str w fuel).region_new = 1 ∧
      ((og_oniguruma_oregexp_do_substitution_safe E t block g u str w fuel).result ≠ .timeout →
        (og_oniguruma_oregexp_do_substitution_safe E t block g u str w fuel).region_free = 1)) ∧
    (∀ (E : Engine) (w : World) (fuel : Nat) (block : Option Block) (str : RString),
      (og_oniguruma_oregexp_scan E block str w fuel).region_new = 1 ∧
      ((og_oniguruma_oregexp_scan E block str w fuel).result ≠ .timeout →
        (og_oniguruma_oregexp_scan E block str w fuel).region_free = 1)) ∧
    ((og_oniguruma_oregexp_do_substitution_safe
        (named_literal_engine ONIG_ENCODING_ASCII [0x62] [0x66, 0x6f, 0x6f]) []
        (some (fun _ _ _ => .raise (.block_raised 7))) true false
        { ptr := 0, bytes := [0x61, 0x62, 0x63, 0x62] } World.init 5).result
        = .raise (.block_raised 7) ∧
      (og_oniguruma_oregexp_do_substitution_safe
        (named_literal_engine ONIG_ENCODING_ASCII [0x62] [0x66, 0x6f, 0x6f]) []
        (some (fun _ _ _ => .raise (.block_raised 7))) true false
        { ptr := 0, bytes := [0x61, 0x62, 0x63, 0x62] } World.init 5).region_free = 1) ∧
    ((og_oniguruma_oregexp_do_substitution_safe
        (named_literal_engine ONIG_ENCODING_ASCII [0x62] [0x66, 0x6f, 0x6f]) []
        (some (fun _ s w => .ok { value := [0x2d],
                                  str := { ptr := s.ptr, bytes := s.bytes ++ [0x21] },
                                  world := w }))
        true false { ptr := 0, bytes := [0x61, 0x62, 0x63, 0x62] } World.init 5).result
        = .raise .string_modified ∧
      (og_oniguruma_oregexp_do_substitution_safe
        (named_literal_engine ONIG_ENCODING_ASCII [0x62] [0x66, 0x6f, 0x6f]) []
        (some (fun _ s w => .ok { value := [0x2d],
                                  str := { ptr := s.ptr, bytes := s.bytes ++ [0x21] },
                                  world := w }))
        true false { ptr := 0, bytes := [0x61, 0x62, 0x63, 0x62] } World.init 5).region_free
        = 1) ∧
    ((og_oniguruma_oregexp_scan
        (named_literal_engine ONIG_ENCODING_ASCII [0x62] [0x66, 0x6f, 0x6f])
        (some (fun _ _ _ => .raise (.block_raised 7)))
        { ptr := 0, bytes := [0x61, 0x62, 0x63, 0x62] } World.init 5).result
        = .raise (.block_raised 7) ∧
      (og_oniguruma_oregexp_scan
        (named_literal_engine ONIG_ENCODING_ASCII [0x62] [0x66, 0x6f, 0x6f])
        (some (fun _ _ _ => .raise (.block_raised 7)))
        { ptr := 0, bytes := [0x61, 0x62, 0x63, 0x62] } World.init 5).region_free = 1) := by
  refine ⟨by decide, by decide, ?_, ?_, by decide, ?_, ?_, by decide, by decide, by decide⟩
  · intro fix2int E string begin end_ w x h
    rw [match_of_unconverted fix2int E string begin end_ w x h]
    exact ⟨rfl, rfl, rfl⟩
  · intro fix2int E string begin end_ w b e hb he
    rw [match_of_converted fix2int E string begin end_ w b e hb he]
    exact match_after_search_releases_once E string b e w
  · intro E w fuel
    exact (ensured_entry_points_release_once E w fuel).1
  · intro E w fuel
    exact (ensured_entry_points_release_once E w fuel).2

/-! ## C21: construction and compile errors -/

theorem pos_of_single_bit (x k : Nat) (b : Bool)
    (h : ∀ j, x.testBit j = (b && decide (k = j))) : 0 < x ↔ b = true := by
  cases b with
  | false =>
    have hx : x = 0 := by
      apply Nat.eq_of_testBit_eq
      intro j
      rw [h j]
      simp
    simp [hx]
  | true =>
    have hk := h k
    simp only [Bool.true_and, decide_True] at hk
    constructor
    · intro _; rfl
    · intro _
      rcases Nat.eq_zero_or_pos x with h0 | h0
      · rw [h0] at hk; simp at hk
      · exact h0

/-- The C test `(options & mask) > 0` against a one-bit mask reads that bit of the
two's-complement `options`. -/
theorem land_two_pow_pos (o : Int) (k : Nat) :
    0 < Int.land o ((2 ^ k : Nat) : Int) ↔ Int.testBit o k = true := by
  cases o with
  | ofNat n =>
    have e : Int.land (Int.ofNat n) ((2 ^ k : Nat) : Int) = ((n &&& 2 ^ k : Nat) : Int) := rfl
    rw [e]
    have := pos_of_single_bit (n &&& 2 ^ k) k (n.testBit k) (by
      intro j
      rw [Nat.testBit_and, Nat.testBit_two_pow]
      by_cases hkj : k = j
      · subst hkj; rfl
      · simp [hkj])
    simp only [Int.testBit]
    rw [← this]
    omega
  | negSucc n =>
    have e : Int.land (Int.negSucc n) ((2 ^ k : Nat) : Int)
        = ((Nat.ldiff (2 ^ k) n : Nat) : Int) := rfl
    rw [e]
    have := pos_of_single_bit (Nat.ldiff (2 ^ k) n) k (!n.testBit k) (by
      intro j
      rw [Nat.testBit_ldiff, Nat.testBit_two_pow, Bool.and_comm]
      by_cases hkj : k = j
      · subst hkj; rfl
      · simp [hkj])
    simp only [Int.testBit]
    rw [← this]
    omega

theorem land_nat_nonneg (o : Int) (m : Nat) : 0 ≤ Int.land o (m : Int) := by
  cases o <;> simp [Int.land]

/-- The three flag tests of the binding read the bits 0, 2 and 1 of the options. -/
theorem flag_tests (o : Int) :
    (0 < Int.land (FIX2INT o) (FIX2INT OPTION_IGNORECASE) ↔ Int.testBit o 0 = true) ∧
    (0 < Int.land (FIX2INT o) (FIX2INT OPTION_MULTILINE) ↔ Int.testBit o 2 = true) ∧
    (0 < Int.land (FIX2INT o) (FIX2INT OPTION_EXTEND) ↔ Int.testBit o 1 = true) :=
  ⟨land_two_pow_pos o 0, land_two_pow_pos o 2, land_two_pow_pos o 1⟩

theorem rb_str_cmp_eq_zero : ∀ a b : Bytes, rb_str_cmp a b = 0 ↔ a = b := by
  intro a
  induction a with
  | nil =>
    intro b
    cases b with
    | nil => simp [rb_str_cmp]
    | cons y ys => simp [rb_str_cmp]
  | cons x xs ih =>
    intro b
    cases b with
    | nil => simp [rb_str_cmp]
    | cons y ys =>
      unfold rb_str_cmp
      by_cases h1 : x < y
      · rw [if_pos h1]
        constructor
        · intro h; omega
        · intro h; cases h; omega
      · rw [if_neg h1]
        by_cases h2 : y < x
        · rw [if_pos h2]
          constructor
          · intro h; omega
          · intro h; cases h; omega
        · rw [if_neg h2]
          have hxy : x = y := by omega
          subst hxy
          rw [ih ys]
          simp

theorem casefold_bit (self : ORegexp) :
    og_oniguruma_oregexp_casefold self = Int.testBit self.options 0 := by
  unfold og_oniguruma_oregexp_casefold
  dsimp only
  have h := (flag_tests self.options).1
  cases hb : Int.testBit self.options 0 with
  | true => exact decide_eq_true (h.mpr hb)
  | false =>
    apply decide_eq_false
    intro hp
    rw [h.mp hp] at hb
    cases hb

/-- C22: two pattern handles are equal exactly when their sources are byte-equal, their
encodings are equal and their case-insensitivity flags (`casefold?`, bit 0 of the
options) agree. Nothing else is compared: handles that agree on these three compare
as equal whatever their other option bits, their syntax and their compiled pattern.
So two handles of the same source, encoding and case-insensitivity bit whose options
differ in the multiline bit (bit 2) only compare equal. -/
theorem equality_compares_source_encoding_casefold (self rhs : ORegexp) :
    (og_oniguruma_oregexp_operator_equality self rhs = true
      ↔ self.pattern = rhs.pattern ∧ self.encoding = rhs.encoding ∧
        Int.testBit self.options 0 = Int.testBit rhs.options 0) ∧
    (og_oniguruma_oregexp_casefold self = Int.testBit self.options 0) ∧
    (self.pattern = rhs.pattern → self.encoding = rhs.encoding →
      (∀ k : Nat, k ≠ 2 → Int.testBit self.options k = Int.testBit rhs.options k) →
      og_oniguruma_oregexp_operator_equality self rhs = true) ∧
    (∀ (o1 o2 s1 s2 : Int) (r1 r2 : Engine),
      Int.testBit o1 0 = Int.testBit self.options 0 →
      Int.testBit o2 0 = Int.testBit rhs.options 0 →
      og_oniguruma_oregexp_operator_equality
          { self with options := o1, syntax_value := s1, reg := r1 }
          { rhs with options := o2, syntax_value := s2, reg := r2 }
        = og_oniguruma_oregexp_operator_equality self rhs) := by
  have key : ∀ a b : ORegexp, og_oniguruma_oregexp_operator_equality a b
      = (decide (a.pattern = b.pattern) && decide (a.encoding = b.encoding) &&
          (Int.testBit a.options 0 == Int.testBit b.options 0)) := by
    intro a b
    unfold og_oniguruma_oregexp_operator_equality FIX2INT
    rw [casefold_bit a, casefold_bit b]
    congr 2
    exact decide_eq_decide.mpr (rb_str_cmp_eq_zero _ _)
  refine ⟨?_, casefold_bit self, ?_, ?_⟩
  · rw [key]
    simp [Bool.and_eq_true, and_assoc]
  · intro hp he hbits
    rw [key]
    simp [hp, he, hbits 0 (by decide)]
  · intro o1 o2 s1 s2 r1 r2 h1 h2
    rw [key, key]
    simp only [h1, h2]

/-- C22 at concrete inputs: the handles of `ab` in ASCII with the options `IGNORECASE`
and `IGNORECASE | MULTILINE`, and different syntaxes, compare equal; with `IGNORECASE`
and no option they do not. -/
theorem equality_compares_source_encoding_casefold_witness :
    og_oniguruma_oregexp_operator_equality
        { pattern := [0x61, 0x62], options := 1, encoding := 1, syntax_value := 0,
          reg := empty_pattern_engine ONIG_ENCODING_ASCII }
        { pattern := [0x61, 0x62], options := 5, encoding := 1, syntax_value := 6,
          reg := empty_pattern_engine ONIG_ENCODING_ASCII } = true ∧
    og_oniguruma_oregexp_operator_equality
        { pattern := [0x61, 0x62], options := 1, encoding := 1, syntax_value := 0,
          reg := empty_pattern_engine ONIG_ENCODING_ASCII }
        { pattern := [0x61, 0x62], options := 0, encoding := 1, syntax_value := 0,
          reg := empty_pattern_engine ONIG_ENCODING_ASCII } = false :=
  ⟨((equality_compares_source_encoding_casefold
      { pattern := [0x61, 0x62], options := 1, encoding := 1, syntax_value := 0,
        reg := empty_pattern_engine ONIG_ENCODING_ASCII }
      { pattern := [0x61, 0x62], options := 5, encoding := 1, syntax_value := 6,
        reg := empty_pattern_engine ONIG_ENCODING_ASCII }).1).mpr ⟨rfl, rfl, by decide⟩,
    by decide⟩

/-! ## C23 and C24: the option shortcuts of the compact form -/

theorem resolve_shortcuts_fold (T : List (Bytes × Nat)) :
    ∀ (opt : Bytes) (acc : Nat),
      resolve_shortcuts T opt acc
        = (opt.filterMap (fun b => rb_hash_aref T [b])).foldl (fun a v => a ||| v) acc := by
  intro opt
  induction opt with
  | nil => intro acc; rfl
  | cons b rest ih =>
    intro acc
    unfold resolve_shortcuts
    cases h : rb_hash_aref T [b] with
    | none => simp [List.filterMap_cons, h, ih]
    | some v => simp [List.filterMap_cons, h, ih]

theorem resolve_shortcuts_testBit (T : List (Bytes × Nat)) (k : Nat) :
    ∀ (opt : Bytes) (acc : Nat),
      (resolve_shortcuts T opt acc).testBit k
        = (acc.testBit k || opt.any (fun b =>
            match rb_hash_aref T [b] with
            | some v => v.testBit k
            | none => false)) := by
  intro opt
  induction opt with
  | nil => intro acc; simp [resolve_shortcuts]
  | cons b rest ih =>
    intro acc
    unfold resolve_shortcuts
    cases h : rb_hash_aref T [b] with
    | none => simp [ih, h]
    | some v => simp [ih, h, Nat.testBit_or, Bool.or_assoc]

theorem any_congr_mem {α : Type} (p : α → Bool) (l1 l2 : List α)
    (h : ∀ a, a ∈ l1 ↔ a ∈ l2) : l1.any p = l2.any p := by
  rw [Bool.eq_iff_iff, List.any_eq_true, List.any_eq_true]
  constructor
  · rintro ⟨a, ha, hp⟩; exact ⟨a, (h a).mp ha, hp⟩
  · rintro ⟨a, ha, hp⟩; exact ⟨a, (h a).mpr ha, hp⟩

theorem rb_hash_aref_mem (T : List (Bytes × Nat)) (key : Bytes) (v : Nat)
    (h : rb_hash_aref T key = some v) : (key, v) ∈ T := by
  unfold rb_hash_aref at h
  cases hf : T.find? (fun kv => decide (kv.1 = key)) with
  | none => rw [hf] at h; cases h
  | some kv =>
    rw [hf] at h
    simp only [Option.map_some', Option.some.injEq] at h
    have hm := List.mem_of_find?_eq_some hf
    have hk := List.find?_some hf
    simp only [decide_eq_true_eq] at hk
    rw [← hk, ← h]
    exact hm

/-- C23: in the compact form of the constructor the resolved option bitmask is the
bitwise OR of the values `OPT_SHORTCUTS` gives for the bytes of the option string it
knows; a byte it does not know adds nothing, and nothing is raised. The bitmask
depends only on which bytes occur in the string, not on their order or number: `"ix"`,
`"xi"` and `"iix?"` resolve to 3 and the empty string to 0. -/
theorem shortcut_bitmask_is_or (opt : Bytes) (enc syn : Option Bytes) :
    (resolved (.compact opt enc syn)).options
      = ((resolve_shortcuts OPT_SHORTCUTS opt 0 : Nat) : Int) ∧
    resolve_shortcuts OPT_SHORTCUTS opt 0
      = (opt.filterMap (fun b => rb_hash_aref OPT_SHORTCUTS [b])).foldl
          (fun a v => a ||| v) 0 ∧
    (∀ b : Nat, rb_hash_aref OPT_SHORTCUTS [b] = none →
      ∀ pre post : Bytes, resolve_shortcuts OPT_SHORTCUTS (pre ++ b :: post) 0
        = resolve_shortcuts OPT_SHORTCUTS (pre ++ post) 0) ∧
    (∀ opt2 : Bytes, (∀ b, b ∈ opt ↔ b ∈ opt2) →
      resolve_shortcuts OPT_SHORTCUTS opt 0 = resolve_shortcuts OPT_SHORTCUTS opt2 0) ∧
    resolve_shortcuts OPT_SHORTCUTS (ascii "ix") 0 = 3 ∧
    resolve_shortcuts OPT_SHORTCUTS (ascii "xi") 0 = 3 ∧
    resolve_shortcuts OPT_SHORTCUTS (ascii "iix?") 0 = 3 ∧
    resolve_shortcuts OPT_SHORTCUTS (ascii "") 0 = 0 := by
  refine ⟨?_, resolve_shortcuts_fold _ _ _, ?_, ?_, by decide, by decide, by decide, by decide⟩
  · unfold resolved initialize_options og_oniguruma_oregexp_options_parse
    cases enc <;> cases syn <;> dsimp only <;> split_ifs <;> rfl
  · intro b hb pre post
    rw [resolve_shortcuts_fold, resolve_shortcuts_fold]
    simp [List.filterMap_append, List.filterMap_cons, hb]
  · intro opt2 hmem
    apply Nat.eq_of_testBit_eq
    intro k
    rw [resolve_shortcuts_testBit, resolve_shortcuts_testBit, any_congr_mem _ opt opt2 hmem]

/-- C24: the shortcut `E` is registered twice, and the hash keeps one entry for it, with
the value registered last. So the table has ten keys, `E` resolves to `OPTION_NOTEOL`
(1024) alone, no key resolves to `OPTION_FIND_NOT_EMPTY` (32), and no option string
sets that bit. -/
theorem shortcut_E_is_not_end_of_line :
    OPT_SHORTCUTS
      = [(ascii "i", 1), (ascii "x", 2), (ascii "m", 4), (ascii "s", 8), (ascii "l", 16),
         (ascii "E", 1024), (ascii "S", 64), (ascii "G", 128), (ascii "g", 256),
         (ascii "B", 512)] ∧
    rb_hash_aref OPT_SHORTCUTS (ascii "E") = some OPTION_NOTEOL ∧
    resolve_shortcuts OPT_SHORTCUTS (ascii "E") 0 = 1024 ∧
    (resolved (.compact (ascii "E") none none)).options = 1024 ∧
    (∀ key : Bytes, rb_hash_aref OPT_SHORTCUTS key ≠ some OPTION_FIND_NOT_EMPTY) ∧
    (∀ opt : Bytes, (resolve_shortcuts OPT_SHORTCUTS opt 0).testBit 5 = false ∧
      resolve_shortcuts OPT_SHORTCUTS opt 0 &&& OPTION_FIND_NOT_EMPTY = 0) := by
  have hval : ∀ kv ∈ OPT_SHORTCUTS, kv.2 ≠ OPTION_FIND_NOT_EMPTY ∧ kv.2.testBit 5 = false := by
    decide
  have hbit : ∀ opt : Bytes, (resolve_shortcuts OPT_SHORTCUTS opt 0).testBit 5 = false := by
    intro opt
    rw [resolve_shortcuts_testBit]
    simp only [Nat.zero_testBit, Bool.false_or]
    rw [Bool.eq_false_iff]
    intro hany
    rw [List.any_eq_true] at hany
    obtain ⟨b, _, hb⟩ := hany
    cases h : rb_hash_aref OPT_SHORTCUTS [b] with
    | none => rw [h] at hb; cases hb
    | some v =>
      rw [h] at hb
      have := (hval _ (rb_hash_aref_mem _ _ _ h)).2
      simp only at hb this
      rw [this] at hb
      cases hb
  refine ⟨by decide, by decide, by decide, by decide, ?_, ?_⟩
  · intro key h
    exact (hval _ (rb_hash_aref_mem _ _ _ h)).1 rfl
  · intro opt
    refine ⟨hbit opt, ?_⟩
    apply Nat.eq_of_testBit_eq
    intro j
    rw [Nat.testBit_and, Nat.zero_testBit]
    by_cases hj : j = 5
    · subst hj
      rw [hbit opt]
      rfl
    · have : OPTION_FIND_NOT_EMPTY.testBit j = false := by
        show (2 ^ 5).testBit j = false
        exact Nat.testBit_two_pow_of_ne (fun h => hj h.symm)
      rw [this]
      simp

/-! ## C25: the structured form of the constructor -/

theorem upper_eq_upcase : ∀ s : Bytes, (∀ c ∈ s, c ≠ 0) →
    og_oniguruma_oregexp_upper s = upcase s := by
  intro s
  induction s with
  | nil => intro _; rfl
  | cons c rest ih =>
    intro h
    unfold og_oniguruma_oregexp_upper
    rw [if_neg (h c (by simp)), ih (fun x hx => h x (by simp [hx]))]
    rfl

theorem c_string_no_nul (s : Bytes) : ∀ c ∈ c_string s, c ≠ 0 := by
  intro c hc
  unfold c_string at hc
  have := List.mem_takeWhile_imp hc
  simpa using this

theorem c_string_of_no_nul (s : Bytes) (h : ∀ c ∈ s, c ≠ 0) : c_string s = s := by
  unfold c_string
  rw [List.takeWhile_eq_self_iff]
  intro c hc
  simpa using h c hc

/-- The name the constructor looks up for a given name and kind: the kind, then the
upper-cased C string of the name. -/
theorem upper_of_name (kind : String) (name : Bytes) (hk : ∀ c ∈ ascii kind, c ≠ 0) :
    og_oniguruma_oregexp_upper (ascii kind ++ c_string name)
      = upcase (ascii kind) ++ upcase (c_string name) := by
  rw [upper_eq_upcase]
  · unfold upcase
    rw [List.map_append]
  · intro c hc
    rcases List.mem_append.mp hc with h | h
    · exact hk c h
    · exact c_string_no_nul name c h

/-- The options hash the compact form builds: the bitmask of the shortcuts, and for each
name given the constant of that kind named by the upper-cased C string of the name,
when there is one. -/
theorem initialize_options_compact (opt : Bytes) (enc syn : Option Bytes) :
    initialize_options (.compact opt enc syn)
      = { options := some ((resolve_shortcuts OPT_SHORTCUTS opt 0 : Nat) : Int)
          encoding := enc.bind (fun name =>
            (rb_const_get (ascii "ENCODING_" ++ upcase (c_string name))).map Int.ofNat)
          syntax_value := syn.bind (fun name =>
            (rb_const_get (ascii "SYNTAX_" ++ upcase (c_string name))).map Int.ofNat) } := by
  have he : ∀ name : Bytes, og_oniguruma_oregexp_upper (ascii "ENCODING_" ++ c_string name)
      = ascii "ENCODING_" ++ upcase (c_string name) := by
    intro name
    rw [upper_of_name "ENCODING_" name (by decide)]
    rfl
  have hs : ∀ name : Bytes, og_oniguruma_oregexp_upper (ascii "SYNTAX_" ++ c_string name)
      = ascii "SYNTAX_" ++ upcase (c_string name) := by
    intro name
    rw [upper_of_name "SYNTAX_" name (by decide)]
    rfl
  unfold initialize_options rb_const_defined
  cases enc with
  | none =>
    cases syn with
    | none => rfl
    | some sname =>
      dsimp only [Option.bind]
      rw [hs]
      generalize rb_const_get (ascii "SYNTAX_" ++ upcase (c_string sname)) = rs
      cases rs <;> rfl
  | some ename =>
    cases syn with
    | none =>
      dsimp only [Option.bind]
      rw [he]
      generalize rb_const_get (ascii "ENCODING_" ++ upcase (c_string ename)) = re
      cases re <;> rfl
    | some sname =>
      dsimp only [Option.bind]
      rw [he, hs]
      generalize rb_const_get (ascii "ENCODING_" ++ upcase (c_string ename)) = re
      generalize rb_const_get (ascii "SYNTAX_" ++ upcase (c_string sname)) = rs
      cases re <;> cases rs <;> rfl

/-- C26, as stated, fails for a name that holds a NUL byte: the encoding name `utf8`
followed by a NUL byte and `z`, upper-cased, gives `ENCODING_UTF8\0Z`, which is no
constant of the module, and yet the encoding resolved is `ENCODING_UTF8` (17), not the
default 1; likewise the syntax name `java` followed by a NUL byte resolves to
`SYNTAX_JAVA` (6). -/
theorem name_is_cut_at_nul :
    rb_const_defined (ascii "ENCODING_" ++ upcase (ascii "utf8" ++ [0, 0x7a])) = false ∧
    (resolved (.compact [] (some (ascii "utf8" ++ [0, 0x7a])) none)).encoding = 17 ∧
    rb_const_defined (ascii "SYNTAX_" ++ upcase (ascii "java" ++ [0])) = false ∧
    (resolved (.compact [] none (some (ascii "java" ++ [0])))).syntax_value = 6 := by
  decide

/-- C26, amended: in the compact form of the constructor an encoding or syntax name is
read as a C string, up to its first NUL byte; this part is upper-cased (the letters
`a`-`z` only, every other byte unchanged) and looked up as `ENCODING_<NAME>` or
`SYNTAX_<NAME>` among the constants of the module. When the constant is defined its
value is resolved; when it is not, or when no name is given, nothing is raised and the
default stays in force: `ENCODING_ASCII` (1), `SYNTAX_DEFAULT` (0). A name without a
NUL byte is read whole. So `utf8` resolves to 17 and `java` to 6 in any letter case,
and two names whose upper-cased C strings are equal resolve alike. -/
theorem names_are_looked_up_as_c_strings (opt : Bytes) (enc syn : Option Bytes) :
    (∀ name, enc = some name →
      (resolved (.compact opt enc syn)).encoding
        = (((rb_const_get (ascii "ENCODING_" ++ upcase (c_string name))).getD ENCODING_ASCII
            : Nat) : Int)) ∧
    (∀ name, syn = some name →
      (resolved (.compact opt enc syn)).syntax_value
        = (((rb_const_get (ascii "SYNTAX_" ++ upcase (c_string name))).getD SYNTAX_DEFAULT
            : Nat) : Int)) ∧
    (enc = none → (resolved (.compact opt enc syn)).encoding = 1) ∧
    (syn = none → (resolved (.compact opt enc syn)).syntax_value = 0) ∧
    (∀ name : Bytes, (∀ c ∈ name, c ≠ 0) → c_string name = name) ∧
    (∀ cased ∈ [ascii "utf8", ascii "UTF8", ascii "Utf8", ascii "uTf8"],
      (resolved (.compact opt (some cased) syn)).encoding = 17) ∧
    (∀ cased ∈ [ascii "java", ascii "JAVA", ascii "Java", ascii "jaVA"],
      (resolved (.compact opt enc (some cased))).syntax_value = 6) ∧
    (resolved (.compact opt (some (ascii "nosuch")) (some (ascii "utf-8")))).encoding = 1 ∧
    (resolved (.compact opt (some (ascii "nosuch")) (some (ascii "utf-8")))).syntax_value
      = 0 := by
  have henc : ∀ (s : Option Bytes) (name : Bytes),
      (resolved (.compact opt (some name) s)).encoding
      = (((rb_const_get (ascii "ENCODING_" ++ upcase (c_string name))).getD ENCODING_ASCII
          : Nat) : Int) := by
    intro s name
    unfold resolved og_oniguruma_oregexp_options_parse
    rw [initialize_options_compact]
    dsimp only [Option.bind]
    cases rb_const_get (ascii "ENCODING_" ++ upcase (c_string name)) <;> rfl
  have hsyn : ∀ (e : Option Bytes) (name : Bytes),
      (resolved (.compact opt e (some name))).syntax_value
      = (((rb_const_get (ascii "SYNTAX_" ++ upcase (c_string name))).getD SYNTAX_DEFAULT
          : Nat) : Int) := by
    intro e name
    unfold resolved og_oniguruma_oregexp_options_parse
    rw [initialize_options_compact]
    dsimp only [Option.bind]
    cases rb_const_get (ascii "SYNTAX_" ++ upcase (c_string name)) <;> rfl
  refine ⟨?_, ?_, ?_, ?_, c_string_of_no_nul, ?_, ?_, ?_, ?_⟩
  · intro name h
    subst h
    exact henc syn name
  · intro name h
    subst h
    exact hsyn enc name
  · intro h
    subst h
    unfold resolved og_oniguruma_oregexp_options_parse
    rw [initialize_options_compact]
    rfl
  · intro h
    subst h
    unfold resolved og_oniguruma_oregexp_options_parse
    rw [initialize_options_compact]
    rfl
  · intro cased hc
    rw [henc]
    simp only [List.mem_cons, List.mem_singleton, List.not_mem_nil, or_false] at hc
    rcases hc with h | h | h | h <;> subst h <;> decide
  · intro cased hc
    rw [hsyn]
    simp only [List.mem_cons, List.mem_singleton, List.not_mem_nil, or_false] at hc
    rcases hc with h | h | h | h <;> subst h <;> decide
  · rw [henc]
    decide
  · rw [hsyn]
    decide

/-! ## C29: the rendering of a handle -/

theorem to_s_eq_rendering (self : ORegexp) :
    og_oniguruma_oregexp_to_s self = rendering self.options self.pattern := by
  obtain ⟨hi, hm, hx⟩ := flag_tests self.options
  have zi : Int.land (FIX2INT self.options) (FIX2INT OPTION_IGNORECASE) = 0
      ↔ Int.testBit self.options 0 = false := by
    have := land_nat_nonneg self.options OPTION_IGNORECASE
    unfold FIX2INT at hi ⊢
    rw [← Bool.not_eq_true, ← hi]
    omega
  have zm : Int.land (FIX2INT self.options) (FIX2INT OPTION_MULTILINE) = 0
      ↔ Int.testBit self.options 2 = false := by
    have := land_nat_nonneg self.options OPTION_MULTILINE
    unfold FIX2INT at hm ⊢
    rw [← Bool.not_eq_true, ← hm]
    omega
  have zx : Int.land (FIX2INT self.options) (FIX2INT OPTION_EXTEND) = 0
      ↔ Int.testBit self.options 1 = false := by
    have := land_nat_nonneg self.options OPTION_EXTEND
    unfold FIX2INT at hx ⊢
    rw [← Bool.not_eq_true, ← hx]
    omega
  have e1 : ascii "(?" = [0x28, 0x3f] := by decide
  have e2 : ascii "i" = [0x69] := by decide
  have e3 : ascii "m" = [0x6d] := by decide
  have e4 : ascii "x" = [0x78] := by decide
  have e5 : ascii "-" = [0x2d] := by decide
  have e6 : ascii ":" = [0x3a] := by decide
  have e7 : ascii ")" = [0x29] := by decide
  have e8 : ascii "(?imx" = [0x28, 0x3f, 0x69, 0x6d, 0x78] := by decide
  unfold og_oniguruma_oregexp_to_s rendering
  simp only [gt_iff_lt, hi, hm, hx, zi, zm, zx, rb_str_cmp_eq_zero, ne_eq, e1, e2, e3, e4, e5,
    e6, e7, e8]
  cases h0 : Int.testBit self.options 0 <;> cases h2 : Int.testBit self.options 2 <;>
    cases h1 : Int.testBit self.options 1 <;> simp [List.filter, h0, h1, h2]

/-- C29: `to_s` renders a handle as `(?`, then the letters of the flags that are set
among `i` (ignore-case, bit 0), `m` (multiline, bit 2) and `x` (extend, bit 1) in this
order, then, unless all three are set, `-` and the letters of the flags that are not
set, in the same order, then `:`, the source and `)`. In the flag part each of the
letters `i`, `m` and `x` occurs exactly once and nothing else occurs but `-`. Only the
three bits matter: two handles of the same source whose options agree on them render
alike. The source `ab+c` with `IGNORECASE | EXTEND` renders as `(?ix-m:ab+c)`. -/
theorem to_s_renders_flags (self : ORegexp) :
    og_oniguruma_oregexp_to_s self = rendering self.options self.pattern ∧
    (∃ flags : Bytes,
      og_oniguruma_oregexp_to_s self
        = ascii "(?" ++ flags ++ ascii ":" ++ self.pattern ++ ascii ")" ∧
      flags.count 0x69 = 1 ∧ flags.count 0x6d = 1 ∧ flags.count 0x78 = 1 ∧
      ∀ c ∈ flags, c = 0x69 ∨ c = 0x6d ∨ c = 0x78 ∨ c = 0x2d) ∧
    (∀ other : ORegexp, other.pattern = self.pattern →
      Int.testBit other.options 0 = Int.testBit self.options 0 →
      Int.testBit other.options 1 = Int.testBit self.options 1 →
      Int.testBit other.options 2 = Int.testBit self.options 2 →
      og_oniguruma_oregexp_to_s other = og_oniguruma_oregexp_to_s self) ∧
    og_oniguruma_oregexp_to_s
        { pattern := ascii "ab+c", options := ((OPTION_IGNORECASE ||| OPTION_EXTEND : Nat) : Int),
          encoding := 1, syntax_value := 0, reg := empty_pattern_engine ONIG_ENCODING_ASCII }
      = ascii "(?ix-m:ab+c)" := by
  refine ⟨to_s_eq_rendering self, ?_, ?_, by decide⟩
  · rw [to_s_eq_rendering]
    unfold rendering
    refine ⟨_, rfl, ?_⟩
    have e5 : ascii "-" = [0x2d] := by decide
    rw [e5]
    cases h0 : Int.testBit self.options 0 <;> cases h2 : Int.testBit self.options 2 <;>
      cases h1 : Int.testBit self.options 1 <;> simp [List.filter, h0, h1, h2]
  · intro other hp h0 h1 h2
    rw [to_s_eq_rendering, to_s_eq_rendering, hp]
    unfold rendering
    simp only [List.filter, h0, h1, h2]

/-! ## C31: replacing every match by itself -/

/-- The template `\&` emits the text of the match. -/
theorem whole_match_chunk (E : Engine) (S : Bytes) (region : OnigRegion) (b e : Int)
    (hasc : E.encoding.ascii_compatible)
    (hb : region_at region.beg 0 = .ok b) (he : region_at region.end_ 0 = .ok e)
    (h0 : 0 ≤ b) (hbe : b ≤ e) (hel : e ≤ S.length) :
    replacement_chunk E S [0x5c, 0x26] region = .ok (slice S b e) := by
  unfold replacement_chunk og_oniguruma_oregexp_do_replacement
  rw [show ([0x5c, 0x26] : Bytes).length = 1 + 1 from rfl,
    loop_at_escape_char E S [0x5c, 0x26] region 1 0 [] 0x26 [] hasc rfl (by decide) (by decide)]
  unfold escape_char
  simp only [show ¬ ((0x26 : Nat) = 0x5c) by decide, if_false, if_true, hb, he, Res.bind_ok,
    rb_str_buf_cat_slice [] S b e h0 hbe hel, Res.pure_eq]
  rw [loop_done _ _ _ _ _ _ _ (by decide)]
  rfl

/-- The template `\0` emits the text of the match, group 0 being a group of the
region. -/
theorem group_zero_chunk (E : Engine) (S : Bytes) (region : OnigRegion) (b e : Int)
    (hasc : E.encoding.ascii_compatible) (hn : 0 < region.num_regs)
    (hb : region_at region.beg 0 = .ok b) (he : region_at region.end_ 0 = .ok e)
    (h0 : 0 ≤ b) (hbe : b ≤ e) (hel : e ≤ S.length) :
    replacement_chunk E S [0x5c, 0x30] region = .ok (slice S b e) := by
  unfold replacement_chunk og_oniguruma_oregexp_do_replacement
  rw [show ([0x5c, 0x30] : Bytes).length = 1 + 1 from rfl,
    loop_at_backslash E S [0x5c, 0x30] region 1 0 [] 0x30 [] hasc rfl,
    do_escape_one_digit E S [0x5c, 0x30] region (0 + 1) 0x5c 1 [] 0x30 [] hasc rfl (by decide)
      (Or.inl rfl)]
  unfold escape_group cat_group
  simp only [show ((0x30 - 0x30 : Nat) : Int) = 0 from rfl, hn, if_true, hb, he, Res.bind_ok,
    h0, rb_str_buf_cat_slice [] S b e h0 hbe hel, Res.pure_eq]
  rw [loop_done _ _ _ _ _ _ _ (by decide)]
  rfl

/-- When the replacement chunk of every match is the text of the match, the
substitution loop, single or global, keeps the buffer followed by the rest of the
subject what it was. -/
theorem substitution_loop_identity (E : Engine) (S t : Bytes) (g u : Bool) (ptr : Nat)
    (hB : E.in_bounds S) (hW : E.whole_chars S)
    (hR : ∀ start : Int, E.searched S start → 0 ≤ start → start ≤ S.length →
      0 ≤ (E.search S start S.length).1 →
      ∀ b e : Int, region_at (E.search S start S.length).2.beg 0 = .ok b →
        region_at (E.search S start S.length).2.end_ 0 = .ok e →
        replacement_chunk E S t (E.search S start S.length).2 = .ok (slice S b e)) :
    ∀ (fuel : Nat) (st : SubstLoop),
      st.subj = S → 0 ≤ st.end_ → st.end_ ≤ S.length →
      E.searched S st.end_ →
      0 ≤ (E.search S st.end_ S.length).1 →
      ((S.length : Int) - st.end_).toNat < fuel →
      ∃ st1,
        substitution_loop E { replacement := t, block := none, global := g, update_self := u }
          ptr S.length fuel (E.search S st.end_ S.length).2 st = .ok st1 ∧
        st1.subj = S ∧ 0 ≤ st1.end_ ∧ st1.end_ ≤ S.length ∧
        st1.buffer ++ slice S st1.end_ S.length
          = st.buffer ++ slice S st.end_ S.length := by
  intro fuel
  induction fuel with
  | zero => intro st _ _ _ _ _ hf; omega
  | succ fuel ih =>
    intro st hS h0 h2 hsd hm hf
    obtain ⟨buffer, end_, subj, world, visited⟩ := st
    simp only at hS h0 h2 hsd hm hf
    subst hS
    obtain ⟨b, e, hb, he, hsb, hbe, hel⟩ := hB end_ h0 h2 hm
    have hRr := hR end_ hsd h0 h2 hm b e hb he
    have hcat : rb_str_buf_cat buffer subj end_ (b - end_) = .ok (buffer ++ slice subj end_ b) :=
      rb_str_buf_cat_slice buffer subj end_ b h0 hsb (by omega)
    have hkeep : buffer ++ slice subj end_ b ++ slice subj b e ++ slice subj e subj.length
        = buffer ++ slice subj end_ subj.length := by
      rw [List.append_assoc, List.append_assoc, slice_append subj b e subj.length (by omega) hbe hel,
        slice_append subj end_ b subj.length h0 hsb (by omega)]
    unfold substitution_loop
    simp only [hb, he, hcat, Res.bind_ok,
      substitution_chunk_template E t g u ptr _ _ _ subj (slice subj b e) world hRr]
    by_cases hg : g = false
    · rw [if_pos hg]
      exact ⟨_, rfl, rfl, by dsimp only; omega, hel, hkeep⟩
    · rw [if_neg hg]
      by_cases hz : b = e
      · subst hz
        rw [if_pos rfl]
        by_cases hend : (subj.length : Int) ≤ b
        · rw [if_pos hend]
          exact ⟨_, rfl, rfl, by dsimp only; omega, hel, hkeep⟩
        · rw [if_neg hend, if_neg (by omega : ¬ b < 0)]
          obtain ⟨hw1, hw2⟩ := hW end_ hsd h0 h2 hm b hb he (by omega)
          rw [rb_str_buf_cat_width _ subj b _ (by omega) (by omega) hw2]
          simp only [Res.bind_ok]
          have hkeep2 : buffer ++ slice subj end_ b ++ slice subj b b
              ++ slice subj b (b + (E.encoding.mbc_enc_len (subj.drop b.toNat) : Int))
              ++ slice subj (b + (E.encoding.mbc_enc_len (subj.drop b.toNat) : Int)) subj.length
              = buffer ++ slice subj end_ subj.length := by
            rw [← hkeep, List.append_assoc _ _ (slice subj _ subj.length),
              slice_append subj b _ subj.length (by omega) (by omega) hw2]
          by_cases hnext : 0 ≤ (E.search subj
              (b + (E.encoding.mbc_enc_len (subj.drop b.toNat) : Int)) subj.length).1
          · rw [if_pos hnext]
            obtain ⟨st1, hrun, hs1, he0, he1, hfin⟩ :=
              ih { buffer := buffer ++ slice subj end_ b ++ slice subj b b
                      ++ slice subj b (b + (E.encoding.mbc_enc_len (subj.drop b.toNat) : Int))
                   end_ := b + (E.encoding.mbc_enc_len (subj.drop b.toNat) : Int)
                   subj := subj, world := world
                   visited := visited ++ [(E.search subj end_ subj.length).2] }
                rfl (by dsimp only; omega) hw2
                (Engine.searched.after_empty end_ b hsd hm hb he (by omega))
                hnext (by dsimp only; omega)
            exact ⟨st1, hrun, hs1, he0, he1, hfin.trans hkeep2⟩
          · rw [if_neg hnext]
            exact ⟨_, rfl, rfl, by dsimp only; omega, hw2, hkeep2⟩
      · rw [if_neg hz]
        by_cases hnext : 0 ≤ (E.search subj e subj.length).1
        · rw [if_pos hnext]
          obtain ⟨st1, hrun, hs1, he0, he1, hfin⟩ :=
            ih { buffer := buffer ++ slice subj end_ b ++ slice subj b e, end_ := e,
                 subj := subj, world := world
                 visited := visited ++ [(E.search subj end_ subj.length).2] }
              rfl (by dsimp only; omega) hel
              (Engine.searched.after end_ b e hsd hm hb he hz)
              hnext (by dsimp only; omega)
          exact ⟨st1, hrun, hs1, he0, he1, hfin.trans hkeep⟩
        · rw [if_neg hnext]
          exact ⟨_, rfl, rfl, by dsimp only; omega, hel, hkeep⟩

/-- When the replacement chunk of every match is the text of the match, `sub` and `gsub`
return a new string equal to the subject. -/
theorem substitution_identity (E : Engine) (S t : Bytes) (g : Bool) (ptr : Nat) (w : World)
    (fuel : Nat) (hB : E.in_bounds S) (hW : E.whole_chars S)
    (hR : ∀ start : Int, E.searched S start → 0 ≤ start → start ≤ S.length →
      0 ≤ (E.search S start S.length).1 →
      ∀ b e : Int, region_at (E.search S start S.length).2.beg 0 = .ok b →
        region_at (E.search S start S.length).2.end_ 0 = .ok e →
        replacement_chunk E S t (E.search S start S.length).2 = .ok (slice S b e))
    (hf : S.length < fuel) :
    ∃ out, (og_oniguruma_oregexp_do_substitution_safe E t none g false
        { ptr := ptr, bytes := S } w fuel).result = .ok out ∧
      out.value = .fresh S := by
  unfold og_oniguruma_oregexp_do_substitution_safe og_oniguruma_oregexp_do_substitution
  dsimp only
  by_cases h0 : (E.search S 0 S.length).1 < 0
  · rw [if_pos h0]
    simp only [Bool.false_eq_true, if_false]
    exact ⟨_, rfl, rfl⟩
  · rw [if_neg h0]
    obtain ⟨st1, hrun, hs1, he0, he1, hfin⟩ := substitution_loop_identity E S t g false ptr hB hW hR
      fuel { buffer := [], end_ := 0, subj := S, world := w, visited := [] } rfl (le_refl _)
      (by dsimp only; omega) Engine.searched.first (by dsimp only; omega)
      (by dsimp only; omega)
    dsimp only at hrun hfin
    rw [hrun]
    simp only [Res.bind_ok, hs1]
    rw [rb_str_buf_cat_slice st1.buffer S st1.end_ S.length he0 he1 (le_refl _)]
    simp only [Res.bind_ok, Bool.false_eq_true, if_false, Res.pure_eq]
    refine ⟨_, rfl, ?_⟩
    dsimp only
    rw [hfin, List.nil_append, slice_full]

/-- C31: replacing every match by itself is the identity. In an ASCII-compatible
encoding, for a subject `S` and an engine whose matches satisfy
`start <= begin <= end <= len(S)`, the character after every zero-width match inside
`S` being at least one byte wide and wholly inside `S` (well-formed characters), `sub`
and `gsub` with the template `\&` return a new string byte-equal to `S`, once the fuel
exceeds `len(S)`: whether or not the pattern matches, and whatever the widths of the
matches. The same holds with the template `\0` when group 0 counts among the groups of
every region the engine reports. -/
theorem replacing_matches_by_themselves_is_identity (E : Engine) (S : Bytes) (ptr : Nat)
    (w : World) (fuel : Nat) (hasc : E.encoding.ascii_compatible)
    (hB : E.in_bounds S) (hW : E.whole_chars S) (hf : S.length < fuel) :
    (∃ out, (og_oniguruma_oregexp_sub E [0x5c, 0x26] none { ptr := ptr, bytes := S } w fuel).result
        = .ok out ∧ out.value = .fresh S) ∧
    (∃ out, (og_oniguruma_oregexp_gsub E [0x5c, 0x26] none { ptr := ptr, bytes := S } w fuel).result
        = .ok out ∧ out.value = .fresh S) ∧
    ((∀ start : Int, 0 ≤ (E.search S start S.length).1 →
        0 < (E.search S start S.length).2.num_regs) →
      (∃ out, (og_oniguruma_oregexp_sub E [0x5c, 0x30] none { ptr := ptr, bytes := S } w
          fuel).result = .ok out ∧ out.value = .fresh S) ∧
      (∃ out, (og_oniguruma_oregexp_gsub E [0x5c, 0x30] none { ptr := ptr, bytes := S } w
          fuel).result = .ok out ∧ out.value = .fresh S)) := by
  have hamp : ∀ start : Int, E.searched S start → 0 ≤ start → start ≤ S.length →
      0 ≤ (E.search S start S.length).1 →
      ∀ b e : Int, region_at (E.search S start S.length).2.beg 0 = .ok b →
        region_at (E.search S start S.length).2.end_ 0 = .ok e →
        replacement_chunk E S [0x5c, 0x26] (E.search S start S.length).2
          = .ok (slice S b e) := by
    intro start _ h0 h1 hs b e hb he
    obtain ⟨b1, e1, hb1, he1, h2, h3, h4⟩ := hB start h0 h1 hs
    rw [hb] at hb1
    rw [he] at he1
    cases hb1
    cases he1
    exact whole_match_chunk E S _ b e hasc hb he (by omega) h3 h4
  refine ⟨substitution_identity E S _ false ptr w fuel hB hW hamp hf,
    substitution_identity E S _ true ptr w fuel hB hW hamp hf, ?_⟩
  intro hn
  have hzero : ∀ start : Int, E.searched S start → 0 ≤ start → start ≤ S.length →
      0 ≤ (E.search S start S.length).1 →
      ∀ b e : Int, region_at (E.search S start S.length).2.beg 0 = .ok b →
        region_at (E.search S start S.length).2.end_ 0 = .ok e →
        replacement_chunk E S [0x5c, 0x30] (E.search S start S.length).2
          = .ok (slice S b e) := by
    intro start _ h0 h1 hs b e hb he
    obtain ⟨b1, e1, hb1, he1, h2, h3, h4⟩ := hB start h0 h1 hs
    rw [hb] at hb1
    rw [he] at he1
    cases hb1
    cases he1
    exact group_zero_chunk E S _ b e hasc (hn start hs) hb he (by omega) h3 h4
  exact ⟨substitution_identity E S _ false ptr w fuel hB hW hzero hf,
    substitution_identity E S _ true ptr w fuel hB hW hzero hf⟩

theorem empty_pattern_engine_num_regs (enc : OnigEncoding) (S : Bytes) (start : Int)
    (hs : 0 ≤ ((empty_pattern_engine enc).search S start S.length).1) :
    0 < ((empty_pattern_engine enc).search S start S.length).2.num_regs := by
  simp only [empty_pattern_engine] at hs ⊢
  split_ifs at hs ⊢ with hc
  · simp [region_of]
  · simp [ONIG_MISMATCH] at hs

/-- C31 at a concrete input: for the pattern that matches the empty string everywhere,
on `"ab"` in ASCII, `gsub` with the template `\&` returns `"ab"`, as does `gsub` with
the template `\0`. -/
theorem replacing_matches_by_themselves_is_identity_witness :
    (∃ out, (og_oniguruma_oregexp_gsub (empty_pattern_engine ONIG_ENCODING_ASCII) [0x5c, 0x26]
        none { ptr := 0, bytes := [0x61, 0x62] } World.init 3).result = .ok out ∧
      out.value = .fresh [0x61, 0x62]) ∧
    (∃ out, (og_oniguruma_oregexp_gsub (empty_pattern_engine ONIG_ENCODING_ASCII) [0x5c, 0x30]
        none { ptr := 0, bytes := [0x61, 0x62] } World.init 3).result = .ok out ∧
      out.value = .fresh [0x61, 0x62]) :=
  have h := replacing_matches_by_themselves_is_identity (empty_pattern_engine ONIG_ENCODING_ASCII)
    [0x61, 0x62] 0 World.init 3 ONIG_ENCODING_ASCII_ascii_compatible
    (empty_pattern_engine_in_bounds _ _) (empty_pattern_engine_whole_chars _) (by decide)
  ⟨h.2.1, (h.2.2 (empty_pattern_engine_num_regs _ _)).2⟩

/-! ## C32: the matches of `scan` do not overlap -/

theorem matches_in_bounds_after_start (E : Engine) (S : Bytes) (h : E.matches_in_bounds S) :
    E.matches_after_start S := by
  intro start h0 hs
  obtain ⟨b, e, hb, he, h1, h2, _⟩ := h start h0 hs
  exact ⟨b, e, hb, he, h1, h2⟩

/-- Under the engine contract the matches of successive successful searches lie apart,
each with its begin at or before its end. -/
theorem searches_again_apart (E : Engine) (S : Bytes)
    (hS : well_formed_characters E.encoding S) (hb : E.matches_after_start S) :
    ∀ (starts : List Int) (start : Int), 0 ≤ start → 0 ≤ (E.search S start S.length).1 →
      List.Chain (E.searches_again S) start starts →
      List.Chain (fun s s' : Int =>
        apart E.encoding S
          (og_oniguruma_oregexp_do_match E (E.search S s S.length).2 S World.init).1
          (og_oniguruma_oregexp_do_match E (E.search S s' S.length).2 S World.init).1)
        start starts ∧
      ∀ s ∈ start :: starts,
        (E.search S s S.length).2.span0.1 ≤ (E.search S s S.length).2.span0.2 := by
  intro starts
  induction starts with
  | nil =>
    intro start h0 hs _
    obtain ⟨b, e, hbeg, hend, _, h2⟩ := hb start h0 hs
    refine ⟨List.Chain.nil, ?_⟩
    intro s hmem
    simp only [List.mem_singleton] at hmem
    subst hmem
    unfold OnigRegion.span0
    rw [region_at_zero hbeg, region_at_zero hend]
    exact h2
  | cons x xs ih =>
    intro start h0 hs hch
    obtain ⟨b1, e1, hbeg, hend, h1, h2⟩ := hb start h0 hs
    cases hch with
    | cons hx hrest =>
      obtain ⟨hnext, hsx⟩ := hx
      have hx0 : 0 ≤ x ∧ e1 ≤ x ∧ b1 < x ∧
          (b1 = e1 → x = e1 + E.encoding.mbc_enc_len (S.drop e1.toNat)) := by
        unfold Engine.next_start at hnext
        rw [hbeg, hend] at hnext
        dsimp only at hnext
        split_ifs at hnext with hbe hlen
        · cases hnext
          have := hS e1.toNat (by omega)
          refine ⟨by omega, by omega, by omega, fun _ => rfl⟩
        · cases hnext
          exact ⟨by omega, le_refl _, by omega, fun h => absurd h hbe⟩
      obtain ⟨b2, e2, hbeg2, hend2, h3, _⟩ := hb x hx0.1 hsx
      obtain ⟨hc, hall⟩ := ih x hx0.1 hsx hrest
      refine ⟨List.Chain.cons ?_ hc, ?_⟩
      · unfold apart OnigRegion.span0
        simp only [og_oniguruma_oregexp_do_match]
        rw [region_at_zero hbeg, region_at_zero hend, region_at_zero hbeg2]
        refine ⟨by omega, by omega, ?_⟩
        intro hbe
        have := hx0.2.2.2 hbe
        omega
      · intro s hmem
        rcases List.mem_cons.mp hmem with h | h
        · subst h
          unfold OnigRegion.span0
          rw [region_at_zero hbeg, region_at_zero hend]
          exact h2
        · exact hall s h

/-- C32: the matches `scan` returns do not overlap and none is repeated. For a subject
`S` whose characters are at least one byte wide and an engine whose matches satisfy
`start <= begin <= end` (the status of a successful search being the begin of the
match), whenever `scan` without a block returns a list, any two consecutive results
`(b1, e1)`, `(b2, e2)` of the list satisfy `e1 <= b2` and `b1 < b2`, and when `(b1, e1)`
is zero-width `(b2, e2)` begins at least one character after `e1`; each result has
`b <= e`. When the matches also end inside `S`, `scan` does return once the fuel
exceeds `len(S)`. -/
theorem scan_matches_do_not_overlap (E : Engine) (S : Bytes) (ptr : Nat) (w : World)
    (fuel : Nat) (hS : well_formed_characters E.encoding S)
    (hb : E.matches_after_start S) (hr : E.returns_begin S) :
    (∀ (out : ScanOut) (ms : List MatchData),
      (og_oniguruma_oregexp_scan E none { ptr := ptr, bytes := S } w fuel).result = .ok out →
      out.value = some ms →
      List.Chain' (apart E.encoding S) ms ∧
      ∀ m ∈ ms, m.region.span0.1 ≤ m.region.span0.2) ∧
    (E.matches_in_bounds S → S.length < fuel →
      ∃ out, (og_oniguruma_oregexp_scan E none { ptr := ptr, bytes := S } w fuel).result
        = .ok out) := by
  refine ⟨?_, fun hin hf => scan_returns E S ptr w fuel hS hin hr hf⟩
  intro out ms hout hv
  rcases scan_trace E S ptr w fuel hr out hout with ⟨_, hnone⟩ | ⟨starts, hss, hsome⟩
  · rw [hnone] at hv
    cases hv
  · rw [hsome] at hv
    cases hv
    obtain ⟨hhead, hs0, hch, _⟩ := hss
    cases starts with
    | nil => cases hhead
    | cons x xs =>
      simp only [List.head?_cons, Option.some.injEq] at hhead
      subst hhead
      obtain ⟨hc, hall⟩ := searches_again_apart E S hS hb xs 0 (le_refl _) hs0 hch
      refine ⟨?_, ?_⟩
      · rw [List.chain'_map]
        exact hc
      · intro m hm
        obtain ⟨s, hs, rfl⟩ := List.mem_map.mp hm
        exact hall s hs

theorem empty_pattern_engine_matches_after_start (enc : OnigEncoding) (S : Bytes) :
    (empty_pattern_engine enc).matches_after_start S :=
  matches_in_bounds_after_start _ _ (empty_pattern_engine_matches_in_bounds enc S)

theorem scan_matches_do_not_overlap_witness :
    well_formed_characters ONIG_ENCODING_ASCII [0x61, 0x62] ∧
    (empty_pattern_engine ONIG_ENCODING_ASCII).matches_after_start [0x61, 0x62] ∧
    (empty_pattern_engine ONIG_ENCODING_ASCII).returns_begin [0x61, 0x62] ∧
    ∃ (out : ScanOut) (ms : List MatchData),
      (og_oniguruma_oregexp_scan (empty_pattern_engine ONIG_ENCODING_ASCII) none
        { ptr := 0, bytes := [0x61, 0x62] } World.init 3).result = .ok out ∧
      out.value = some ms ∧
      ms.map (fun m => m.region.span0) = [(0, 0), (1, 1), (2, 2)] ∧
      List.Chain' (apart ONIG_ENCODING_ASCII [0x61, 0x62]) ms ∧
      ∀ m ∈ ms, m.region.span0.1 ≤ m.region.span0.2 :=
  have h := scan_matches_do_not_overlap (empty_pattern_engine ONIG_ENCODING_ASCII)
    [0x61, 0x62] 0 World.init 3 (by decide)
    (empty_pattern_engine_matches_after_start _ _) (empty_pattern_engine_returns_begin _ _)
  ⟨by decide, empty_pattern_engine_matches_after_start _ _,
    empty_pattern_engine_returns_begin _ _, _, _, rfl, rfl, rfl, h.1 _ _ rfl rfl⟩

end Oniguruma
